import Mathlib

/-!
# depgraph: loading a dependency graph

A shallow embedding of `depgraph.go` (package `depgraph`): the `Graph`, `Node`,
`NodeRelationship` and `Edge` records and the loader `New`, together with the
library operations `New` calls (`strings.HasPrefix`, `filepath.Base`,
`os.IsNotExist`, `errors.Wrap`, `errors.Errorf`, `json.Unmarshal`).

Conventions
* a Go `string` or `[]byte` is a Lean `String`; byte-level operations are done
  on its list of characters;
* a Go `error` is `Option GoError`, `none` being `nil`;
* a `*Graph` is `Option Graph`, `none` being `nil`;
* a slice is a `Slice`: its elements, and the elements its backing array still
  holds beyond its length (a `nil` slice and an empty one are not told apart);
* `int` is `Int` restricted to the 64-bit range when decoded;
* `time.Duration` is an `Int` number of nanoseconds.
-/

namespace Depgraph

/-! ## Errors -/

/-- Error numbers reported by the operating system for a path. -/
inductive Errno where
  | ENOENT
  | EACCES
  | EISDIR
  | ENOTDIR
  deriving DecidableEq, Repr

/-- The text of an error number. -/
def Errno.Error : Errno → String
  | .ENOENT => "no such file or directory"
  | .EACCES => "permission denied"
  | .EISDIR => "is a directory"
  | .ENOTDIR => "not a directory"

/-- Go error values that `New` can create or pass on. -/
inductive GoError where
  /-- an error made by `errors.Errorf` or `errors.New` -/
  | fundamental (msg : String)
  /-- an error made by `errors.Wrap cause msg` -/
  | withMessage (cause : GoError) (msg : String)
  /-- an `*os.PathError` -/
  | pathError (op : String) (path : String) (err : Errno)
  /-- a `*json.SyntaxError` -/
  | syntaxError (msg : String)
  /-- a `*json.UnmarshalTypeError` -/
  | unmarshalTypeError (value : String) (type : String) (struct : String) (field : String)
  deriving DecidableEq, Repr

/-- The method `Error()` of an error value. -/
def GoError.Error : GoError → String
  | .fundamental msg => msg
  | .withMessage cause msg => msg ++ ": " ++ cause.Error
  | .pathError op path err => op ++ " " ++ path ++ ": " ++ err.Error
  | .syntaxError msg => msg
  | .unmarshalTypeError value type struct field =>
      if struct ≠ "" ∨ field ≠ "" then
        "json: cannot unmarshal " ++ value ++ " into Go struct field " ++ struct ++ "." ++ field
          ++ " of type " ++ type
      else
        "json: cannot unmarshal " ++ value ++ " into Go value of type " ++ type

/-- The function `errors.Cause`: the innermost error of a chain of wraps. -/
def GoError.Cause : GoError → GoError
  | .withMessage cause _ => cause.Cause
  | e => e

namespace errors

/-- The function `errors.Wrap`: annotate `err` with `message`; `nil` stays `nil`. -/
def Wrap (err : Option GoError) (message : String) : Option GoError :=
  match err with
  | none => none
  | some e => some (.withMessage e message)

/-- The call `errors.Errorf("could not find file %s", path)`: the format has one
`%s` verb, replaced by the string argument. -/
def Errorf (before : String) (arg : String) : GoError :=
  .fundamental (before ++ arg)

end errors

namespace os

/-- The function `os.IsNotExist`: whether the error reports a missing file. -/
def IsNotExist (err : Option GoError) : Bool :=
  match err with
  | some (.pathError _ _ .ENOENT) => true
  | _ => false

end os

/-! ## Strings and paths -/

namespace strings

/-- The function `strings.HasPrefix s p`: `s` begins with `p`. -/
def HasPrefix (s p : String) : Bool :=
  p.toList.isPrefixOf s.toList

end strings

namespace filepath

/-- Strip trailing slashes: the first loop of `filepath.Base`. -/
def stripTrailing (cs : List Char) : List Char :=
  (cs.reverse.dropWhile (· == '/')).reverse

/-- The last element: the second loop of `filepath.Base`, the text after the
last slash (everything when there is none). -/
def lastElement (cs : List Char) : List Char :=
  (cs.reverse.takeWhile (· != '/')).reverse

/-- The function `filepath.Base` with `/` as separator and no volume names. -/
def Base (path : String) : String :=
  if path = "" then "."
  else
    let p := lastElement (stripTrailing path.toList)
    if p = [] then "/" else String.mk p

end filepath

namespace time

/-- The constant `time.Hour`, in nanoseconds. -/
def Hour : Int := 3600000000000

end time

/-! ## JSON documents

`json.Unmarshal` first checks that its input is one valid JSON text and then
decodes it into the target value.  The text layer is `json.scan`, which yields
the document as a `JSON` value (object members kept in document order,
duplicates included, numbers kept as their literal); the decoding layer follows
below. -/

/-- A JSON value as read from a text. -/
inductive JSON where
  | null
  | bool (b : Bool)
  | number (lit : String)
  | string (s : String)
  | array (elems : List JSON)
  | object (members : List (String × JSON))
  deriving Repr

namespace json

/-- Result of scanning a piece of text: a value and the rest, or a complaint. -/
abbrev Scan (α : Type) := Except String (α × List Char)

/-- The complaint of the scanner when the text ends too early. -/
def eofMsg : String := "unexpected end of JSON input"

/-- Lower-case hexadecimal digit. -/
def hexDigit (n : Nat) : Char :=
  if n < 10 then Char.ofNat (48 + n) else Char.ofNat (87 + n)

/-- The function `quoteChar` of the scanner, applied to the first byte of the
UTF-8 encoding of `c`. -/
def quoteChar (c : Char) : String :=
  let n := c.toNat
  if c = '\'' then "'\\''"
  else if c = '"' then "'\"'"
  else if c = '\\' then "'\\\\'"
  else if n = 7 then "'\\a'"
  else if n = 8 then "'\\b'"
  else if n = 12 then "'\\f'"
  else if n = 10 then "'\\n'"
  else if n = 13 then "'\\r'"
  else if n = 9 then "'\\t'"
  else if n = 11 then "'\\v'"
  else if n < 32 ∨ n = 127 then String.mk ['\'', '\\', 'x', hexDigit (n / 16), hexDigit (n % 16), '\'']
  else if n < 128 then String.mk ['\'', c, '\'']
  else if n < 2048 then String.mk ['\'', Char.ofNat (192 + n / 64), '\'']
  else if n < 65536 then String.mk ['\'', Char.ofNat (224 + n / 4096), '\'']
  else String.mk ['\'', Char.ofNat (240 + n / 262144), '\'']

/-- The scanner's complaint about character `c` in the given context. -/
def invalid (c : Char) (context : String) : String :=
  "invalid character " ++ quoteChar c ++ " " ++ context

/-- White space between tokens. -/
def isSpace (c : Char) : Bool :=
  c = ' ' ∨ c = '\t' ∨ c = '\r' ∨ c = '\n'

/-- Drop leading white space. -/
def skipSpace : List Char → List Char
  | [] => []
  | c :: cs => if isSpace c then skipSpace cs else c :: cs

/-- Value of a hexadecimal digit. -/
def hexVal (c : Char) : Option Nat :=
  let n := c.toNat
  if 48 ≤ n ∧ n ≤ 57 then some (n - 48)
  else if 97 ≤ n ∧ n ≤ 102 then some (n - 87)
  else if 65 ≤ n ∧ n ≤ 70 then some (n - 55)
  else none

/-- The replacement character U+FFFD. -/
def replacementChar : Char := Char.ofNat 65533

/-- Characters to emit for a pending unpaired surrogate. -/
def flush (pending : Option Nat) : List Char :=
  match pending with
  | none => []
  | some _ => [replacementChar]

/-- The character a one-letter escape stands for. -/
def unescape (e : Char) : Option Char :=
  if e = 'b' then some (Char.ofNat 8)
  else if e = 'f' then some (Char.ofNat 12)
  else if e = 'n' then some '\n'
  else if e = 'r' then some '\r'
  else if e = 't' then some '\t'
  else if e = '\\' ∨ e = '/' ∨ e = '"' then some e
  else none

/-- The effect of the code unit `v` of a `\u` escape when the high surrogate
`pending` (if any) is waiting for its pair: the surrogate left waiting, and the
characters read so far, last first. -/
def utf16 (pending : Option Nat) (acc : List Char) (v : Nat) : Option Nat × List Char :=
  if 56320 ≤ v ∧ v ≤ 57343 then
    match pending with
    | some hi => (none, Char.ofNat (65536 + (hi - 55296) * 1024 + (v - 56320)) :: acc)
    | none => (none, replacementChar :: acc)
  else if 55296 ≤ v ∧ v ≤ 56319 then (some v, flush pending ++ acc)
  else (none, Char.ofNat v :: (flush pending ++ acc))

/-- Where the scanner is inside a string literal: among its characters, after a
backslash, or in a `\u` escape with `left` hexadecimal digits still to read and
the digits read so far worth `value`. -/
inductive StringState where
  | plain
  | escape
  | hex (left : Nat) (value : Nat)
  deriving DecidableEq, Repr

/-- Scan a string literal after its opening quote, one character at a time,
unquoting it on the way.  `pending` holds a high surrogate read from a `\u`
escape and not yet paired; `acc` holds the characters read so far, last first. -/
def scanString (pending : Option Nat) (st : StringState) (acc : List Char) :
    List Char → Scan String
  | [] => .error eofMsg
  | c :: cs =>
    match st with
    | .plain =>
      if c = '"' then .ok (String.mk (flush pending ++ acc).reverse, cs)
      else if c = '\\' then scanString pending .escape acc cs
      else if c.toNat < 32 then .error (invalid c "in string literal")
      else scanString none .plain (c :: (flush pending ++ acc)) cs
    | .escape =>
      if c = 'u' then scanString pending (.hex 4 0) acc cs
      else
        match unescape c with
        | none => .error (invalid c "in string escape code")
        | some o => scanString none .plain (o :: (flush pending ++ acc)) cs
    | .hex left value =>
      match hexVal c with
      | none => .error (invalid c "in \\u hexadecimal character escape")
      | some d =>
        if left ≤ 1 then
          scanString (utf16 pending acc (value * 16 + d)).1 .plain
            (utf16 pending acc (value * 16 + d)).2 cs
        else scanString pending (.hex (left - 1) (value * 16 + d)) acc cs

/-- Take the leading decimal digits. -/
def digits : List Char → List Char × List Char
  | [] => ([], [])
  | c :: cs =>
    if c.isDigit then ((digits cs).1.cons c, (digits cs).2) else ([], c :: cs)

/-- The exponent part of a number literal, if any, after the part `lit`. -/
def scanExponent (lit : List Char) (cs : List Char) : Scan String :=
  match cs with
  | [] => .ok (String.mk lit, [])
  | e :: cs1 =>
    if e = 'e' ∨ e = 'E' then
      let (sign, cs2) : List Char × List Char :=
        match cs1 with
        | s :: r => if s = '+' ∨ s = '-' then ([s], r) else ([], cs1)
        | [] => ([], cs1)
      match digits cs2 with
      | ([], []) => .error eofMsg
      | ([], c :: _) => .error (invalid c "in exponent of numeric literal")
      | (ds, rest) => .ok (String.mk (lit ++ e :: sign ++ ds), rest)
    else .ok (String.mk lit, cs)

/-- The fraction and exponent parts of a number literal, after the integer part `lit`. -/
def scanFraction (lit : List Char) (cs : List Char) : Scan String :=
  match cs with
  | [] => .ok (String.mk lit, [])
  | d :: cs1 =>
    if d = '.' then
      match digits cs1 with
      | ([], []) => .error eofMsg
      | ([], c :: _) => .error (invalid c "after decimal point in numeric literal")
      | (ds, rest) => scanExponent (lit ++ d :: ds) rest
    else scanExponent lit cs

/-- Scan a number literal whose sign (if any) has been read into `sign`. -/
def scanNumber (sign : List Char) (cs : List Char) : Scan String :=
  match cs with
  | [] => .error eofMsg
  | c :: cs1 =>
    if c = '0' then scanFraction (sign ++ [c]) cs1
    else if c.isDigit then scanFraction (sign ++ c :: (digits cs1).1) (digits cs1).2
    else .error (invalid c ("in numeric literal"))

/-- Scan the rest of a literal name (`true`, `false`, `null`) after its first letter. -/
def scanLiteral (name : String) (v : JSON) : List Char → List Char → Scan JSON
  | [], cs => .ok (v, cs)
  | _ :: _, [] => .error eofMsg
  | x :: xs, c :: cs =>
    if c = x then scanLiteral name v xs cs
    else .error (invalid c ("in literal " ++ name ++ " (expecting " ++ quoteChar x ++ ")"))

/-- The deepest nesting of arrays and objects the scanner accepts. -/
def maxNestingDepth : Nat := 10000

mutual

/-- Scan one value; `depth` counts the enclosing arrays and objects. -/
def scanValue : Nat → Nat → List Char → Scan JSON
  | 0, _, _ => .error eofMsg
  | fuel + 1, depth, cs =>
    match skipSpace cs with
    | [] => .error eofMsg
    | c :: rest =>
      if c = '{' then
        if depth + 1 > maxNestingDepth then .error (invalid c "exceeded max depth")
        else
          match skipSpace rest with
          | [] => .error eofMsg
          | c1 :: rest1 =>
            if c1 = '}' then .ok (.object [], rest1)
            else scanMembers fuel (depth + 1) [] (c1 :: rest1)
      else if c = '[' then
        if depth + 1 > maxNestingDepth then .error (invalid c "exceeded max depth")
        else
          match skipSpace rest with
          | [] => .error eofMsg
          | c1 :: rest1 =>
            if c1 = ']' then .ok (.array [], rest1)
            else scanElems fuel (depth + 1) [] (c1 :: rest1)
      else if c = '"' then
        match scanString none .plain [] rest with
        | .error e => .error e
        | .ok (s, rest1) => .ok (.string s, rest1)
      else if c = '-' then
        match scanNumber [c] rest with
        | .error e => .error e
        | .ok (lit, rest1) => .ok (.number lit, rest1)
      else if c.isDigit then
        match scanNumber [] (c :: rest) with
        | .error e => .error e
        | .ok (lit, rest1) => .ok (.number lit, rest1)
      else if c = 't' then scanLiteral "true" (.bool true) ['r', 'u', 'e'] rest
      else if c = 'f' then scanLiteral "false" (.bool false) ['a', 'l', 's', 'e'] rest
      else if c = 'n' then scanLiteral "null" .null ['u', 'l', 'l'] rest
      else .error (invalid c "looking for beginning of value")

/-- Scan the elements of an array up to its closing bracket; `acc` holds the
elements read so far, last first. -/
def scanElems : Nat → Nat → List JSON → List Char → Scan JSON
  | 0, _, _, _ => .error eofMsg
  | fuel + 1, depth, acc, cs =>
    match scanValue fuel depth cs with
    | .error e => .error e
    | .ok (v, rest) =>
      match skipSpace rest with
      | [] => .error eofMsg
      | c :: rest1 =>
        if c = ',' then scanElems fuel depth (v :: acc) rest1
        else if c = ']' then .ok (.array (v :: acc).reverse, rest1)
        else .error (invalid c "after array element")

/-- Scan the members of an object up to its closing brace; `acc` holds the
members read so far, last first. -/
def scanMembers : Nat → Nat → List (String × JSON) → List Char → Scan JSON
  | 0, _, _, _ => .error eofMsg
  | fuel + 1, depth, acc, cs =>
    match skipSpace cs with
    | [] => .error eofMsg
    | q :: rest =>
      if q = '"' then
        match scanString none .plain [] rest with
        | .error e => .error e
        | .ok (key, rest1) =>
          match skipSpace rest1 with
          | [] => .error eofMsg
          | colon :: rest2 =>
            if colon = ':' then
              match scanValue fuel depth rest2 with
              | .error e => .error e
              | .ok (v, rest3) =>
                match skipSpace rest3 with
                | [] => .error eofMsg
                | c :: rest4 =>
                  if c = ',' then scanMembers fuel depth ((key, v) :: acc) rest4
                  else if c = '}' then .ok (.object ((key, v) :: acc).reverse, rest4)
                  else .error (invalid c "after object key:value pair")
            else .error (invalid colon "after object key")
      else .error (invalid q "looking for beginning of object key string")

end

/-- Read `data` as one JSON text.  The scanner is fed one space at the end of
the input, as `checkValid` does, and nothing but white space may follow the
value. -/
def scan (data : String) : Except String JSON :=
  let cs := data.toList ++ [' ']
  match scanValue (2 * cs.length + 2) 0 cs with
  | .error e => .error e
  | .ok (v, rest) =>
    match skipSpace rest with
    | [] => .ok v
    | c :: _ => .error (invalid c "after top-level value")

end json

/-! ## The data model (`depgraph.go`, lines 14 to 50) -/

/-- Modelled from the spec: the type `NodeType`, declared outside `depgraph.go`:
the category of a node, a string-kinded enumeration whose members are not
enforced when decoding. -/
abbrev NodeType := String

/-- Modelled from the spec: the type `EdgeType`, declared outside `depgraph.go`:
the kind of an edge group, mirroring `NodeType`. -/
abbrev EdgeType := String

/-- A Go slice.  `elems` are its elements.  `spare` is what its backing array
holds beyond its length: elements of an earlier, longer content, which the
decoder decodes into again when the slice grows back over them (storage that was
never written is zero and is not listed). -/
structure Slice (α : Type) where
  elems : List α
  spare : List α
  deriving DecidableEq, Repr

/-- The slice with the elements `l` and nothing beyond them. -/
def Slice.of {α : Type} (l : List α) : Slice α := ⟨l, []⟩

/-- The `nil` slice. -/
def Slice.nil {α : Type} : Slice α := ⟨[], []⟩

/-- The struct `NodeRelationship`: a reference to a node. -/
structure NodeRelationship where
  GraphID : Int
  Name : String
  deriving DecidableEq, Repr

/-- The anonymous struct type of the field `Node.Relationships`. -/
structure Relationships where
  DependentLibraries : Slice String
  Libraries : Slice String
  Files : Slice String
  DependentFiles : Slice String
  Type_ : NodeType
  deriving DecidableEq, Repr

/-- The struct `Node`. -/
structure Node where
  Name : String
  GraphID : Int
  Relationships : Relationships
  deriving DecidableEq, Repr

/-- The struct `Edge`: a group of edges from one node. -/
structure Edge where
  Type_ : EdgeType
  FromNode : NodeRelationship
  ToNodes : Slice NodeRelationship
  deriving DecidableEq, Repr

/-- The struct `Graph`. -/
structure Graph where
  Edges : Slice Edge
  Nodes : Slice Node
  BuildID : String
  deriving DecidableEq, Repr

/-- Zero value of `NodeRelationship`. -/
def NodeRelationship.zero : NodeRelationship := ⟨0, ""⟩

/-- Zero value of the relationships struct. -/
def Relationships.zero : Relationships := ⟨.nil, .nil, .nil, .nil, ""⟩

/-- Zero value of `Node`. -/
def Node.zero : Node := ⟨"", 0, Relationships.zero⟩

/-- Zero value of `Edge`. -/
def Edge.zero : Edge := ⟨"", NodeRelationship.zero, .nil⟩

/-- The value `&Graph{}`. -/
def Graph.zero : Graph := ⟨.nil, .nil, ""⟩

/-! ## Decoding a document into a `Graph`

The decoder of `encoding/json`, specialised to the struct types and `json:` tags
above.  A value is decoded *into* an existing one: `null` leaves strings,
integers and structs as they are and sets a slice to `nil`; an object sets the
fields its members name, in document order, and skips the others; an array
decodes its `i`-th element into what the backing array of the existing slice
holds at index `i` (an element of the slice, a stale element beyond its length,
or a zero value), and an empty array gives a fresh empty slice.  A value of the
wrong shape leaves its target unchanged and records an `UnmarshalTypeError`;
decoding goes on and the first error recorded is the one returned. -/

namespace json

/-- Where the decoder is: the struct type being filled and the stack of field names. -/
structure Context where
  Struct : String
  FieldStack : List String
  deriving DecidableEq, Repr

/-- The context of the field `name` of struct type `struct`, reached from `ctx`. -/
def Context.field (ctx : Context) (struct name : String) : Context :=
  ⟨struct, ctx.FieldStack ++ [name]⟩

/-- The first of two possible errors: `saveError` keeps the error it already has. -/
def firstError (a b : Option GoError) : Option GoError :=
  match a with
  | some e => some e
  | none => b

/-- The `UnmarshalTypeError` for a value described by `value` that cannot be
stored in a target of type `type`. -/
def typeError (ctx : Context) (value type : String) : GoError :=
  .unmarshalTypeError value type ctx.Struct (".".intercalate ctx.FieldStack)

/-- The word the decoder uses for the shape of a value. -/
def kindName : JSON → String
  | .null => "null"
  | .bool _ => "bool"
  | .number _ => "number"
  | .string _ => "string"
  | .array _ => "array"
  | .object _ => "object"

/-- Fold one character for the case-insensitive comparison of keys: ASCII
letters to lower case, and the two characters that fold to ASCII letters. -/
def foldChar (c : Char) : Char :=
  if 65 ≤ c.toNat ∧ c.toNat ≤ 90 then Char.ofNat (c.toNat + 32)
  else if c.toNat = 383 then 's'
  else if c.toNat = 8490 then 'k'
  else c

/-- Case-insensitive equality of a field name and a key. -/
def equalFold (name key : String) : Bool :=
  name.toList.map foldChar == key.toList.map foldChar

/-- Index of the first element satisfying `p`. -/
def indexWhere (p : String → Bool) : List String → Option Nat
  | [] => none
  | n :: ns => if p n then some 0 else (indexWhere p ns).map (· + 1)

/-- The field a key names: the field whose name is the key, or else the first
field whose name equals the key case-insensitively. -/
def findField (names : List String) (key : String) : Option Nat :=
  match indexWhere (fun n => n == key) names with
  | some i => some i
  | none => indexWhere (fun n => equalFold n key) names

/-- The function `strconv.ParseInt(lit, 10, 64)` on a number literal: its value
when the literal is an optional minus sign and decimal digits in the 64-bit range. -/
def parseInt64 (lit : String) : Option Int :=
  let cs := lit.toList
  let neg := cs.head? = some '-'
  let ds := if neg then cs.tail else cs
  if ds ≠ [] ∧ ds.all Char.isDigit = true then
    let n : Nat := ds.foldl (fun a c => 10 * a + (c.toNat - 48)) 0
    let v : Int := if neg then -(n : Int) else (n : Int)
    if -9223372036854775808 ≤ v ∧ v ≤ 9223372036854775807 then some v else none
  else none

/-- Decode into a target of string kind whose type is printed `type`. -/
def decodeString (type : String) (ctx : Context) (old : String) (v : JSON) :
    String × Option GoError :=
  match v with
  | .null => (old, none)
  | .string s => (s, none)
  | v => (old, some (typeError ctx (kindName v) type))

/-- Decode into an `int`. -/
def decodeInt (ctx : Context) (old : Int) (v : JSON) : Int × Option GoError :=
  match v with
  | .null => (old, none)
  | .number lit =>
    match parseInt64 lit with
    | some n => (n, none)
    | none => (old, some (typeError ctx ("number " ++ lit) "int"))
  | v => (old, some (typeError ctx (kindName v) "int"))

/-- Decode the elements of an array over the backing storage `mem`: the `i`-th
into `mem[i]`, or into `zero` beyond the end of `mem`.  The result is the
decoded elements, the storage left beyond them, and the first error. -/
def decodeElems {α : Type} (dec : α → JSON → α × Option GoError) (zero : α) :
    List α → List JSON → Slice α × Option GoError
  | mem, [] => (⟨[], mem⟩, none)
  | mem, v :: vs =>
    let r := dec (mem.headD zero) v
    let rs := decodeElems dec zero mem.tail vs
    (⟨r.1 :: rs.1.elems, rs.1.spare⟩, firstError r.2 rs.2)

/-- Decode into a slice whose type is printed `type`. -/
def decodeSlice {α : Type} (dec : α → JSON → α × Option GoError) (zero : α) (type : String)
    (ctx : Context) (old : Slice α) (v : JSON) : Slice α × Option GoError :=
  match v with
  | .null => (.nil, none)
  | .array [] => (.nil, none)
  | .array elems => decodeElems dec zero (old.elems ++ old.spare) elems
  | v => (old, some (typeError ctx (kindName v) type))

/-- Decode the members of an object into a struct, one after the other; `step`
stores one member. -/
def decodeMembers {σ : Type} (step : String → JSON → σ → σ × Option GoError) :
    List (String × JSON) → σ → σ × Option GoError
  | [], s => (s, none)
  | (k, v) :: ms, s =>
    let r := step k v s
    let rs := decodeMembers step ms r.1
    (rs.1, firstError r.2 rs.2)

/-- Decode into a struct whose type is printed `type`. -/
def decodeStruct {σ : Type} (step : String → JSON → σ → σ × Option GoError) (type : String)
    (ctx : Context) (old : σ) (v : JSON) : σ × Option GoError :=
  match v with
  | .null => (old, none)
  | .object ms => decodeMembers step ms old
  | v => (old, some (typeError ctx (kindName v) type))

/-- Decode into a `[]string`. -/
def decodeStrings (ctx : Context) (old : Slice String) (v : JSON) :
    Slice String × Option GoError :=
  decodeSlice (decodeString "string" ctx) "" "[]string" ctx old v

/-- Store one member of an object into a `NodeRelationship`
(fields `index`, `id`). -/
def stepNodeRelationship (ctx : Context) (k : String) (v : JSON) (s : NodeRelationship) :
    NodeRelationship × Option GoError :=
  match findField ["index", "id"] k with
  | some 0 =>
    let r := decodeInt (ctx.field "NodeRelationship" "index") s.GraphID v
    ({ s with GraphID := r.1 }, r.2)
  | some 1 =>
    let r := decodeString "string" (ctx.field "NodeRelationship" "id") s.Name v
    ({ s with Name := r.1 }, r.2)
  | _ => (s, none)

/-- Decode into a `NodeRelationship`. -/
def decodeNodeRelationship (ctx : Context) (old : NodeRelationship) (v : JSON) :
    NodeRelationship × Option GoError :=
  decodeStruct (stepNodeRelationship ctx) "depgraph.NodeRelationship" ctx old v

/-- The printed type of the field `Node.Relationships`. -/
def relationshipsType : String :=
  "struct \x7b DependentLibraries []string \"json:\\\"_dependent_libs\\\" bson:\\\"dependent_libs\\\"\"; "
    ++ "Libraries []string \"json:\\\"_libs\\\" bson:\\\"libs\\\"\"; "
    ++ "Files []string \"json:\\\"_files\\\" bson:\\\"files\\\"\"; "
    ++ "DependentFiles []string \"json:\\\"_dependent_files\\\" bson:\\\"dependent_files\\\"\"; "
    ++ "Type depgraph.NodeType \"json:\\\"type\\\" bson:\\\"type\\\"\" \x7d"

/-- Store one member of an object into the relationships of a node
(fields `_dependent_libs`, `_libs`, `_files`, `_dependent_files`, `type`). -/
def stepRelationships (ctx : Context) (k : String) (v : JSON) (s : Relationships) :
    Relationships × Option GoError :=
  match findField ["_dependent_libs", "_libs", "_files", "_dependent_files", "type"] k with
  | some 0 =>
    let r := decodeStrings (ctx.field "" "_dependent_libs") s.DependentLibraries v
    ({ s with DependentLibraries := r.1 }, r.2)
  | some 1 =>
    let r := decodeStrings (ctx.field "" "_libs") s.Libraries v
    ({ s with Libraries := r.1 }, r.2)
  | some 2 =>
    let r := decodeStrings (ctx.field "" "_files") s.Files v
    ({ s with Files := r.1 }, r.2)
  | some 3 =>
    let r := decodeStrings (ctx.field "" "_dependent_files") s.DependentFiles v
    ({ s with DependentFiles := r.1 }, r.2)
  | some 4 =>
    let r := decodeString "depgraph.NodeType" (ctx.field "" "type") s.Type_ v
    ({ s with Type_ := r.1 }, r.2)
  | _ => (s, none)

/-- Decode into the relationships of a node. -/
def decodeRelationships (ctx : Context) (old : Relationships) (v : JSON) :
    Relationships × Option GoError :=
  decodeStruct (stepRelationships ctx) relationshipsType ctx old v

/-- Store one member of an object into a `Node` (fields `id`, `index`, `node`). -/
def stepNode (ctx : Context) (k : String) (v : JSON) (s : Node) : Node × Option GoError :=
  match findField ["id", "index", "node"] k with
  | some 0 =>
    let r := decodeString "string" (ctx.field "Node" "id") s.Name v
    ({ s with Name := r.1 }, r.2)
  | some 1 =>
    let r := decodeInt (ctx.field "Node" "index") s.GraphID v
    ({ s with GraphID := r.1 }, r.2)
  | some 2 =>
    let r := decodeRelationships (ctx.field "Node" "node") s.Relationships v
    ({ s with Relationships := r.1 }, r.2)
  | _ => (s, none)

/-- Decode into a `Node`. -/
def decodeNode (ctx : Context) (old : Node) (v : JSON) : Node × Option GoError :=
  decodeStruct (stepNode ctx) "depgraph.Node" ctx old v

/-- Store one member of an object into an `Edge`
(fields `type`, `from_node`, `to_node`). -/
def stepEdge (ctx : Context) (k : String) (v : JSON) (s : Edge) : Edge × Option GoError :=
  match findField ["type", "from_node", "to_node"] k with
  | some 0 =>
    let r := decodeString "depgraph.EdgeType" (ctx.field "Edge" "type") s.Type_ v
    ({ s with Type_ := r.1 }, r.2)
  | some 1 =>
    let r := decodeNodeRelationship (ctx.field "Edge" "from_node") s.FromNode v
    ({ s with FromNode := r.1 }, r.2)
  | some 2 =>
    let r := decodeSlice (decodeNodeRelationship (ctx.field "Edge" "to_node"))
      NodeRelationship.zero "[]depgraph.NodeRelationship" (ctx.field "Edge" "to_node") s.ToNodes v
    ({ s with ToNodes := r.1 }, r.2)
  | _ => (s, none)

/-- Decode into an `Edge`. -/
def decodeEdge (ctx : Context) (old : Edge) (v : JSON) : Edge × Option GoError :=
  decodeStruct (stepEdge ctx) "depgraph.Edge" ctx old v

/-- Store one member of an object into a `Graph` (fields `edges`, `nodes`, `id`). -/
def stepGraph (ctx : Context) (k : String) (v : JSON) (s : Graph) : Graph × Option GoError :=
  match findField ["edges", "nodes", "id"] k with
  | some 0 =>
    let r := decodeSlice (decodeEdge (ctx.field "Graph" "edges")) Edge.zero "[]depgraph.Edge"
      (ctx.field "Graph" "edges") s.Edges v
    ({ s with Edges := r.1 }, r.2)
  | some 1 =>
    let r := decodeSlice (decodeNode (ctx.field "Graph" "nodes")) Node.zero "[]depgraph.Node"
      (ctx.field "Graph" "nodes") s.Nodes v
    ({ s with Nodes := r.1 }, r.2)
  | some 2 =>
    let r := decodeString "string" (ctx.field "Graph" "id") s.BuildID v
    ({ s with BuildID := r.1 }, r.2)
  | _ => (s, none)

/-- Decode into a `Graph`, from the top of the document. -/
def decodeGraph (old : Graph) (v : JSON) : Graph × Option GoError :=
  decodeStruct (stepGraph ⟨"", []⟩) "depgraph.Graph" ⟨"", []⟩ old v

/-- The function `json.Unmarshal(data, g)`: the graph `g` after the call and the
error returned.  A text that is not valid JSON leaves `g` untouched. -/
def Unmarshal (data : String) (g : Graph) : Graph × Option GoError :=
  match scan data with
  | .error msg => (g, some (.syntaxError msg))
  | .ok v => decodeGraph g v

end json

/-! ## The environment of a call

`New` reaches the outside through `os.Stat`, `ioutil.ReadFile` and the fetcher
`cacheDownload`.  The state they act on is a `World`; the calls `New` makes are
recorded, in order, in the outcome. -/

/-- The two steps of `ioutil.ReadFile` that can fail. -/
inductive ReadStep where
  | Open
  | Read
  deriving DecidableEq, Repr

/-- The name of a step, as it appears in an `*os.PathError`. -/
def ReadStep.name : ReadStep → String
  | .Open => "open"
  | .Read => "read"

/-- A slot of the cache storage: the bytes and the time they were stored. -/
structure CacheEntry where
  data : String
  storedAt : Int
  deriving DecidableEq, Repr

/-- The state outside the program. -/
structure World where
  /-- the error number the system answers to `stat` on a path (`none`: the call succeeds) -/
  stat : String → Option Errno
  /-- the content read from a path, or the step of `ioutil.ReadFile` that fails and
  the error number the system answers -/
  readFile : String → Except (ReadStep × Errno) String
  /-- the cache storage, by cache key -/
  cache : String → Option CacheEntry
  /-- the current time, in nanoseconds -/
  now : Int
  /-- the result of transferring a URL over the network -/
  remote : String → String × Option GoError
  /-- the error of writing a slot of the cache storage (`none`: the write succeeds) -/
  storeError : String → Option GoError
  /-- the URLs transferred over the network so far, latest first -/
  transfers : List String

/-- The result of a fetch: bytes, error, and the world afterwards. -/
structure Fetched where
  data : String
  err : Option GoError
  world : World

/-- The signature of the fetcher:
`cacheDownload(maxAge, url, cacheKey, forceRefresh)` run in a world. -/
abbrev Fetcher := World → Int → String → String → Bool → Fetched

/-- Modelled from the spec: the fetcher `cacheDownload`, declared outside
`depgraph.go`.  If a cache entry exists under `cacheKey`, its age is at most
`maxAge` and `forceRefresh` is false, the cached bytes are returned without any
network access.  Otherwise a fresh download is performed, persisted under
`cacheKey` and returned; a network or storage error is surfaced unmodified. -/
def cacheDownload : Fetcher := fun w maxAge url cacheKey forceRefresh =>
  let fresh : Option CacheEntry :=
    match w.cache cacheKey with
    | some entry => if w.now - entry.storedAt ≤ maxAge ∧ forceRefresh = false then some entry else none
    | none => none
  match fresh with
  | some entry => ⟨entry.data, none, w⟩
  | none =>
    let w1 : World := { w with transfers := url :: w.transfers }
    match (w.remote url).2 with
    | some err => ⟨"", some err, w1⟩
    | none =>
      match w.storeError cacheKey with
      | some err => ⟨"", some err, w1⟩
      | none =>
        ⟨(w.remote url).1, none,
          { w1 with cache := fun k => if k = cacheKey then some ⟨(w.remote url).1, w.now⟩ else w.cache k }⟩

namespace os

/-- The error of `os.Stat(path)`: `nil`, or the `*os.PathError` of the failed `stat`. -/
def Stat (w : World) (path : String) : Option GoError :=
  (w.stat path).map (fun e => .pathError "stat" path e)

end os

namespace ioutil

/-- The function `ioutil.ReadFile(path)`: the content, or the `*os.PathError` of
the step that failed. -/
def ReadFile (w : World) (path : String) : String × Option GoError :=
  match w.readFile path with
  | .ok data => (data, none)
  | .error (step, e) => ("", some (.pathError step.name path e))

end ioutil

/-- A call made by `New` to one of its collaborators. -/
inductive Call where
  | cacheDownload (maxAge : Int) (url : String) (cacheKey : String) (forceRefresh : Bool)
  | Stat (path : String)
  | ReadFile (path : String)
  | Unmarshal (data : String)
  deriving DecidableEq, Repr

/-- What a call of `New` returns and does: the two results, the world
afterwards and the calls made. -/
structure Outcome where
  graph : Option Graph
  err : Option GoError
  world : World
  calls : List Call

/-- The bytes obtained by the first part of `New`, or its early return. -/
inductive Obtained where
  | returned (out : Outcome)
  | data (bytes : String) (world : World) (calls : List Call)

/-! ## The loader (`depgraph.go`, lines 52 to 83) -/

/-- The function `New(build, path)`, run in world `w` with the fetcher `fetch`
standing for `cacheDownload`. -/
def New (fetch : Fetcher) (w : World) (build path : String) : Outcome :=
  let obtained : Obtained :=
    if strings.HasPrefix path "http" then
      let r := fetch w (300 * time.Hour) path (filepath.Base path) false
      let calls := [Call.cacheDownload (300 * time.Hour) path (filepath.Base path) false]
      match r.err with
      | some err => .returned ⟨none, errors.Wrap (some err) "problem downloading file", r.world, calls⟩
      | none => .data r.data r.world calls
    else if os.IsNotExist (os.Stat w path) then
      .returned ⟨none, some (errors.Errorf "could not find file " path), w, [.Stat path]⟩
    else
      let r := ioutil.ReadFile w path
      match r.2 with
      | some err => .returned ⟨none, some err, w, [.Stat path, .ReadFile path]⟩
      | none => .data r.1 w [.Stat path, .ReadFile path]
  match obtained with
  | .returned out => out
  | .data data w1 calls =>
    let r := json.Unmarshal data Graph.zero
    match r.2 with
    | some err =>
      ⟨none, errors.Wrap (some err) "problem reading json", w1, calls ++ [.Unmarshal data]⟩
    | none => ⟨some { r.1 with BuildID := build }, none, w1, calls ++ [.Unmarshal data]⟩

/-! ## Worlds used as concrete inputs -/

/-- A path below one of the regular files `files`. -/
def belowFile (files : List (String × String)) (p : String) : Bool :=
  files.any (fun f => (f.1.toList ++ ['/']).isPrefixOf p.toList)

/-- A file system holding the regular files `files` (path, content) and nothing
else; nothing cached, and every URL transfers as the text `remoteText`. -/
def worldOf (files : List (String × String)) (remoteText : String) : World where
  stat := fun p =>
    match files.lookup p with
    | some _ => none
    | none => if belowFile files p then some .ENOTDIR else some .ENOENT
  readFile := fun p =>
    match files.lookup p with
    | some d => .ok d
    | none => if belowFile files p then .error (.Open, .ENOTDIR) else .error (.Open, .ENOENT)
  cache := fun _ => none
  now := 0
  remote := fun _ => (remoteText, none)
  storeError := fun _ => none
  transfers := []

/-- The example document of the specification. -/
def exampleDocument : String :=
  "\x7b\"nodes\":[\x7b\"id\":\"a.go\",\"index\":0,\"node\":\x7b\"type\":\"file\"\x7d\x7d],\"edges\":[]\x7d"

/-- Whether a call is a call of the fetcher. -/
def Call.isFetch : Call → Bool
  | .cacheDownload _ _ _ _ => true
  | _ => false

/-- Whether a call consults the file system. -/
def Call.isFileSystem : Call → Bool
  | .Stat _ => true
  | .ReadFile _ => true
  | _ => false

/-- The cache key of a call of the fetcher. -/
def Call.cacheKey? : Call → Option String
  | .cacheDownload _ _ cacheKey _ => some cacheKey
  | _ => none

/-- The cache keys given to the fetcher in a list of calls. -/
def fetchKeys (calls : List Call) : List String :=
  calls.filterMap Call.cacheKey?

/-- The statement that `seg` is the last element of `text` read as a text
separated by slashes: `text` is some text that is empty or ends with a slash,
then `seg`, which is not empty and has no slash, then nothing but slashes.
Nothing in it knows of URLs: a query or a host can be the last element. -/
def IsLastElement (seg text : String) : Prop :=
  ∃ pre slashes : List Char,
    text.toList = pre ++ seg.toList ++ slashes ∧
    (∀ c ∈ slashes, c = '/') ∧
    '/' ∉ seg.toList ∧ seg.toList ≠ [] ∧
    (pre = [] ∨ pre.getLast? = some '/')

/-! ## The final path segment of a URL

The specification names the cache key as the final path segment of the remote
URL.  The definitions below read a URL by its parts, scheme, authority, path,
query and fragment, and give the final segment of its path.  They are the
reference `filepath.Base` is compared with. -/

namespace url

/-- A character of a scheme: a letter, a digit, `+`, `-` or `.`. -/
def isSchemeChar (c : Char) : Bool :=
  c.isAlphanum || c = '+' || c = '-' || c = '.'

/-- What follows `scheme://`, when the text begins with a scheme and `://`. -/
def afterScheme (cs : List Char) : Option (List Char) :=
  match cs.dropWhile isSchemeChar with
  | ':' :: '/' :: '/' :: rest => some rest
  | _ => none

/-- The path of a URL: what is left once the fragment (from the first `#`), the
query (from the first `?`), the scheme and the authority (up to the first slash
after `://`) are taken away.  A text without scheme is a path as a whole. -/
def path (s : String) : List Char :=
  match afterScheme ((s.toList.takeWhile (· != '#')).takeWhile (· != '?')) with
  | some rest => rest.dropWhile (· != '/')
  | none => (s.toList.takeWhile (· != '#')).takeWhile (· != '?')

/-- The last segment of a path: the text after its last slash. -/
def lastSegment : List Char → List Char
  | [] => []
  | c :: cs => if '/' ∈ cs then lastSegment cs else if c = '/' then cs else c :: cs

/-- The final path segment of a URL. -/
def finalPathSegment (s : String) : String :=
  String.mk (lastSegment (path s))

end url

namespace strings

/-- The function `strings.Contains s substr`: `substr` occurs within `s`. -/
def Contains (s substr : String) : Bool :=
  s.toList.tails.any (fun t => substr.toList.isPrefixOf t)

end strings

/-- Modelled from the spec: a cache entry is fresh for `maxAge` at time `now` when
its age is at most `maxAge`. -/
def CacheEntry.freshAt (entry : CacheEntry) (now maxAge : Int) : Prop :=
  now - entry.storedAt ≤ maxAge

/-- The world one hour after `https://example/store/graph.json` was first loaded
from a network that delivers an empty object. -/
def reloadWorld : World :=
  { (cacheDownload (worldOf [] "\x7b\x7d") (300 * time.Hour) "https://example/store/graph.json"
      "graph.json" false).world with now := time.Hour }

/-- A world where `graph.json` was cached 301 hours ago with an empty object,
and the network now delivers `remoteText`. -/
def staleWorld (remoteText : String) : World :=
  { worldOf [] remoteText with
    cache := fun k => if k = "graph.json" then some ⟨"\x7b\x7d", 0⟩ else none
    now := 301 * time.Hour }

/-! ## Reading a document by its member names

The specification describes the input document by its members: two top-level
sequences `nodes` and `edges`, whose entries carry `id`, `index`, `node` and
`type`, `from_node`, `to_node`.  The definitions below read a document that way,
by looking members up by name, say when a document is well formed, and write a
document out as text.  They are the reference `json.Unmarshal` is compared with. -/

namespace Document

/-- The value of the member `key` of an object, if there is one. -/
def member (key : String) (v : Option JSON) : Option JSON :=
  match v with
  | some (.object ms) => ms.lookup key
  | _ => none

/-- The entries of an array. -/
def entries (v : Option JSON) : List JSON :=
  match v with
  | some (.array vs) => vs
  | _ => []

/-- The string a value gives. -/
def stringOf (v : Option JSON) : String :=
  match v with
  | some (.string s) => s
  | _ => ""

/-- The number a run of decimal digits denotes: each digit counts for its place. -/
def decimal : List Char → Nat
  | [] => 0
  | d :: ds => (d.toNat - 48) * 10 ^ ds.length + decimal ds

/-- A run of one or more decimal digits. -/
def isDigits (ds : List Char) : Bool :=
  !ds.isEmpty && ds.all Char.isDigit

/-- The integer an integer literal denotes: decimal digits, or a minus sign and
decimal digits. -/
def integerOf (lit : String) : Option Int :=
  match lit.toList with
  | '-' :: ds => if isDigits ds then some (-(decimal ds : Int)) else none
  | ds => if isDigits ds then some (decimal ds : Int) else none

/-- The integer fits the 64 bits of an `int`. -/
def fitsInt (n : Int) : Bool :=
  decide (-(2 : Int) ^ 63 ≤ n ∧ n < (2 : Int) ^ 63)

/-- The integer a value gives. -/
def intOf (v : Option JSON) : Int :=
  match v with
  | some (.number lit) => (integerOf lit).getD 0
  | _ => 0

/-- The list of strings a value gives. -/
def stringsOf (v : Option JSON) : List String :=
  (entries v).map (fun x => stringOf (some x))

/-- The node reference a value gives. -/
def refOf (v : Option JSON) : NodeRelationship :=
  ⟨intOf (member "index" v), stringOf (member "id" v)⟩

/-- The relationships a value gives. -/
def relationshipsOf (v : Option JSON) : Relationships :=
  ⟨.of (stringsOf (member "_dependent_libs" v)), .of (stringsOf (member "_libs" v)),
    .of (stringsOf (member "_files" v)), .of (stringsOf (member "_dependent_files" v)),
    stringOf (member "type" v)⟩

/-- The node an entry of `nodes` gives. -/
def nodeOf (v : JSON) : Node :=
  ⟨stringOf (member "id" (some v)), intOf (member "index" (some v)),
    relationshipsOf (member "node" (some v))⟩

/-- The edge group an entry of `edges` gives. -/
def edgeOf (v : JSON) : Edge :=
  ⟨stringOf (member "type" (some v)), refOf (member "from_node" (some v)),
    .of ((entries (member "to_node" (some v))).map (fun x => refOf (some x)))⟩

/-- The entries under `nodes`. -/
def nodes (doc : JSON) : List JSON := entries (member "nodes" (some doc))

/-- The entries under `edges`. -/
def edges (doc : JSON) : List JSON := entries (member "edges" (some doc))

/-- A character with its case folded away: an upper-case letter gives its
lower-case letter, and so do the long s (U+017F) and the Kelvin sign (U+212A),
the two other characters that are `s` and `k` up to case. -/
def fold (c : Char) : Char :=
  if c = Char.ofNat 0x17F then 's' else if c = Char.ofNat 0x212A then 'k' else c.toLower

/-- The key is the name up to the case of its letters. -/
def sameName (name key : String) : Bool :=
  name.toList.map fold == key.toList.map fold

/-- The key equals one of the field names `names` up to case. -/
def namesField (names : List String) (k : String) : Bool :=
  names.any (fun n => sameName n k)

/-- The members of an object are well formed for the field names `names`: a key
that equals a field name up to case is that name, and no such key occurs twice.
Other keys are free. -/
def keysOk (names : List String) (ms : List (String × JSON)) : Bool :=
  decide (((ms.map Prod.fst).filter (namesField names)).Nodup) &&
    ms.all (fun m => names.all (fun n => !sameName n m.1 || m.1 == n))

/-- A member is absent, or `null`. -/
def isAbsent (v : Option JSON) : Bool :=
  match v with
  | none => true
  | some .null => true
  | _ => false

/-- Absent, or a string. -/
def stringOk (v : Option JSON) : Bool :=
  match v with
  | some (.string _) => true
  | v => isAbsent v

/-- Absent, or an integer literal whose integer fits an `int`. -/
def intOk (v : Option JSON) : Bool :=
  match v with
  | some (.number lit) =>
    match integerOf lit with
    | some n => fitsInt n
    | none => false
  | v => isAbsent v

/-- Absent, or an array whose entries satisfy `entryOk`. -/
def listOk (entryOk : JSON → Bool) (v : Option JSON) : Bool :=
  match v with
  | some (.array vs) => vs.all entryOk
  | v => isAbsent v

/-- Absent, or an object with members `index` and `id` of the right shape. -/
def refOk (v : Option JSON) : Bool :=
  match v with
  | some (.object ms) =>
    keysOk ["index", "id"] ms && intOk (ms.lookup "index") && stringOk (ms.lookup "id")
  | v => isAbsent v

/-- Absent, or an object with the members of the relationships of a node. -/
def relationshipsOk (v : Option JSON) : Bool :=
  match v with
  | some (.object ms) =>
    keysOk ["_dependent_libs", "_libs", "_files", "_dependent_files", "type"] ms &&
      listOk (fun x => stringOk (some x)) (ms.lookup "_dependent_libs") &&
      listOk (fun x => stringOk (some x)) (ms.lookup "_libs") &&
      listOk (fun x => stringOk (some x)) (ms.lookup "_files") &&
      listOk (fun x => stringOk (some x)) (ms.lookup "_dependent_files") &&
      stringOk (ms.lookup "type")
  | v => isAbsent v

/-- An entry of `nodes` of the right shape. -/
def nodeOk (v : JSON) : Bool :=
  match v with
  | .object ms =>
    keysOk ["id", "index", "node"] ms && stringOk (ms.lookup "id") && intOk (ms.lookup "index") &&
      relationshipsOk (ms.lookup "node")
  | v => isAbsent (some v)

/-- An entry of `edges` of the right shape. -/
def edgeOk (v : JSON) : Bool :=
  match v with
  | .object ms =>
    keysOk ["type", "from_node", "to_node"] ms && stringOk (ms.lookup "type") &&
      refOk (ms.lookup "from_node") && listOk (fun x => refOk (some x)) (ms.lookup "to_node")
  | v => isAbsent (some v)

/-- A well-formed input document: an object whose members `nodes` and `edges`,
when present, are arrays of entries of the right shape. -/
def WellFormed (doc : JSON) : Bool :=
  match doc with
  | .object ms =>
    keysOk ["edges", "nodes", "id"] ms && listOk edgeOk (ms.lookup "edges") &&
      listOk nodeOk (ms.lookup "nodes") && stringOk (ms.lookup "id")
  | _ => false

/-! ### Documents as they are written

A JSON text token by token: the white space between its tokens, the spelling of
every character of its strings, the literals of its numbers.  `Written.text` is
the text, `Written.value` the document it denotes, `Written.valid` says that
the text follows the JSON grammar. -/

/-- White space: spaces, tabs, line feeds and carriage returns. -/
def blank (ws : List Char) : Bool :=
  ws.all (fun c => c = ' ' || c = '\t' || c = '\n' || c = '\r')

/-- The hexadecimal digits: the sixteen digits in lower case, then the upper-case letters. -/
def hexDigits : List Char := "0123456789abcdefABCDEF".toList

/-- The character is a hexadecimal digit. -/
def isHex (c : Char) : Bool := hexDigits.contains c

/-- The value of a hexadecimal digit. -/
def hexValue (c : Char) : Nat :=
  if hexDigits.indexOf c < 16 then hexDigits.indexOf c else hexDigits.indexOf c - 6

/-- The value of four hexadecimal digits. -/
def hex4 (a b c d : Char) : Nat :=
  ((hexValue a * 16 + hexValue b) * 16 + hexValue c) * 16 + hexValue d

/-- The code unit is a high surrogate, U+D800 to U+DBFF. -/
def isHigh (v : Nat) : Bool := 0xD800 ≤ v && v ≤ 0xDBFF

/-- The code unit is a low surrogate, U+DC00 to U+DFFF. -/
def isLow (v : Nat) : Bool := 0xDC00 ≤ v && v ≤ 0xDFFF

/-- One character of a string as it is spelled between the quotes: the character
itself, a backslash and a letter, a `\u` escape of four hexadecimal digits, or
two `\u` escapes that form a surrogate pair. -/
inductive Piece where
  | plain (c : Char)
  | short (e : Char)
  | unicode (a b c d : Char)
  | pair (a b c d e f g h : Char)
  deriving DecidableEq, Repr

namespace Piece

/-- The text of a piece. -/
def text : Piece → List Char
  | .plain c => [c]
  | .short e => ['\\', e]
  | .unicode a b c d => ['\\', 'u', a, b, c, d]
  | .pair a b c d e f g h => ['\\', 'u', a, b, c, d, '\\', 'u', e, f, g, h]

/-- The character a piece stands for.  A `\u` escape of a surrogate that is not
part of a pair stands for the replacement character U+FFFD. -/
def char : Piece → Char
  | .plain c => c
  | .short e =>
    if e = 'b' then Char.ofNat 8
    else if e = 'f' then Char.ofNat 12
    else if e = 'n' then Char.ofNat 10
    else if e = 'r' then Char.ofNat 13
    else if e = 't' then Char.ofNat 9
    else e
  | .unicode a b c d =>
    if isHigh (hex4 a b c d) || isLow (hex4 a b c d) then Char.ofNat 0xFFFD
    else Char.ofNat (hex4 a b c d)
  | .pair a b c d e f g h =>
    Char.ofNat (0x10000 + (hex4 a b c d - 0xD800) * 0x400 + (hex4 e f g h - 0xDC00))

/-- The piece follows the grammar: a plain character is not a quote, a backslash
or a control character; the letter of a short escape is one of `"\/bfnrt`; the
digits of a `\u` escape are hexadecimal; a pair is a high and a low surrogate. -/
def ok : Piece → Bool
  | .plain c => decide (32 ≤ c.toNat) && c != '"' && c != '\\'
  | .short e => ['"', '\\', '/', 'b', 'f', 'n', 'r', 't'].contains e
  | .unicode a b c d => isHex a && isHex b && isHex c && isHex d
  | .pair a b c d e f g h =>
    isHex a && isHex b && isHex c && isHex d && isHex e && isHex f && isHex g && isHex h &&
      isHigh (hex4 a b c d) && isLow (hex4 e f g h)

/-- The piece is a `\u` escape of a high surrogate. -/
def high : Piece → Bool
  | .unicode a b c d => isHigh (hex4 a b c d)
  | _ => false

/-- The piece is a `\u` escape of a low surrogate. -/
def low : Piece → Bool
  | .unicode a b c d => isLow (hex4 a b c d)
  | _ => false

end Piece

/-- The pieces begin with a `\u` escape of a low surrogate. -/
def startsLow : List Piece → Bool
  | [] => false
  | p :: _ => p.low

/-- The pieces of a string follow the grammar; a high and a low surrogate that
follow each other are written as one pair. -/
def piecesOk : List Piece → Bool
  | [] => true
  | p :: ps => p.ok && !(p.high && startsLow ps) && piecesOk ps

/-- The text of the pieces of a string, between the quotes. -/
def piecesText : List Piece → List Char
  | [] => []
  | p :: ps => p.text ++ piecesText ps

/-- The string the pieces stand for. -/
def pieces (ps : List Piece) : String :=
  String.mk (ps.map Piece.char)

/-- The text is empty or an exponent part: `e` or `E`, an optional sign, digits. -/
def exponentOk (cs : List Char) : Bool :=
  match cs with
  | [] => true
  | e :: r =>
    (e = 'e' || e = 'E') &&
      isDigits (match r with
        | s :: t => if s = '+' ∨ s = '-' then t else r
        | [] => r)

/-- The text is a fraction part (a point and digits) or nothing, and then an
exponent part or nothing. -/
def fractionOk (cs : List Char) : Bool :=
  match cs with
  | '.' :: r => !(r.takeWhile Char.isDigit).isEmpty && exponentOk (r.dropWhile Char.isDigit)
  | _ => exponentOk cs

/-- The text is a number without sign: `0` or digits that do not begin with `0`,
then a fraction part and an exponent part, or nothing. -/
def unsignedOk (cs : List Char) : Bool :=
  match cs with
  | [] => false
  | c :: r =>
    if c = '0' then fractionOk r
    else c.isDigit && fractionOk (r.dropWhile Char.isDigit)

/-- The literal is a JSON number. -/
def numberOk (lit : String) : Bool :=
  match lit.toList with
  | '-' :: r => unsignedOk r
  | cs => unsignedOk cs

mutual

/-- A JSON value as it is written.  An array and an object carry the white
space after their opening bracket. -/
inductive Written where
  | null
  | bool (b : Bool)
  | number (lit : String)
  | string (ps : List Piece)
  | array (ws : List Char) (elems : Elems)
  | object (ws : List Char) (members : Members)

/-- The entries of an array as they are written, each with the white space
before and after it. -/
inductive Elems where
  | nil
  | cons (before : List Char) (v : Written) (after : List Char) (rest : Elems)

/-- The members of an object as they are written: white space, the key, white
space, the colon, white space, the value, white space. -/
inductive Members where
  | nil
  | cons (before : List Char) (key : List Piece) (mid : List Char) (pre : List Char)
      (v : Written) (after : List Char) (rest : Members)

end

mutual

/-- The text of a written value. -/
def Written.text : Written → List Char
  | .null => ['n', 'u', 'l', 'l']
  | .bool b => if b then ['t', 'r', 'u', 'e'] else ['f', 'a', 'l', 's', 'e']
  | .number lit => lit.toList
  | .string ps => '"' :: (piecesText ps ++ ['"'])
  | .array ws es => '[' :: (ws ++ es.text true)
  | .object ws ms => '\x7b' :: (ws ++ ms.text true)

/-- The text of the entries of an array and of its closing bracket; a comma
stands before every entry but the first of the array. -/
def Elems.text : Elems → Bool → List Char
  | .nil, _ => [']']
  | .cons before v after rest, first =>
    (if first then [] else [',']) ++ (before ++ (v.text ++ (after ++ rest.text false)))

/-- The text of the members of an object and of its closing brace; a comma
stands before every member but the first of the object. -/
def Members.text : Members → Bool → List Char
  | .nil, _ => ['\x7d']
  | .cons before key mid pre v after rest, first =>
    (if first then [] else [',']) ++
      (before ++ ('"' :: (piecesText key ++ ('"' :: (mid ++ (':' :: (pre ++ (v.text ++
        (after ++ rest.text false)))))))))

end

mutual

/-- The document a written value denotes. -/
def Written.value : Written → JSON
  | .null => .null
  | .bool b => .bool b
  | .number lit => .number lit
  | .string ps => .string (pieces ps)
  | .array _ es => .array es.values
  | .object _ ms => .object ms.values

/-- The entries a written array denotes, in order. -/
def Elems.values : Elems → List JSON
  | .nil => []
  | .cons _ v _ rest => v.value :: rest.values

/-- The members a written object denotes, in order. -/
def Members.values : Members → List (String × JSON)
  | .nil => []
  | .cons _ key _ _ v _ rest => (pieces key, v.value) :: rest.values

end

mutual

/-- The written value follows the JSON grammar, and its arrays and objects are
nested at most `budget` deep. -/
def Written.valid : Nat → Written → Bool
  | _, .null => true
  | _, .bool _ => true
  | _, .number lit => numberOk lit
  | _, .string ps => piecesOk ps
  | 0, .array _ _ => false
  | budget + 1, .array ws es => blank ws && es.valid budget
  | 0, .object _ _ => false
  | budget + 1, .object ws ms => blank ws && ms.valid budget

/-- The written entries of an array follow the grammar. -/
def Elems.valid : Nat → Elems → Bool
  | _, .nil => true
  | budget, .cons before v after rest =>
    blank before && v.valid budget && blank after && rest.valid budget

/-- The written members of an object follow the grammar. -/
def Members.valid : Nat → Members → Bool
  | _, .nil => true
  | budget, .cons before key mid pre v after rest =>
    blank before && piecesOk key && blank mid && blank pre && v.valid budget && blank after &&
      rest.valid budget

end

/-- The content of a file that holds the text of `t`, with the white space
`before` in front of it and `after` behind it. -/
def Written.file (before : List Char) (t : Written) (after : List Char) : String :=
  String.mk (before ++ (t.text ++ after))

/-- What may follow a number in a text: nothing, white space, a comma, a closing
bracket or a closing brace. -/
def delimits (rest : List Char) : Bool :=
  match rest with
  | [] => true
  | c :: _ => c = ',' || c = ']' || c = '\x7d' || blank [c]

end Document

/-- A string spelled with plain characters only. -/
def Document.plainly (s : String) : List Document.Piece :=
  s.toList.map Document.Piece.plain

/-- A document whose member `NODES` is a case variant of the member name `nodes`. -/
def caseVariantDocument : String :=
  "\x7b\"NODES\":[\x7b\"id\":\"a\",\"index\":7\x7d],\"nodes\":[\x7b\"id\":\"b\"\x7d]\x7d"

/-- A document with two members `nodes`. -/
def repeatedKeyDocument : String :=
  "\x7b\"nodes\":[\x7b\"id\":\"a\",\"index\":7\x7d],\"nodes\":[\x7b\"id\":\"b\"\x7d]\x7d"

/-- The example document of the specification, as it is written. -/
def exampleWritten : Document.Written :=
  .object [] (.cons [] (Document.plainly "nodes") [] []
    (.array [] (.cons []
      (.object [] (.cons [] (Document.plainly "id") [] [] (.string (Document.plainly "a.go")) []
        (.cons [] (Document.plainly "index") [] [] (.number "0") []
        (.cons [] (Document.plainly "node") [] []
          (.object [] (.cons [] (Document.plainly "type") [] []
            (.string (Document.plainly "file")) [] .nil)) [] .nil))))
      [] .nil)) []
    (.cons [] (Document.plainly "edges") [] [] (.array [] .nil) [] .nil))

namespace json

/-- What a field holds after the member `v` of an object, if present, has been
decoded into it by `dec`. -/
def stored {α : Type} (dec : α → JSON → α × Option GoError) (old : α) (v : Option JSON) : α :=
  match v with
  | some x => (dec old x).1
  | none => old

/-- The decoder `dec` records no error on the member `v`, whatever it decodes into. -/
def accepts {α : Type} (dec : α → JSON → α × Option GoError) (v : Option JSON) : Prop :=
  ∀ x, v = some x → ∀ old, (dec old x).2 = none

end json

/-- A member of a document other than a top-level `id`. -/
def notId (m : String × JSON) : Bool := m.1 != "id"

/-- What of the result of decoding into a graph survives the stamping with the
build identifier: the edges, the nodes and the error. -/
def core (r : Graph × Option GoError) : Slice Edge × Slice Node × Option GoError :=
  (r.1.Edges, r.1.Nodes, r.2)

/-! ## Theorems -/

/-- The seven ways through `New`: a property holds of the outcome when it holds
of the outcome of each way. -/
theorem New_cases (fetch : Fetcher) (w : World) (build path : String) {motive : Outcome → Prop}
    (fetchError : ∀ e, strings.HasPrefix path "http" = true →
      (fetch w (300 * time.Hour) path (filepath.Base path) false).err = some e →
      motive ⟨none, some (.withMessage e "problem downloading file"),
        (fetch w (300 * time.Hour) path (filepath.Base path) false).world,
        [.cacheDownload (300 * time.Hour) path (filepath.Base path) false]⟩)
    (remoteDecodeError : ∀ g e, strings.HasPrefix path "http" = true →
      (fetch w (300 * time.Hour) path (filepath.Base path) false).err = none →
      json.Unmarshal (fetch w (300 * time.Hour) path (filepath.Base path) false).data Graph.zero
        = (g, some e) →
      motive ⟨none, some (.withMessage e "problem reading json"),
        (fetch w (300 * time.Hour) path (filepath.Base path) false).world,
        [.cacheDownload (300 * time.Hour) path (filepath.Base path) false,
         .Unmarshal (fetch w (300 * time.Hour) path (filepath.Base path) false).data]⟩)
    (remoteOk : ∀ g, strings.HasPrefix path "http" = true →
      (fetch w (300 * time.Hour) path (filepath.Base path) false).err = none →
      json.Unmarshal (fetch w (300 * time.Hour) path (filepath.Base path) false).data Graph.zero
        = (g, none) →
      motive ⟨some { g with BuildID := build }, none,
        (fetch w (300 * time.Hour) path (filepath.Base path) false).world,
        [.cacheDownload (300 * time.Hour) path (filepath.Base path) false,
         .Unmarshal (fetch w (300 * time.Hour) path (filepath.Base path) false).data]⟩)
    (missing : strings.HasPrefix path "http" = false → os.IsNotExist (os.Stat w path) = true →
      motive ⟨none, some (.fundamental ("could not find file " ++ path)), w, [.Stat path]⟩)
    (readError : ∀ e, strings.HasPrefix path "http" = false →
      os.IsNotExist (os.Stat w path) = false → (ioutil.ReadFile w path).2 = some e →
      motive ⟨none, some e, w, [.Stat path, .ReadFile path]⟩)
    (localDecodeError : ∀ g e, strings.HasPrefix path "http" = false →
      os.IsNotExist (os.Stat w path) = false → (ioutil.ReadFile w path).2 = none →
      json.Unmarshal (ioutil.ReadFile w path).1 Graph.zero = (g, some e) →
      motive ⟨none, some (.withMessage e "problem reading json"), w,
        [.Stat path, .ReadFile path, .Unmarshal (ioutil.ReadFile w path).1]⟩)
    (localOk : ∀ g, strings.HasPrefix path "http" = false →
      os.IsNotExist (os.Stat w path) = false → (ioutil.ReadFile w path).2 = none →
      json.Unmarshal (ioutil.ReadFile w path).1 Graph.zero = (g, none) →
      motive ⟨some { g with BuildID := build }, none, w,
        [.Stat path, .ReadFile path, .Unmarshal (ioutil.ReadFile w path).1]⟩) :
    motive (New fetch w build path) := by
  cases hp : strings.HasPrefix path "http" with
  | true =>
    cases hf : (fetch w (300 * time.Hour) path (filepath.Base path) false).err with
    | some e =>
      have := fetchError e hp hf
      simpa [New, hp, hf, errors.Wrap] using this
    | none =>
      cases hu : json.Unmarshal (fetch w (300 * time.Hour) path (filepath.Base path) false).data
          Graph.zero with
      | mk g e =>
        cases e with
        | some e =>
          have := remoteDecodeError g e hp hf hu
          simpa [New, hp, hf, hu, errors.Wrap] using this
        | none =>
          have := remoteOk g hp hf hu
          simpa [New, hp, hf, hu] using this
  | false =>
    cases hs : os.IsNotExist (os.Stat w path) with
    | true =>
      have := missing hp hs
      simpa [New, hp, hs, errors.Errorf] using this
    | false =>
      cases hr : (ioutil.ReadFile w path).2 with
      | some e =>
        have := readError e hp hs hr
        simpa [New, hp, hs, hr] using this
      | none =>
        cases hu : json.Unmarshal (ioutil.ReadFile w path).1 Graph.zero with
        | mk g e =>
          cases e with
          | some e =>
            have := localDecodeError g e hp hs hr hu
            simpa [New, hp, hs, hr, hu, errors.Wrap] using this
          | none =>
            have := localOk g hp hs hr hu
            simpa [New, hp, hs, hr, hu] using this

/-- C1: whenever `New build source` succeeds (returns a nil error), it returns a
graph whose `BuildID` is `build`, for every build identifier (the empty string
included), every source and every content of the source. -/
theorem New_buildID (fetch : Fetcher) (w : World) (build source : String)
    (h : (New fetch w build source).err = none) :
    ∃ g, (New fetch w build source).graph = some g ∧ g.BuildID = build := by
  revert h
  apply New_cases fetch w build source
    (motive := fun o => o.err = none → ∃ g, o.graph = some g ∧ g.BuildID = build)
  all_goals intros
  all_goals first
    | exact ⟨_, rfl, rfl⟩
    | simp_all

/-- An empty build identifier passes through, and a top-level `id` in the
document does not reach the result. -/
theorem New_buildID_witness :
    (New cacheDownload (worldOf [("g.json", "\x7b\"id\":\"other\",\"nodes\":[]\x7d")] "") ""
        "g.json").err = none ∧
    ∃ g, (New cacheDownload (worldOf [("g.json", "\x7b\"id\":\"other\",\"nodes\":[]\x7d")] "") ""
        "g.json").graph = some g ∧ g.BuildID = "" :=
  ⟨by decide, New_buildID cacheDownload _ "" "g.json" (by decide)⟩

/-- C2: for a local path `P` (one that does not begin with `http`) that does not
exist, `New build P` returns a nil graph and an error whose message is
`could not find file P`; the only call it makes is `os.Stat P`, so nothing is
read or decoded, and the world is left as it was. -/
theorem New_missing_local (fetch : Fetcher) (w : World) (build P : String)
    (hlocal : strings.HasPrefix P "http" = false)
    (hmissing : os.IsNotExist (os.Stat w P) = true) :
    (New fetch w build P).graph = none ∧
    (∃ e, (New fetch w build P).err = some e ∧ e.Error = "could not find file " ++ P) ∧
    (New fetch w build P).calls = [.Stat P] ∧
    (New fetch w build P).world = w := by
  apply New_cases fetch w build P
    (motive := fun o => o.graph = none ∧
      (∃ e, o.err = some e ∧ e.Error = "could not find file " ++ P) ∧
      o.calls = [.Stat P] ∧ o.world = w)
  case missing => intros; exact ⟨rfl, ⟨_, rfl, rfl⟩, rfl, rfl⟩
  all_goals intros
  all_goals simp_all

/-- A missing file `absent.json` in an empty file system. -/
theorem New_missing_local_witness :
    (New cacheDownload (worldOf [] "") "b1" "absent.json").graph = none ∧
    (∃ e, (New cacheDownload (worldOf [] "") "b1" "absent.json").err = some e ∧
      e.Error = "could not find file " ++ "absent.json") ∧
    (New cacheDownload (worldOf [] "") "b1" "absent.json").calls = [.Stat "absent.json"] ∧
    (New cacheDownload (worldOf [] "") "b1" "absent.json").world = worldOf [] "" :=
  New_missing_local cacheDownload (worldOf [] "") "b1" "absent.json" (by decide) (by decide)

/-- The test `strings.HasPrefix s "http"` holds exactly of the strings that are
`http` followed by something. -/
theorem hasPrefix_http_iff (s : String) :
    strings.HasPrefix s "http" = true ↔ ∃ rest : String, s = "http" ++ rest := by
  unfold strings.HasPrefix
  rw [List.isPrefixOf_iff_prefix]
  constructor
  · rintro ⟨t, ht⟩
    refine ⟨String.mk t, ?_⟩
    apply String.ext
    exact ht.symm
  · rintro ⟨rest, rfl⟩
    exact ⟨rest.toList, by simp⟩

/-- C4: `New` returns either a graph and a nil error, or a nil graph and an
error.  In particular a failed fetch, a missing file, a failed read and a failed
decode (whatever the decoder had stored in its target) each give a nil graph. -/
theorem New_graph_or_error (fetch : Fetcher) (w : World) (build source : String) :
    (((∃ g, (New fetch w build source).graph = some g) ∧ (New fetch w build source).err = none) ∨
      ((New fetch w build source).graph = none ∧ ∃ e, (New fetch w build source).err = some e)) ∧
    (strings.HasPrefix source "http" = true →
      (fetch w (300 * time.Hour) source (filepath.Base source) false).err ≠ none →
      (New fetch w build source).graph = none) ∧
    (strings.HasPrefix source "http" = false → os.IsNotExist (os.Stat w source) = true →
      (New fetch w build source).graph = none) ∧
    (strings.HasPrefix source "http" = false → os.IsNotExist (os.Stat w source) = false →
      (ioutil.ReadFile w source).2 ≠ none → (New fetch w build source).graph = none) ∧
    (∀ data, Call.Unmarshal data ∈ (New fetch w build source).calls →
      (json.Unmarshal data Graph.zero).2 ≠ none → (New fetch w build source).graph = none) := by
  apply New_cases fetch w build source
    (motive := fun o =>
      (((∃ g, o.graph = some g) ∧ o.err = none) ∨ (o.graph = none ∧ ∃ e, o.err = some e)) ∧
      (strings.HasPrefix source "http" = true →
        (fetch w (300 * time.Hour) source (filepath.Base source) false).err ≠ none →
        o.graph = none) ∧
      (strings.HasPrefix source "http" = false → os.IsNotExist (os.Stat w source) = true →
        o.graph = none) ∧
      (strings.HasPrefix source "http" = false → os.IsNotExist (os.Stat w source) = false →
        (ioutil.ReadFile w source).2 ≠ none → o.graph = none) ∧
      (∀ data, Call.Unmarshal data ∈ o.calls →
        (json.Unmarshal data Graph.zero).2 ≠ none → o.graph = none))
  all_goals intros
  all_goals simp_all

/-- C10: on a local source `S` the outcome of `New` depends only on the build
identifier and on what the file system holds at `S`: two calls in worlds that
agree there (whatever the fetcher and the rest of the world) return the same
graph and the same error; two calls that differ in the build identifier either
fail with the same error or return graphs with the same edges and nodes, each
stamped with its own build identifier; and such a call makes no call of the
fetcher and leaves the world, cache storage included, as it was. -/
theorem New_stateless (fetch₁ fetch₂ : Fetcher) (w₁ w₂ : World) (B B' S : String)
    (hlocal : strings.HasPrefix S "http" = false)
    (hstat : os.Stat w₁ S = os.Stat w₂ S) (hread : ioutil.ReadFile w₁ S = ioutil.ReadFile w₂ S) :
    ((New fetch₁ w₁ B S).graph = (New fetch₂ w₂ B S).graph ∧
      (New fetch₁ w₁ B S).err = (New fetch₂ w₂ B S).err) ∧
    (((New fetch₁ w₁ B S).graph = none ∧ (New fetch₁ w₁ B' S).graph = none ∧
        ∃ e, (New fetch₁ w₁ B S).err = some e ∧ (New fetch₁ w₁ B' S).err = some e) ∨
      (∃ g g', (New fetch₁ w₁ B S).graph = some g ∧ (New fetch₁ w₁ B' S).graph = some g' ∧
        (New fetch₁ w₁ B S).err = none ∧ (New fetch₁ w₁ B' S).err = none ∧
        g.Edges = g'.Edges ∧ g.Nodes = g'.Nodes ∧ g.BuildID = B ∧ g'.BuildID = B')) ∧
    (∀ c ∈ (New fetch₁ w₁ B S).calls, c.isFetch = false) ∧
    (New fetch₁ w₁ B S).world = w₁ := by
  refine ⟨?_, ?_, ?_, ?_⟩
  · apply New_cases fetch₂ w₂ B S
      (motive := fun o => (New fetch₁ w₁ B S).graph = o.graph ∧ (New fetch₁ w₁ B S).err = o.err)
    all_goals intros
    all_goals first
      | (exfalso; simp_all; done)
      | (apply New_cases fetch₁ w₁ B S
          (motive := fun o' => o'.graph = _ ∧ o'.err = _)
         all_goals intros
         all_goals simp_all)
  · cases hs : os.IsNotExist (os.Stat w₁ S) with
    | true => simp [New, hlocal, hs, errors.Errorf]
    | false =>
      cases hr : (ioutil.ReadFile w₁ S).2 with
      | some e => simp [New, hlocal, hs, hr]
      | none =>
        cases hu : json.Unmarshal (ioutil.ReadFile w₁ S).1 Graph.zero with
        | mk g e =>
          cases e with
          | some e => simp [New, hlocal, hs, hr, hu, errors.Wrap]
          | none => simp [New, hlocal, hs, hr, hu]
  · apply New_cases fetch₁ w₁ B S (motive := fun o => ∀ c ∈ o.calls, c.isFetch = false)
    all_goals intros
    all_goals simp_all
    all_goals rename_i h
    all_goals rcases h with rfl | rfl | rfl <;> rfl
  · apply New_cases fetch₁ w₁ B S (motive := fun o => o.world = w₁)
    all_goals intros
    all_goals simp_all

/-- Two calls on the local file `g.json`, from worlds that differ elsewhere. -/
theorem New_stateless_witness :
    ((New cacheDownload (worldOf [("g.json", "\x7b\x7d")] "") "b1" "g.json").graph
        = (New cacheDownload (worldOf [("g.json", "\x7b\x7d"), ("h.json", "")] "x") "b1" "g.json").graph ∧
      (New cacheDownload (worldOf [("g.json", "\x7b\x7d")] "") "b1" "g.json").err
        = (New cacheDownload (worldOf [("g.json", "\x7b\x7d"), ("h.json", "")] "x") "b1" "g.json").err) ∧
    (New cacheDownload (worldOf [("g.json", "\x7b\x7d")] "") "b1" "g.json").world
      = worldOf [("g.json", "\x7b\x7d")] "" :=
  have h := New_stateless cacheDownload cacheDownload (worldOf [("g.json", "\x7b\x7d")] "")
    (worldOf [("g.json", "\x7b\x7d"), ("h.json", "")] "x") "b1" "b2" "g.json"
    (by decide) (by decide) (by decide)
  ⟨h.1, h.2.2.2⟩

/-- The fetcher on a cache hit. -/
theorem cacheDownload_hit (w : World) (maxAge : Int) (url cacheKey : String) (entry : CacheEntry)
    (hc : w.cache cacheKey = some entry) (hf : entry.freshAt w.now maxAge) :
    cacheDownload w maxAge url cacheKey false = ⟨entry.data, none, w⟩ := by
  unfold CacheEntry.freshAt at hf
  simp [cacheDownload, hc, hf]

/-- The fetcher on a cache miss: no entry, a stale entry, or a forced refresh. -/
theorem cacheDownload_miss (w : World) (maxAge : Int) (url cacheKey : String) (forceRefresh : Bool)
    (hm : ¬ ((∃ entry, w.cache cacheKey = some entry ∧ entry.freshAt w.now maxAge) ∧
      forceRefresh = false)) :
    cacheDownload w maxAge url cacheKey forceRefresh =
      (match (w.remote url).2 with
       | some err => ⟨"", some err, { w with transfers := url :: w.transfers }⟩
       | none =>
         match w.storeError cacheKey with
         | some err => ⟨"", some err, { w with transfers := url :: w.transfers }⟩
         | none =>
           ⟨(w.remote url).1, none,
             { w with
               transfers := url :: w.transfers
               cache := fun k =>
                 if k = cacheKey then some ⟨(w.remote url).1, w.now⟩ else w.cache k }⟩) := by
  unfold CacheEntry.freshAt at hm
  unfold cacheDownload
  cases hc : w.cache cacheKey with
  | none => rfl
  | some entry =>
    have : ¬ (w.now - entry.storedAt ≤ maxAge ∧ forceRefresh = false) := by
      intro h
      exact hm ⟨⟨entry, hc, h.1⟩, h.2⟩
    simp only [this, if_false]

/-- C9: the fetcher returns the bytes cached under `cacheKey`, with no transfer
and the cache unchanged, exactly when an entry exists under `cacheKey`, its age
is at most `maxAge` and `forceRefresh` is false.  Otherwise it transfers `url`
once; when the transfer and the write succeed it returns the new bytes and the
slot `cacheKey` holds them, stamped with the current time, the other slots
being unchanged; when one fails its error is returned as it is.  Hence a second
load of a remote source, with the cache as the first load left it and its entry
not older than 300 hours, transfers nothing and gives the same graph as the
first; and a load that finds an entry older than 300 hours transfers the source
again and replaces the entry. -/
theorem cacheDownload_policy (w : World) (maxAge : Int) (url cacheKey : String)
    (forceRefresh : Bool) :
    (((∃ entry, w.cache cacheKey = some entry ∧ entry.freshAt w.now maxAge) ∧
        forceRefresh = false) ↔
      ((∃ entry, w.cache cacheKey = some entry ∧
          (cacheDownload w maxAge url cacheKey forceRefresh).data = entry.data) ∧
        (cacheDownload w maxAge url cacheKey forceRefresh).err = none ∧
        (cacheDownload w maxAge url cacheKey forceRefresh).world.transfers = w.transfers ∧
        (cacheDownload w maxAge url cacheKey forceRefresh).world.cache = w.cache)) ∧
    (¬ ((∃ entry, w.cache cacheKey = some entry ∧ entry.freshAt w.now maxAge) ∧
        forceRefresh = false) →
      (cacheDownload w maxAge url cacheKey forceRefresh).world.transfers = url :: w.transfers ∧
      (∀ bytes, w.remote url = (bytes, none) → w.storeError cacheKey = none →
        (cacheDownload w maxAge url cacheKey forceRefresh).data = bytes ∧
        (cacheDownload w maxAge url cacheKey forceRefresh).err = none ∧
        (cacheDownload w maxAge url cacheKey forceRefresh).world.cache cacheKey
          = some ⟨bytes, w.now⟩ ∧
        ∀ k, k ≠ cacheKey →
          (cacheDownload w maxAge url cacheKey forceRefresh).world.cache k = w.cache k) ∧
      (∀ e, (w.remote url).2 = some e →
        (cacheDownload w maxAge url cacheKey forceRefresh).err = some e) ∧
      (∀ e, (w.remote url).2 = none → w.storeError cacheKey = some e →
        (cacheDownload w maxAge url cacheKey forceRefresh).err = some e)) ∧
    (∀ (build S : String) (w2 : World), strings.HasPrefix S "http" = true →
      (cacheDownload w (300 * time.Hour) S (filepath.Base S) false).err = none →
      w2.cache = (cacheDownload w (300 * time.Hour) S (filepath.Base S) false).world.cache →
      (∀ entry, w2.cache (filepath.Base S) = some entry →
        entry.freshAt w2.now (300 * 3600000000000)) →
      (New cacheDownload w2 build S).world.transfers = w2.transfers ∧
      (cacheDownload w2 (300 * time.Hour) S (filepath.Base S) false).data
        = (cacheDownload w (300 * time.Hour) S (filepath.Base S) false).data ∧
      (New cacheDownload w2 build S).graph = (New cacheDownload w build S).graph ∧
      (New cacheDownload w2 build S).err = (New cacheDownload w build S).err) ∧
    (∀ (build S : String) (entry : CacheEntry), strings.HasPrefix S "http" = true →
      w.cache (filepath.Base S) = some entry → ¬ entry.freshAt w.now (300 * 3600000000000) →
      (New cacheDownload w build S).world.transfers = S :: w.transfers ∧
      ∀ bytes, w.remote S = (bytes, none) → w.storeError (filepath.Base S) = none →
        (New cacheDownload w build S).world.cache (filepath.Base S) = some ⟨bytes, w.now⟩) := by
  have hworld : ∀ (w : World) (build S : String), strings.HasPrefix S "http" = true →
      (New cacheDownload w build S).world
        = (cacheDownload w (300 * time.Hour) S (filepath.Base S) false).world := by
    intro w build S h
    apply New_cases cacheDownload w build S
      (motive := fun o => o.world
        = (cacheDownload w (300 * time.Hour) S (filepath.Base S) false).world)
    all_goals intros
    all_goals simp_all
  refine ⟨?_, ?_, ?_, ?_⟩
  · by_cases hm : (∃ entry, w.cache cacheKey = some entry ∧ entry.freshAt w.now maxAge) ∧
        forceRefresh = false
    · obtain ⟨⟨entry, hc, hf⟩, rfl⟩ := hm
      rw [cacheDownload_hit w maxAge url cacheKey entry hc hf]
      exact ⟨fun _ => ⟨⟨entry, hc, rfl⟩, rfl, rfl, rfl⟩, fun _ => ⟨⟨entry, hc, hf⟩, rfl⟩⟩
    · simp only [hm, false_iff]
      rintro ⟨-, -, ht, -⟩
      rw [cacheDownload_miss w maxAge url cacheKey forceRefresh hm] at ht
      have hlen := congrArg List.length ht
      revert hlen
      cases (w.remote url).2 with
      | some e => simp
      | none => cases w.storeError cacheKey <;> simp
  · intro hm
    rw [cacheDownload_miss w maxAge url cacheKey forceRefresh hm]
    refine ⟨?_, ?_, ?_, ?_⟩
    · cases (w.remote url).2 with
      | some e => rfl
      | none => cases w.storeError cacheKey <;> rfl
    · intro bytes hb hs
      simp only [hb, hs]
      refine ⟨trivial, trivial, by simp, ?_⟩
      intro k hk
      simp [hk]
    · intro e he
      simp only [he]
    · intro e hr he
      simp only [hr, he]
  · intro build S w2 hS hok hcache hfresh
    -- the entry left by the first load holds the bytes it returned
    have hentry : ∃ entry, (cacheDownload w (300 * time.Hour) S (filepath.Base S) false).world.cache
          (filepath.Base S) = some entry ∧
        entry.data = (cacheDownload w (300 * time.Hour) S (filepath.Base S) false).data := by
      by_cases hm : (∃ entry, w.cache (filepath.Base S) = some entry ∧
          entry.freshAt w.now (300 * time.Hour)) ∧ false = false
      · obtain ⟨⟨entry, hc, hf⟩, -⟩ := hm
        rw [cacheDownload_hit w _ S _ entry hc hf]
        exact ⟨entry, hc, rfl⟩
      · rw [cacheDownload_miss w _ S _ false hm] at hok ⊢
        revert hok
        cases (w.remote S).2 with
        | some e => simp
        | none =>
          cases w.storeError (filepath.Base S) with
          | some e => simp
          | none => intro; exact ⟨⟨(w.remote S).1, w.now⟩, by simp, rfl⟩
    obtain ⟨entry, hc, hd⟩ := hentry
    have hc2 : w2.cache (filepath.Base S) = some entry := by rw [hcache]; exact hc
    have hf2 : entry.freshAt w2.now (300 * time.Hour) := by
      have := hfresh entry hc2
      simpa [time.Hour] using this
    have hsecond := cacheDownload_hit w2 (300 * time.Hour) S (filepath.Base S) entry hc2 hf2
    have hdata : (cacheDownload w2 (300 * time.Hour) S (filepath.Base S) false).data
        = (cacheDownload w (300 * time.Hour) S (filepath.Base S) false).data := by
      rw [hsecond, ← hd]
    refine ⟨?_, hdata, ?_, ?_⟩
    · rw [hworld w2 build S hS, hsecond]
    · simp only [New, hS, if_true, hsecond, hok, ← hd]
      cases (json.Unmarshal entry.data Graph.zero).2 <;> rfl
    · simp only [New, hS, if_true, hsecond, hok, ← hd]
      cases (json.Unmarshal entry.data Graph.zero).2 <;> rfl
  · intro build S entry hS hc hstale
    have hm : ¬ ((∃ entry, w.cache (filepath.Base S) = some entry ∧
        entry.freshAt w.now (300 * time.Hour)) ∧ false = false) := by
      rintro ⟨⟨entry', hc', hf'⟩, -⟩
      rw [hc] at hc'
      cases hc'
      exact hstale (by simpa [time.Hour] using hf')
    rw [hworld w build S hS, cacheDownload_miss w _ S _ false hm]
    refine ⟨?_, ?_⟩
    · cases (w.remote S).2 with
      | some e => rfl
      | none => cases w.storeError (filepath.Base S) <;> rfl
    · intro bytes hb hs
      simp [hb, hs]

/-- A second load one hour after the first transfers nothing; a load that finds
an entry 301 hours old transfers the source and replaces the entry. -/
theorem cacheDownload_policy_witness :
    ((New cacheDownload reloadWorld "b1" "https://example/store/graph.json").world.transfers
        = reloadWorld.transfers ∧
      reloadWorld.transfers = ["https://example/store/graph.json"]) ∧
    ((New cacheDownload (staleWorld "\x7b\"nodes\":[]\x7d") "b1"
        "https://example/store/graph.json").world.transfers
        = ["https://example/store/graph.json"] ∧
      (New cacheDownload (staleWorld "\x7b\"nodes\":[]\x7d") "b1"
        "https://example/store/graph.json").world.cache "graph.json"
        = some ⟨"\x7b\"nodes\":[]\x7d", 301 * time.Hour⟩) :=
  ⟨⟨((cacheDownload_policy (worldOf [] "\x7b\x7d") (300 * time.Hour)
        "https://example/store/graph.json" "graph.json" false).2.2.1 "b1"
        "https://example/store/graph.json" reloadWorld (by decide) (by decide) rfl
        (by
          intro entry h
          have hc : reloadWorld.cache (filepath.Base "https://example/store/graph.json")
              = some ⟨"\x7b\x7d", 0⟩ := by decide
          rw [hc] at h
          cases h
          unfold CacheEntry.freshAt
          decide)).1, by decide⟩,
    ⟨((cacheDownload_policy (staleWorld "\x7b\"nodes\":[]\x7d") (300 * time.Hour)
        "https://example/store/graph.json" "graph.json" false).2.2.2 "b1"
        "https://example/store/graph.json" ⟨"\x7b\x7d", 0⟩ (by decide) (by decide)
        (by unfold CacheEntry.freshAt; decide)).1,
      ((cacheDownload_policy (staleWorld "\x7b\"nodes\":[]\x7d") (300 * time.Hour)
        "https://example/store/graph.json" "graph.json" false).2.2.2 "b1"
        "https://example/store/graph.json" ⟨"\x7b\x7d", 0⟩ (by decide) (by decide)
        (by unfold CacheEntry.freshAt; decide)).2 "\x7b\"nodes\":[]\x7d" (by decide) (by decide)⟩⟩

/-- What is left after stripping trailing slashes, followed by the slashes, is the text. -/
theorem stripTrailing_append (cs : List Char) :
    cs = filepath.stripTrailing cs ++ (cs.reverse.takeWhile (· == '/')).reverse := by
  have h := List.takeWhile_append_dropWhile (· == '/') cs.reverse
  have h2 := congrArg List.reverse h
  simp only [List.reverse_append, List.reverse_reverse] at h2
  exact h2.symm

/-- The text before the last element, followed by the last element, is the text. -/
theorem lastElement_append (cs : List Char) :
    cs = (cs.reverse.dropWhile (· != '/')).reverse ++ filepath.lastElement cs := by
  have h := List.takeWhile_append_dropWhile (· != '/') cs.reverse
  have h2 := congrArg List.reverse h
  simp only [List.reverse_append, List.reverse_reverse] at h2
  exact h2.symm

/-- The last element of a text is what `filepath.Base` computes. -/
theorem lastElement_eq_base (seg url : String) (h : IsLastElement seg url) :
    filepath.Base url = seg := by
  obtain ⟨pre, slashes, hurl, hsl, hno, hne, hpre⟩ := h
  have hrev : url.toList.reverse = slashes.reverse ++ (seg.toList.reverse ++ pre.reverse) := by
    rw [hurl]; simp
  have hlast : ∃ c rest, seg.toList.reverse = c :: rest ∧ c ≠ '/' := by
    cases hs : seg.toList.reverse with
    | nil => exact absurd (List.reverse_eq_nil_iff.1 hs) hne
    | cons c rest =>
      refine ⟨c, rest, rfl, ?_⟩
      rintro rfl
      exact hno (List.mem_reverse.1 (hs ▸ List.mem_cons_self _ _))
  obtain ⟨c, rest, hc, hcne⟩ := hlast
  have hstrip : filepath.stripTrailing url.toList = pre ++ seg.toList := by
    unfold filepath.stripTrailing
    rw [hrev, List.dropWhile_append_of_pos (by simpa using hsl), hc]
    simp only [List.cons_append, List.dropWhile_cons]
    have : (c == '/') = false := by simpa using hcne
    simp only [this, Bool.false_eq_true, if_false]
    rw [← List.cons_append, ← hc]
    simp
  have htake : filepath.lastElement (pre ++ seg.toList) = seg.toList := by
    unfold filepath.lastElement
    rw [List.reverse_append, List.takeWhile_append_of_pos (by
      intro a ha
      have : a ≠ '/' := fun h => hno (h ▸ List.mem_reverse.1 ha)
      simpa using this)]
    have : List.takeWhile (· != '/') pre.reverse = [] := by
      rcases hpre with rfl | hp
      · rfl
      · cases hpr : pre.reverse with
        | nil => rfl
        | cons x xs =>
          have hx : pre.reverse.head? = some '/' := by simpa using hp
          rw [hpr] at hx
          simp only [List.head?_cons, Option.some.injEq] at hx
          subst hx
          simp [List.takeWhile_cons]
    rw [this]; simp
  have hurlne : url ≠ "" := by
    intro h0
    rw [h0] at hurl
    have : seg.toList = [] := by
      have h1 : ([] : List Char) = pre ++ seg.toList ++ slashes := hurl
      exact (List.append_eq_nil.1 (List.append_eq_nil.1 h1.symm).1).2
    exact hne this
  unfold filepath.Base
  simp only [hurlne, if_false, hstrip, htake, hne]
  rfl

/-- What `filepath.Base` computes for a remote source is its last element. -/
theorem base_isLastElement (S : String) (h : strings.HasPrefix S "http" = true) :
    IsLastElement (filepath.Base S) S := by
  obtain ⟨rest, rfl⟩ := (hasPrefix_http_iff S).1 h
  have hcs : ("http" ++ rest).toList = 'h' :: ('t' :: 't' :: 'p' :: rest.toList) := by
    simp [String.toList]
  generalize hcs' : ("http" ++ rest).toList = cs at hcs
  set strip := filepath.stripTrailing cs with hstripdef
  have hstrip_ne : strip.reverse ≠ [] := by
    intro h0
    have h1 : List.dropWhile (· == '/') cs.reverse = [] := by
      simpa [hstripdef, filepath.stripTrailing] using h0
    rw [List.dropWhile_eq_nil_iff] at h1
    have := h1 'h' (by rw [hcs]; simp)
    simp at this
  have hhead : ∃ c tl, strip.reverse = c :: tl ∧ (c == '/') = false := by
    cases hs : strip.reverse with
    | nil => exact absurd hs hstrip_ne
    | cons c tl =>
      refine ⟨c, tl, rfl, ?_⟩
      have h1 := List.head?_dropWhile_not (· == '/') cs.reverse
      have h2 : List.dropWhile (· == '/') cs.reverse = c :: tl := by
        have : strip.reverse = List.dropWhile (· == '/') cs.reverse := by
          simp [hstripdef, filepath.stripTrailing]
        rw [← this, hs]
      rw [h2] at h1
      simpa using h1
  obtain ⟨c, tl, hct, hcne⟩ := hhead
  have hlast_ne : filepath.lastElement strip ≠ [] := by
    unfold filepath.lastElement
    rw [hct, List.takeWhile_cons]
    have : (c != '/') = true := by simp [bne, hcne]
    simp [this]
  have hbase : filepath.Base ("http" ++ rest) = String.mk (filepath.lastElement strip) := by
    unfold filepath.Base
    have hne : ("http" ++ rest) ≠ "" := by
      intro h0
      have := congrArg String.toList h0
      rw [hcs', hcs] at this
      simp at this
    simp only [hne, if_false, hcs', ← hstripdef, hlast_ne]
  rw [hbase]
  refine ⟨(strip.reverse.dropWhile (· != '/')).reverse,
    (cs.reverse.takeWhile (· == '/')).reverse, ?_, ?_, ?_, ?_, ?_⟩
  · rw [hcs']
    show cs = _ ++ filepath.lastElement strip ++ _
    rw [← lastElement_append strip]
    exact stripTrailing_append cs
  · intro a ha
    have := List.mem_takeWhile_imp (List.mem_reverse.1 ha)
    simpa using this
  · intro hmem
    have : '/' ∈ List.takeWhile (· != '/') strip.reverse := by
      simpa [filepath.lastElement] using hmem
    have := List.mem_takeWhile_imp this
    simp at this
  · exact hlast_ne
  · have h1 := List.head?_dropWhile_not (· != '/') strip.reverse
    cases hd : List.dropWhile (· != '/') strip.reverse with
    | nil => left; simp
    | cons x xs =>
      right
      rw [hd] at h1
      have hx : x = '/' := by simpa using h1
      simp [hx]

/-- The last segment of a path has no slash and comes after a text that is empty
or ends with a slash. -/
theorem lastSegment_spec (l : List Char) :
    ∃ p, l = p ++ url.lastSegment l ∧ '/' ∉ url.lastSegment l ∧
      (p = [] ∨ p.getLast? = some '/') := by
  induction l with
  | nil => exact ⟨[], rfl, by simp [url.lastSegment], Or.inl rfl⟩
  | cons c cs ih =>
    by_cases hmem : '/' ∈ cs
    · obtain ⟨p, hp, hno, hlast⟩ := ih
      have hpne : p ≠ [] := by
        rintro rfl
        rw [List.nil_append] at hp
        exact hno (hp ▸ hmem)
      refine ⟨c :: p, ?_, ?_, Or.inr ?_⟩
      · simp only [url.lastSegment, hmem, if_true, List.cons_append]
        rw [← hp]
      · simpa only [url.lastSegment, hmem, if_true] using hno
      · rcases hlast with h | h
        · exact absurd h hpne
        · cases p with
          | nil => exact absurd rfl hpne
          | cons a as => rw [List.getLast?_cons_cons]; exact h
    · by_cases hc : c = '/'
      · subst hc
        have he : url.lastSegment ('/' :: cs) = cs := by simp [url.lastSegment, hmem]
        rw [he]
        exact ⟨['/'], rfl, hmem, Or.inr rfl⟩
      · have he : url.lastSegment (c :: cs) = c :: cs := by simp [url.lastSegment, hmem, hc]
        rw [he]
        refine ⟨[], rfl, ?_, Or.inl rfl⟩
        simp only [List.mem_cons, not_or]
        exact ⟨fun h => hc h.symm, hmem⟩

/-- The path of a URL without query and fragment is the whole text, or what comes
after a scheme and an authority, and then it is empty or begins with a slash. -/
theorem path_suffix (s : String) (hq : '?' ∉ s.toList) (hf : '#' ∉ s.toList) :
    url.path s = s.toList ∨
    ∃ pre, s.toList = pre ++ url.path s ∧ (url.path s = [] ∨ (url.path s).head? = some '/') := by
  have h1 : s.toList.takeWhile (· != '#') = s.toList := by
    rw [List.takeWhile_eq_self_iff]
    intro x hx
    have : x ≠ '#' := fun h => hf (h ▸ hx)
    simpa using this
  have h2 : s.toList.takeWhile (· != '?') = s.toList := by
    rw [List.takeWhile_eq_self_iff]
    intro x hx
    have : x ≠ '?' := fun h => hq (h ▸ hx)
    simpa using this
  cases ha : url.afterScheme s.toList with
  | none =>
    left
    simp only [url.path, h1, h2, ha]
  | some rest =>
    right
    have hpath : url.path s = rest.dropWhile (· != '/') := by
      simp only [url.path, h1, h2, ha]
    rw [hpath]
    have hsplit : s.toList
        = s.toList.takeWhile url.isSchemeChar ++ ':' :: '/' :: '/' :: rest := by
      have h := List.takeWhile_append_dropWhile url.isSchemeChar s.toList
      unfold url.afterScheme at ha
      split at ha
      · rename_i r heq
        simp only [Option.some.injEq] at ha
        rw [heq, ha] at h
        exact h.symm
      · cases ha
    have hrest := List.takeWhile_append_dropWhile (· != '/') rest
    refine ⟨s.toList.takeWhile url.isSchemeChar ++ ':' :: '/' :: '/' :: rest.takeWhile (· != '/'),
      ?_, ?_⟩
    · simp only [List.append_assoc, List.cons_append, hrest]
      exact hsplit
    · have h := List.head?_dropWhile_not (· != '/') rest
      cases hd : List.dropWhile (· != '/') rest with
      | nil => exact Or.inl rfl
      | cons x xs =>
        right
        rw [hd] at h
        have hx : x = '/' := by simpa using h
        simp [hx]

/-- For a text without query and fragment whose URL path has a final segment
that is not empty, `filepath.Base` computes that final path segment. -/
theorem base_eq_finalPathSegment (S : String) (hq : '?' ∉ S.toList) (hf : '#' ∉ S.toList)
    (hne : url.finalPathSegment S ≠ "") :
    filepath.Base S = url.finalPathSegment S := by
  apply lastElement_eq_base
  obtain ⟨p, hp, hno, hlast⟩ := lastSegment_spec (url.path S)
  have hseg : url.lastSegment (url.path S) ≠ [] := by
    intro h0
    apply hne
    simp [url.finalPathSegment, h0]
  rcases path_suffix S hq hf with hw | ⟨pre, hpre, hhead⟩
  · refine ⟨p, [], ?_, by simp, hno, hseg, hlast⟩
    show S.toList = p ++ url.lastSegment (url.path S) ++ []
    rw [List.append_nil, ← hp]
    exact hw.symm
  · have hpne : p ≠ [] := by
      rintro rfl
      rw [List.nil_append] at hp
      rcases hhead with h | h
      · exact hseg (hp ▸ h)
      · rw [hp] at h
        cases hl : url.lastSegment (url.path S) with
        | nil => exact hseg hl
        | cons x xs =>
          rw [hl] at h hno
          simp only [List.head?_cons, Option.some.injEq] at h
          exact hno (h ▸ List.mem_cons_self _ _)
    refine ⟨pre ++ p, [], ?_, by simp, hno, hseg, Or.inr ?_⟩
    · show S.toList = pre ++ p ++ url.lastSegment (url.path S) ++ []
      rw [List.append_nil, List.append_assoc, ← hp]
      exact hpre
    · rcases hlast with h | h
      · exact absurd h hpne
      · rw [List.getLast?_append_of_ne_nil _ hpne]
        exact h

/-- C3, as stated, fails on the cache key: for the source
`https://e/x.json?a=b/c` the final path segment of the URL is `x.json`, and the
cache key `New` gives to the fetcher is `c`, the end of the query. -/
theorem New_key_is_not_path_segment :
    url.finalPathSegment "https://e/x.json?a=b/c" = "x.json" ∧
    (New cacheDownload (worldOf [] "\x7b\x7d") "b1" "https://e/x.json?a=b/c").calls.filter
        Call.isFetch
      = [.cacheDownload (300 * 3600000000000) "https://e/x.json?a=b/c" "c" false] := by
  constructor <;> decide

/-- C3, amended: `New` treats the source `S` as remote exactly when `S` is the
four characters `http` followed by anything.  Then its only call of the fetcher
is `cacheDownload(300 hours, S, key, false)`, where `key` is the last element of
`S` read as a text separated by slashes (the text after the last slash once
trailing slashes are dropped), which is the final path segment of the URL when
`S` has no query and no fragment and that segment is not empty; no call consults
the file system.  Otherwise no call is a call of the fetcher, the first call is
`os.Stat(S)` and the world is left as it was. -/
theorem New_source_kind (fetch : Fetcher) (w : World) (build S : String) :
    (strings.HasPrefix S "http" = true ↔ ∃ rest : String, S = "http" ++ rest) ∧
    ((∃ rest : String, S = "http" ++ rest) →
      ∃ key,
        (New fetch w build S).calls.filter Call.isFetch
            = [.cacheDownload (300 * 3600000000000) S key false] ∧
        IsLastElement key S ∧ (∀ seg, IsLastElement seg S → seg = key) ∧
        ('?' ∉ S.toList → '#' ∉ S.toList → url.finalPathSegment S ≠ "" →
          key = url.finalPathSegment S) ∧
        (∀ c ∈ (New fetch w build S).calls, c.isFileSystem = false) ∧
        (New fetch w build S).world = (fetch w (300 * 3600000000000) S key false).world) ∧
    ((¬ ∃ rest : String, S = "http" ++ rest) →
      (∀ c ∈ (New fetch w build S).calls, c.isFetch = false) ∧
      (New fetch w build S).calls.head? = some (.Stat S) ∧
      (∀ c ∈ (New fetch w build S).calls, ∀ p, (c = .Stat p ∨ c = .ReadFile p) → p = S) ∧
      (New fetch w build S).world = w) := by
  refine ⟨hasPrefix_http_iff S, ?_, ?_⟩
  · intro h
    have hp := (hasPrefix_http_iff S).2 h
    refine ⟨filepath.Base S, ?_, base_isLastElement S hp,
      fun seg hseg => (lastElement_eq_base seg S hseg).symm,
      fun hq hf hne => base_eq_finalPathSegment S hq hf hne, ?_⟩
    · apply New_cases fetch w build S
        (motive := fun o => o.calls.filter Call.isFetch
            = [.cacheDownload (300 * 3600000000000) S (filepath.Base S) false])
      all_goals intros
      all_goals simp_all [Call.isFetch, time.Hour, List.filter]
    · apply New_cases fetch w build S
        (motive := fun o => (∀ c ∈ o.calls, c.isFileSystem = false) ∧
          o.world = (fetch w (300 * 3600000000000) S (filepath.Base S) false).world)
      all_goals intros
      all_goals simp_all [Call.isFileSystem, time.Hour]
  · intro h
    have hp : strings.HasPrefix S "http" = false := by
      cases hq : strings.HasPrefix S "http" with
      | true => exact absurd ((hasPrefix_http_iff S).1 hq) h
      | false => rfl
    apply New_cases fetch w build S
      (motive := fun o => (∀ c ∈ o.calls, c.isFetch = false) ∧
        o.calls.head? = some (.Stat S) ∧
        (∀ c ∈ o.calls, ∀ p, (c = .Stat p ∨ c = .ReadFile p) → p = S) ∧ o.world = w)
    all_goals intros
    all_goals simp_all [Call.isFetch]

/-- The source `HTTP://example/graph.json` is read from the file system; the
source `httpd.conf` is fetched; and the source `https://example/store/graph.json`
is fetched under a key that is the final path segment `graph.json`. -/
theorem New_source_kind_witness :
    (New cacheDownload (worldOf [] "") "b1" "HTTP://example/graph.json").calls.head?
      = some (.Stat "HTTP://example/graph.json") ∧
    (∃ key, (New cacheDownload (worldOf [] "") "b1" "httpd.conf").calls.filter Call.isFetch
      = [.cacheDownload (300 * 3600000000000) "httpd.conf" key false]) ∧
    (∃ key, (New cacheDownload (worldOf [] "") "b1" "https://example/store/graph.json").calls.filter
        Call.isFetch
        = [.cacheDownload (300 * 3600000000000) "https://example/store/graph.json" key false] ∧
      key = url.finalPathSegment "https://example/store/graph.json") ∧
    url.finalPathSegment "https://example/store/graph.json" = "graph.json" :=
  ⟨((New_source_kind cacheDownload (worldOf [] "") "b1" "HTTP://example/graph.json").2.2
      (fun h => absurd
        ((New_source_kind cacheDownload (worldOf [] "") "b1" "HTTP://example/graph.json").1.2 h)
        (by decide))).2.1,
    (((New_source_kind cacheDownload (worldOf [] "") "b1" "httpd.conf").2.1
      ((New_source_kind cacheDownload (worldOf [] "") "b1" "httpd.conf").1.1 (by decide))).imp
        (fun _ h => h.1)),
    (((New_source_kind cacheDownload (worldOf [] "") "b1" "https://example/store/graph.json").2.1
      ((New_source_kind cacheDownload (worldOf [] "") "b1"
        "https://example/store/graph.json").1.1 (by decide))).imp
        (fun _ h => ⟨h.1, h.2.2.2.1 (by decide) (by decide) (by decide)⟩)),
    by decide⟩

/-- C7, as stated, fails: the sources `https://example/store/graph.json?v=1` and
`https://example/store/graph.json?v=2` have the same final path segment,
`graph.json`, and `New` gives the fetcher two different cache keys for them,
`graph.json?v=1` and `graph.json?v=2`. -/
theorem New_keys_differ_by_query :
    url.finalPathSegment "https://example/store/graph.json?v=1" = "graph.json" ∧
    url.finalPathSegment "https://example/store/graph.json?v=2" = "graph.json" ∧
    fetchKeys (New cacheDownload (worldOf [] "\x7b\x7d") "b1"
      "https://example/store/graph.json?v=1").calls = ["graph.json?v=1"] ∧
    fetchKeys (New cacheDownload (worldOf [] "\x7b\x7d") "b1"
      "https://example/store/graph.json?v=2").calls = ["graph.json?v=2"] := by
  refine ⟨?_, ?_, ?_, ?_⟩ <;> decide

/-- C7, amended: for a remote source `S` the one cache key `New` gives to the
fetcher is `filepath.Base S`, the last element of `S` read as a text separated
by slashes, and the only one.  It is the final path segment of the URL when `S`
has no query and no fragment and that segment is not empty.  So a remote source
with the same last element as `S` is given the same cache key, and so is a
remote source with the same final path segment when neither has a query or a
fragment and the segment is not empty. -/
theorem New_cache_key (fetch : Fetcher) (w : World) (build S : String)
    (h : strings.HasPrefix S "http" = true) :
    fetchKeys (New fetch w build S).calls = [filepath.Base S] ∧
    IsLastElement (filepath.Base S) S ∧
    (∀ seg, IsLastElement seg S → seg = filepath.Base S) ∧
    ('?' ∉ S.toList → '#' ∉ S.toList → url.finalPathSegment S ≠ "" →
      filepath.Base S = url.finalPathSegment S) ∧
    (∀ (fetch' : Fetcher) (w' : World) (build' S' : String),
      strings.HasPrefix S' "http" = true →
      (∃ seg, IsLastElement seg S ∧ IsLastElement seg S') →
      fetchKeys (New fetch' w' build' S').calls = fetchKeys (New fetch w build S).calls) ∧
    (∀ (fetch' : Fetcher) (w' : World) (build' S' : String),
      strings.HasPrefix S' "http" = true →
      '?' ∉ S.toList → '#' ∉ S.toList → '?' ∉ S'.toList → '#' ∉ S'.toList →
      url.finalPathSegment S ≠ "" → url.finalPathSegment S' = url.finalPathSegment S →
      fetchKeys (New fetch' w' build' S').calls = fetchKeys (New fetch w build S).calls) := by
  have hkeys : ∀ (fetch : Fetcher) (w : World) (build S : String),
      strings.HasPrefix S "http" = true →
      fetchKeys (New fetch w build S).calls = [filepath.Base S] := by
    intro fetch w build S h
    apply New_cases fetch w build S (motive := fun o => fetchKeys o.calls = [filepath.Base S])
    all_goals intros
    all_goals simp_all [fetchKeys, Call.cacheKey?, List.filterMap]
  refine ⟨hkeys fetch w build S h, base_isLastElement S h,
    fun seg hseg => (lastElement_eq_base seg S hseg).symm,
    fun hq hf hne => base_eq_finalPathSegment S hq hf hne, ?_, ?_⟩
  · rintro fetch' w' build' S' h' ⟨seg, hs, hs'⟩
    rw [hkeys fetch' w' build' S' h', hkeys fetch w build S h,
      lastElement_eq_base seg S hs, lastElement_eq_base seg S' hs']
  · intro fetch' w' build' S' h' hq hf hq' hf' hne heq
    rw [hkeys fetch' w' build' S' h', hkeys fetch w build S h,
      base_eq_finalPathSegment S hq hf hne,
      base_eq_finalPathSegment S' hq' hf' (heq ▸ hne), heq]

/-- The source `https://example/store/graph.json` is given the cache key
`graph.json`, its final path segment. -/
theorem New_cache_key_witness :
    filepath.Base "https://example/store/graph.json" = "graph.json" ∧
    fetchKeys (New cacheDownload (worldOf [] "\x7b\x7d") "b1"
      "https://example/store/graph.json").calls = [filepath.Base "https://example/store/graph.json"] ∧
    filepath.Base "https://example/store/graph.json"
      = url.finalPathSegment "https://example/store/graph.json" :=
  ⟨by decide,
    (New_cache_key cacheDownload (worldOf [] "\x7b\x7d") "b1" "https://example/store/graph.json"
      (by decide)).1,
    (New_cache_key cacheDownload (worldOf [] "\x7b\x7d") "b1" "https://example/store/graph.json"
      (by decide)).2.2.2.1 (by decide) (by decide) (by decide)⟩

/-- C8, as stated, fails: the file `g.json` is empty, decoding it fails, and the
message of the error `New` returns, `problem reading json: unexpected end of JSON
input`, does not contain the path `g.json`. -/
theorem New_decode_error_omits_path :
    (New cacheDownload (worldOf [("g.json", "")] "") "b1" "g.json").err.map GoError.Error
      = some "problem reading json: unexpected end of JSON input" ∧
    strings.Contains "problem reading json: unexpected end of JSON input" "g.json" = false := by
  constructor <;> decide

/-- The test `strings.Contains s x` holds exactly when `x` is a run of consecutive
characters of `s`. -/
theorem contains_iff_run (s x : String) :
    strings.Contains s x = true ↔ x.toList <:+: s.toList := by
  unfold strings.Contains
  rw [List.any_eq_true, List.infix_iff_prefix_suffix]
  constructor
  · rintro ⟨t, ht, hp⟩
    exact ⟨t, List.isPrefixOf_iff_prefix.1 hp, (List.mem_tails _ _).1 ht⟩
  · rintro ⟨t, hp, ht⟩
    exact ⟨t, (List.mem_tails _ _).2 ht, List.isPrefixOf_iff_prefix.2 hp⟩

/-- A text contains what it ends with. -/
theorem contains_append (a b : String) : strings.Contains (a ++ b) b = true := by
  rw [contains_iff_run]
  exact ⟨a.toList, [], by simp⟩

/-- A text contains what its end contains. -/
theorem contains_append_right (a b x : String) (h : strings.Contains b x = true) :
    strings.Contains (a ++ b) x = true := by
  rw [contains_iff_run] at h ⊢
  obtain ⟨p, q, hpq⟩ := h
  refine ⟨a.toList ++ p, q, ?_⟩
  show a.toList ++ p ++ x.toList ++ q = a.toList ++ b.toList
  rw [← hpq]
  simp only [List.append_assoc]

/-- The message of an `*os.PathError` contains its path. -/
theorem pathError_contains (op path : String) (e : Errno) :
    strings.Contains (GoError.pathError op path e).Error path = true := by
  rw [contains_iff_run]
  exact ⟨(op ++ " ").toList, (": " ++ e.Error).toList, by simp [GoError.Error]⟩

/-- C8, amended: the error for a missing local file has the message
`could not find file P`; the error of a failed read is the `*os.PathError` of
`ioutil.ReadFile`, returned as it is, and its message contains the path; a
failed fetch is returned wrapped, with the message `problem downloading file: `
followed by the message of the fetcher's error, so that it contains the URL
whenever the fetcher's message does; a failed decode is returned wrapped, with
the message `problem reading json: ` followed by the decoder's message.  Both
wrapped errors have the cause of the error they wrap. -/
theorem New_error_messages (fetch : Fetcher) (w : World) (build S : String) :
    (∀ c, strings.HasPrefix S "http" = true →
      (fetch w (300 * time.Hour) S (filepath.Base S) false).err = some c →
      ∃ e, (New fetch w build S).err = some e ∧ e = .withMessage c "problem downloading file" ∧
        e.Error = "problem downloading file: " ++ c.Error ∧ e.Cause = c.Cause ∧
        (strings.Contains c.Error S = true → strings.Contains e.Error S = true)) ∧
    (strings.HasPrefix S "http" = false → os.IsNotExist (os.Stat w S) = true →
      ∃ e, (New fetch w build S).err = some e ∧ e.Error = "could not find file " ++ S ∧
        strings.Contains e.Error S = true) ∧
    (∀ c, strings.HasPrefix S "http" = false → os.IsNotExist (os.Stat w S) = false →
      (ioutil.ReadFile w S).2 = some c →
      (New fetch w build S).err = some c ∧ strings.Contains c.Error S = true) ∧
    (∀ data c, Call.Unmarshal data ∈ (New fetch w build S).calls →
      (json.Unmarshal data Graph.zero).2 = some c →
      ∃ e, (New fetch w build S).err = some e ∧ e = .withMessage c "problem reading json" ∧
        e.Error = "problem reading json: " ++ c.Error ∧ e.Cause = c.Cause) := by
  have hread : ∀ c, (ioutil.ReadFile w S).2 = some c → strings.Contains c.Error S = true := by
    intro c hc
    unfold ioutil.ReadFile at hc
    split at hc
    · cases hc
    · simp only [Option.some.injEq] at hc
      rw [← hc]
      exact pathError_contains _ _ _
  have hwrap : ∀ c : GoError, strings.Contains c.Error S = true →
      strings.Contains ("problem downloading file" ++ ": " ++ c.Error) S = true :=
    fun c hc => contains_append_right _ _ _ hc
  apply New_cases fetch w build S
    (motive := fun o =>
      (∀ c, strings.HasPrefix S "http" = true →
        (fetch w (300 * time.Hour) S (filepath.Base S) false).err = some c →
        ∃ e, o.err = some e ∧ e = .withMessage c "problem downloading file" ∧
          e.Error = "problem downloading file: " ++ c.Error ∧ e.Cause = c.Cause ∧
          (strings.Contains c.Error S = true → strings.Contains e.Error S = true)) ∧
      (strings.HasPrefix S "http" = false → os.IsNotExist (os.Stat w S) = true →
        ∃ e, o.err = some e ∧ e.Error = "could not find file " ++ S ∧
          strings.Contains e.Error S = true) ∧
      (∀ c, strings.HasPrefix S "http" = false → os.IsNotExist (os.Stat w S) = false →
        (ioutil.ReadFile w S).2 = some c → o.err = some c ∧ strings.Contains c.Error S = true) ∧
      (∀ data c, Call.Unmarshal data ∈ o.calls →
        (json.Unmarshal data Graph.zero).2 = some c →
        ∃ e, o.err = some e ∧ e = .withMessage c "problem reading json" ∧
          e.Error = "problem reading json: " ++ c.Error ∧ e.Cause = c.Cause))
  case fetchError =>
    intro e hp he
    refine ⟨?_, by simp [hp], by simp [hp], by simp⟩
    intro c _ hc
    rw [he] at hc
    cases hc
    exact ⟨_, rfl, rfl, by simp [GoError.Error], rfl, hwrap e⟩
  case readError =>
    intro e hp hs hr
    refine ⟨by simp [hp], by simp [hs], ?_, by simp⟩
    intro c _ _ hc
    rw [hr] at hc
    cases hc
    exact ⟨rfl, hread e hr⟩
  all_goals intros
  all_goals simp_all [GoError.Error, GoError.Cause, contains_append]

/-- The error for the missing file `absent.json` names it; the error of reading
`g.json/x`, a path below a regular file, names it; and the error for the
undecodable file `g.json` is the decoder's error under `problem reading json`. -/
theorem New_error_messages_witness :
    (∃ e, (New cacheDownload (worldOf [("g.json", "[")] "") "b1" "absent.json").err = some e ∧
      e.Error = "could not find file " ++ "absent.json" ∧
      strings.Contains e.Error "absent.json" = true) ∧
    ((New cacheDownload (worldOf [("g.json", "[")] "") "b1" "g.json/x").err
        = some (.pathError "open" "g.json/x" .ENOTDIR) ∧
      strings.Contains (GoError.pathError "open" "g.json/x" .ENOTDIR).Error "g.json/x" = true) ∧
    (∃ e, (New cacheDownload (worldOf [("g.json", "[")] "") "b1" "g.json").err = some e ∧
      e = .withMessage (.syntaxError "unexpected end of JSON input") "problem reading json" ∧
      e.Error = "problem reading json: " ++ (GoError.syntaxError "unexpected end of JSON input").Error ∧
      e.Cause = (GoError.syntaxError "unexpected end of JSON input").Cause) :=
  ⟨(New_error_messages cacheDownload (worldOf [("g.json", "[")] "") "b1" "absent.json").2.1
      (by decide) (by decide),
    (New_error_messages cacheDownload (worldOf [("g.json", "[")] "") "b1" "g.json/x").2.2.1
      (.pathError "open" "g.json/x" .ENOTDIR) (by decide) (by decide) (by decide),
    (New_error_messages cacheDownload (worldOf [("g.json", "[")] "") "b1" "g.json").2.2.2
      "[" (.syntaxError "unexpected end of JSON input") (by decide) (by decide)⟩

/-- A document whose first member fills a node and whose last member cannot be
decoded: the decoder has stored the node in its target, and `New` returns no graph. -/
theorem New_graph_or_error_witness :
    (json.Unmarshal "\x7b\"nodes\":[\x7b\"id\":\"a.go\"\x7d],\"id\":5\x7d" Graph.zero).1.Nodes.elems
      = [⟨"a.go", 0, Relationships.zero⟩] ∧
    (New cacheDownload (worldOf [("g.json", "\x7b\"nodes\":[\x7b\"id\":\"a.go\"\x7d],\"id\":5\x7d")] "")
      "b1" "g.json").graph = none :=
  ⟨by decide,
    (New_graph_or_error cacheDownload
      (worldOf [("g.json", "\x7b\"nodes\":[\x7b\"id\":\"a.go\"\x7d],\"id\":5\x7d")] "") "b1"
      "g.json").2.2.2.2 "\x7b\"nodes\":[\x7b\"id\":\"a.go\"\x7d],\"id\":5\x7d" (by decide) (by decide)⟩

/-- No element satisfies `p`: `indexWhere` finds none. -/
theorem indexWhere_eq_none (p : String → Bool) (names : List String)
    (h : ∀ n ∈ names, p n = false) : json.indexWhere p names = none := by
  induction names with
  | nil => rfl
  | cons n ns ih =>
    have hn := h n (List.mem_cons_self _ _)
    simp only [json.indexWhere, hn, Bool.false_eq_true, if_false,
      ih (fun m hm => h m (List.mem_cons_of_mem _ hm)), Option.map_none']

/-- A key that is no field name, not even up to case, names no field. -/
theorem findField_eq_none (names : List String) (k : String)
    (hexact : ∀ n ∈ names, json.equalFold n k = true → k = n) (hk : k ∉ names) :
    json.findField names k = none := by
  have h1 : json.indexWhere (fun n => n == k) names = none := by
    apply indexWhere_eq_none
    intro n hn
    have : n ≠ k := fun h => hk (h ▸ hn)
    simpa using this
  have h2 : json.indexWhere (fun n => json.equalFold n k) names = none := by
    apply indexWhere_eq_none
    intro n hn
    cases he : json.equalFold n k with
    | false => rfl
    | true => exact absurd (hexact n hn he ▸ hn) hk
  simp only [json.findField, h1, h2]

/-- A name equals itself up to case. -/
theorem equalFold_self (n : String) : json.equalFold n n = true := by
  simp [json.equalFold]

/-- The decoder folds a character as the specification does. -/
theorem foldChar_eq (c : Char) : json.foldChar c = Document.fold c := by
  have h1 : c = Char.ofNat 0x17F ↔ c.toNat = 383 := by
    constructor
    · rintro rfl; decide
    · intro h; apply Char.ext; apply UInt32.ext; exact h
  have h2 : c = Char.ofNat 0x212A ↔ c.toNat = 8490 := by
    constructor
    · rintro rfl; decide
    · intro h; apply Char.ext; apply UInt32.ext; exact h
  unfold json.foldChar Document.fold Char.toLower
  by_cases a : c.toNat = 383
  · have : ¬ (65 ≤ c.toNat ∧ c.toNat ≤ 90) := by omega
    simp [h1.2 a, this]
  · by_cases b : c.toNat = 8490
    · have : ¬ (65 ≤ c.toNat ∧ c.toNat ≤ 90) := by omega
      have hb := h2.2 b
      subst hb
      decide
    · have n1 : ¬ c = Char.ofNat 0x17F := fun h => a (h1.1 h)
      have n2 : ¬ c = Char.ofNat 0x212A := fun h => b (h2.1 h)
      simp only [n1, n2, a, b, if_false]

/-- The decoder matches a key with a field name exactly when the key is the name
up to the case of its letters. -/
theorem equalFold_sameName (n k : String) : json.equalFold n k = Document.sameName n k := by
  have : json.foldChar = Document.fold := funext foldChar_eq
  simp only [json.equalFold, Document.sameName, this]

/-- What `keysOk` says of the first member and of the others. -/
theorem keysOk_cons (names : List String) (k : String) (v : JSON) (ms : List (String × JSON))
    (h : Document.keysOk names ((k, v) :: ms) = true) :
    (k ∈ names → ms.lookup k = none) ∧
    (∀ f, f ≠ k → ((k, v) :: ms).lookup f = ms.lookup f) ∧
    Document.keysOk names ms = true ∧
    (∀ n ∈ names, json.equalFold n k = true → k = n) := by
  have hsame : Document.sameName = json.equalFold :=
    funext fun n => funext fun k => (equalFold_sameName n k).symm
  simp only [Document.keysOk, hsame, List.map_cons, Bool.and_eq_true, decide_eq_true_eq,
    List.all_cons, List.all_eq_true, Bool.or_eq_true, Bool.not_eq_true', beq_iff_eq] at h
  obtain ⟨hnd, hk, hms⟩ := h
  refine ⟨?_, ?_, ?_, ?_⟩
  · intro hmem
    have hf : Document.namesField names k = true := by
      simp only [Document.namesField, hsame, List.any_eq_true]
      exact ⟨k, hmem, equalFold_self k⟩
    rw [List.filter_cons_of_pos hf, List.nodup_cons] at hnd
    rw [List.lookup_eq_none_iff]
    intro p hp
    have hne : k ≠ p.1 := by
      intro hpk
      apply hnd.1
      rw [List.mem_filter]
      exact ⟨hpk ▸ List.mem_map_of_mem Prod.fst hp, hf⟩
    simpa using hne
  · intro f hf
    have : (f == k) = false := by simpa using hf
    simp [List.lookup, this]
  · simp only [Document.keysOk, hsame, Bool.and_eq_true, decide_eq_true_eq, List.all_eq_true,
      Bool.or_eq_true, Bool.not_eq_true', beq_iff_eq]
    refine ⟨?_, hms⟩
    by_cases hf : Document.namesField names k = true
    · rw [List.filter_cons_of_pos hf, List.nodup_cons] at hnd
      exact hnd.2
    · rw [List.filter_cons_of_neg hf] at hnd
      exact hnd
  · intro n hn he
    rcases hk n hn with h1 | h1
    · rw [h1] at he; exact absurd he (by simp)
    · exact h1

/-- A string member is decoded without error. -/
theorem decodeString_accepts (type : String) (ctx : json.Context) (v : Option JSON)
    (h : Document.stringOk v = true) : json.accepts (json.decodeString type ctx) v := by
  intro x hx old
  subst hx
  cases x <;> simp_all [json.decodeString, Document.stringOk, Document.isAbsent]

/-- A string member decoded into an empty string gives the string it holds. -/
theorem decodeString_stored (type : String) (ctx : json.Context) (v : Option JSON)
    (h : Document.stringOk v = true) :
    json.stored (json.decodeString type ctx) "" v = Document.stringOf v := by
  cases v with
  | none => rfl
  | some x => cases x <;> simp_all [json.stored, json.decodeString, Document.stringOk,
      Document.isAbsent, Document.stringOf]

/-- Reading decimal digits from the left, as `strconv.ParseInt` does, gives the
number the digits denote by their places. -/
theorem foldl_decimal (ds : List Char) (a : Nat) :
    ds.foldl (fun a c => 10 * a + (c.toNat - 48)) a = a * 10 ^ ds.length + Document.decimal ds := by
  induction ds generalizing a with
  | nil => simp [Document.decimal]
  | cons d ds ih =>
    simp only [List.foldl_cons, ih, Document.decimal, List.length_cons, pow_succ]
    ring

/-- On an integer literal whose integer fits an `int`, `strconv.ParseInt` gives
that integer. -/
theorem parseInt64_integerOf (lit : String) (n : Int)
    (h : Document.integerOf lit = some n) (hfit : Document.fitsInt n = true) :
    json.parseInt64 lit = some n := by
  have hrange : -9223372036854775808 ≤ n ∧ n ≤ 9223372036854775807 := by
    simp only [Document.fitsInt, decide_eq_true_eq] at hfit
    norm_num at hfit
    omega
  unfold Document.integerOf at h
  unfold json.parseInt64
  split at h
  · rename_i ds hcs
    split at h
    · rename_i hd
      simp only [Option.some.injEq] at h
      simp only [Document.isDigits, Bool.and_eq_true, Bool.not_eq_true',
        List.isEmpty_eq_false] at hd
      have hne : ds ≠ [] := by
        intro h0; rw [h0] at hd; simp at hd
      simp only [hcs, List.head?_cons, List.tail_cons, if_true, ne_eq, hne,
        not_false_eq_true, hd.2, and_self, foldl_decimal, zero_mul, zero_add, h, hrange]
    · cases h
  · rename_i ds hnot
    split at h
    · rename_i hd
      simp only [Option.some.injEq] at h
      simp only [Document.isDigits, Bool.and_eq_true, Bool.not_eq_true',
        List.isEmpty_eq_false] at hd
      have hne : lit.toList ≠ [] := by
        intro h0; rw [h0] at hd; simp at hd
      have hhead : ¬ (lit.toList.head? = some '-') := by
        intro hh
        cases hl : lit.toList with
        | nil => exact hne hl
        | cons c cs =>
          rw [hl] at hh
          simp only [List.head?_cons, Option.some.injEq] at hh
          exact hnot cs (hh ▸ hl)
      simp only [hhead, if_false, ne_eq, hne, not_false_eq_true, hd.2, and_self,
        foldl_decimal, zero_mul, zero_add, h, hrange, Bool.false_eq_true, decide_False,
        if_true]
    · cases h

/-- An integer member is decoded without error. -/
theorem decodeInt_accepts (ctx : json.Context) (v : Option JSON)
    (h : Document.intOk v = true) : json.accepts (json.decodeInt ctx) v := by
  intro x hx old
  subst hx
  cases x with
  | number lit =>
    simp only [Document.intOk] at h
    cases hi : Document.integerOf lit with
    | none => simp [hi] at h
    | some n =>
      simp only [hi] at h
      simp [json.decodeInt, parseInt64_integerOf lit n hi h]
  | _ => simp_all [json.decodeInt, Document.intOk, Document.isAbsent]

/-- An integer member decoded into zero gives the integer it denotes. -/
theorem decodeInt_stored (ctx : json.Context) (v : Option JSON)
    (h : Document.intOk v = true) :
    json.stored (json.decodeInt ctx) 0 v = Document.intOf v := by
  cases v with
  | none => rfl
  | some x =>
    cases x with
    | number lit =>
      simp only [Document.intOk] at h
      cases hi : Document.integerOf lit with
      | none => simp [hi] at h
      | some n =>
        simp only [hi] at h
        simp [json.stored, json.decodeInt, parseInt64_integerOf lit n hi h, Document.intOf, hi]
    | _ => simp_all [json.stored, json.decodeInt, Document.intOk, Document.isAbsent,
        Document.intOf]

/-- Elements that decode without error give no error, whatever the storage held. -/
theorem decodeElems_accepts {α : Type} (dec : α → JSON → α × Option GoError) (zero : α)
    (vs : List JSON) (h : ∀ x ∈ vs, ∀ old, (dec old x).2 = none) (mem : List α) :
    (json.decodeElems dec zero mem vs).2 = none := by
  induction vs generalizing mem with
  | nil => rfl
  | cons v vs ih =>
    simp only [json.decodeElems, h v (List.mem_cons_self _ _), json.firstError]
    exact ih (fun x hx => h x (List.mem_cons_of_mem _ hx)) _

/-- Elements decoded over empty storage are decoded one by one from the zero
value, and leave nothing beyond them. -/
theorem decodeElems_nil {α : Type} (dec : α → JSON → α × Option GoError) (zero : α)
    (vs : List JSON) :
    (json.decodeElems dec zero [] vs).1 = .of (vs.map (fun x => (dec zero x).1)) := by
  induction vs with
  | nil => rfl
  | cons v vs ih =>
    simp only [json.decodeElems, List.headD_nil, List.tail_nil, List.map_cons, ih, Slice.of]

/-- An array member with well-formed entries is decoded without error. -/
theorem decodeSlice_accepts {α : Type} (dec : α → JSON → α × Option GoError) (zero : α)
    (type : String) (ctx : json.Context) (entryOk : JSON → Bool) (v : Option JSON)
    (hdec : ∀ x, entryOk x = true → ∀ old, (dec old x).2 = none)
    (h : Document.listOk entryOk v = true) :
    json.accepts (json.decodeSlice dec zero type ctx) v := by
  intro x hx old
  subst hx
  cases x with
  | array vs =>
    simp only [Document.listOk, List.all_eq_true] at h
    cases vs with
    | nil => rfl
    | cons y ys =>
      simp only [json.decodeSlice]
      exact decodeElems_accepts dec zero (y :: ys) (fun x hx => hdec x (h x hx)) _
  | _ => simp_all [json.decodeSlice, Document.listOk, Document.isAbsent]

/-- An array member decoded into a `nil` slice gives its entries, in order, and
nothing beyond them. -/
theorem decodeSlice_stored {α : Type} (dec : α → JSON → α × Option GoError) (zero : α)
    (type : String) (ctx : json.Context) (entryOk : JSON → Bool) (f : JSON → α) (v : Option JSON)
    (hdec : ∀ x, entryOk x = true → (dec zero x).1 = f x)
    (h : Document.listOk entryOk v = true) :
    json.stored (json.decodeSlice dec zero type ctx) .nil v = .of ((Document.entries v).map f) := by
  cases v with
  | none => rfl
  | some x =>
    cases x with
    | array vs =>
      simp only [Document.listOk, List.all_eq_true] at h
      cases vs with
      | nil => rfl
      | cons y ys =>
        simp only [json.stored, json.decodeSlice, Slice.nil, List.append_nil, decodeElems_nil,
          Document.entries]
        congr 1
        exact List.map_congr_left (fun x hx => hdec x (h x hx))
    | null => rfl
    | _ => simp_all [Document.listOk, Document.isAbsent]

/-- An absent member is accepted. -/
theorem accepts_none {α : Type} (dec : α → JSON → α × Option GoError) :
    json.accepts dec none := by
  intro x hx
  cases hx

/-- The members of a well-formed node reference, decoded one after the other,
store what the members `index` and `id` hold. -/
theorem decodeMembers_nodeRelationship (ctx : json.Context) (ms : List (String × JSON))
    (hk : Document.keysOk ["index", "id"] ms = true)
    (h1 : json.accepts (json.decodeInt (ctx.field "NodeRelationship" "index"))
      (ms.lookup "index"))
    (h2 : json.accepts (json.decodeString "string" (ctx.field "NodeRelationship" "id"))
      (ms.lookup "id"))
    (s : NodeRelationship) :
    json.decodeMembers (json.stepNodeRelationship ctx) ms s =
      (⟨json.stored (json.decodeInt (ctx.field "NodeRelationship" "index")) s.GraphID
          (ms.lookup "index"),
        json.stored (json.decodeString "string" (ctx.field "NodeRelationship" "id")) s.Name
          (ms.lookup "id")⟩, none) := by
  induction ms generalizing s with
  | nil => rfl
  | cons m ms ih =>
    obtain ⟨k, v⟩ := m
    obtain ⟨hnone', hother, hk', hexact⟩ := keysOk_cons _ k v ms hk
    by_cases c1 : k = "index"
    · subst c1
      have hnone := hnone' (by decide)
      have l2 := hother "id" (by decide)
      rw [l2] at h2 ⊢
      have e := h1 v (by simp [List.lookup]) s.GraphID
      have hf : json.findField ["index", "id"] "index" = some 0 := by decide
      simp only [json.decodeMembers, json.stepNodeRelationship, hf]
      rw [ih hk' (hnone ▸ accepts_none _) h2]
      simp [json.stored, hnone, e, json.firstError, List.lookup]
    · by_cases c2 : k = "id"
      · subst c2
        have hnone := hnone' (by decide)
        have l1 := hother "index" (by decide)
        rw [l1] at h1 ⊢
        have e := h2 v (by simp [List.lookup]) s.Name
        have hf : json.findField ["index", "id"] "id" = some 1 := by decide
        simp only [json.decodeMembers, json.stepNodeRelationship, hf]
        rw [ih hk' h1 (hnone ▸ accepts_none _)]
        simp [json.stored, hnone, e, json.firstError, List.lookup]
      · have l1 := hother "index" (Ne.symm c1)
        rw [l1] at h1 ⊢
        have l2 := hother "id" (Ne.symm c2)
        rw [l2] at h2 ⊢
        have hf : json.findField ["index", "id"] k = none :=
          findField_eq_none _ k hexact (by simp [c1, c2])
        simp only [json.decodeMembers, json.stepNodeRelationship, hf]
        rw [ih hk' h1 h2]
        simp [json.firstError]

/-- The members of well-formed relationships, decoded one after the other, store what
the members `_dependent_libs`, `_libs`, `_files`, `_dependent_files` and `type` hold. -/
theorem decodeMembers_relationships (ctx : json.Context) (ms : List (String × JSON))
    (hk : Document.keysOk ["_dependent_libs", "_libs", "_files", "_dependent_files", "type"] ms = true)
    (h1 : json.accepts (json.decodeStrings (ctx.field "" "_dependent_libs"))
      (ms.lookup "_dependent_libs"))
    (h2 : json.accepts (json.decodeStrings (ctx.field "" "_libs"))
      (ms.lookup "_libs"))
    (h3 : json.accepts (json.decodeStrings (ctx.field "" "_files"))
      (ms.lookup "_files"))
    (h4 : json.accepts (json.decodeStrings (ctx.field "" "_dependent_files"))
      (ms.lookup "_dependent_files"))
    (h5 : json.accepts (json.decodeString "depgraph.NodeType" (ctx.field "" "type"))
      (ms.lookup "type"))
    (s : Relationships) :
    json.decodeMembers (json.stepRelationships ctx) ms s =
      (⟨json.stored (json.decodeStrings (ctx.field "" "_dependent_libs")) s.DependentLibraries
          (ms.lookup "_dependent_libs"),
        json.stored (json.decodeStrings (ctx.field "" "_libs")) s.Libraries
          (ms.lookup "_libs"),
        json.stored (json.decodeStrings (ctx.field "" "_files")) s.Files
          (ms.lookup "_files"),
        json.stored (json.decodeStrings (ctx.field "" "_dependent_files")) s.DependentFiles
          (ms.lookup "_dependent_files"),
        json.stored (json.decodeString "depgraph.NodeType" (ctx.field "" "type")) s.Type_
          (ms.lookup "type")⟩, none) := by
  induction ms generalizing s with
  | nil => rfl
  | cons m ms ih =>
    obtain ⟨k, v⟩ := m
    obtain ⟨hnone', hother, hk', hexact⟩ := keysOk_cons _ k v ms hk
    by_cases c1 : k = "_dependent_libs"
    · subst c1
      have hnone := hnone' (by decide)
      have l2 := hother "_libs" (by decide)
      rw [l2] at h2 ⊢
      have l3 := hother "_files" (by decide)
      rw [l3] at h3 ⊢
      have l4 := hother "_dependent_files" (by decide)
      rw [l4] at h4 ⊢
      have l5 := hother "type" (by decide)
      rw [l5] at h5 ⊢
      have e := h1 v (by simp [List.lookup]) s.DependentLibraries
      have hf : json.findField ["_dependent_libs", "_libs", "_files", "_dependent_files", "type"] "_dependent_libs" = some 0 := by decide
      simp only [json.decodeMembers, json.stepRelationships, hf]
      rw [ih hk' (hnone ▸ accepts_none _) h2 h3 h4 h5]
      simp [json.stored, hnone, e, json.firstError, List.lookup]
    · by_cases c2 : k = "_libs"
      · subst c2
        have hnone := hnone' (by decide)
        have l1 := hother "_dependent_libs" (by decide)
        rw [l1] at h1 ⊢
        have l3 := hother "_files" (by decide)
        rw [l3] at h3 ⊢
        have l4 := hother "_dependent_files" (by decide)
        rw [l4] at h4 ⊢
        have l5 := hother "type" (by decide)
        rw [l5] at h5 ⊢
        have e := h2 v (by simp [List.lookup]) s.Libraries
        have hf : json.findField ["_dependent_libs", "_libs", "_files", "_dependent_files", "type"] "_libs" = some 1 := by decide
        simp only [json.decodeMembers, json.stepRelationships, hf]
        rw [ih hk' h1 (hnone ▸ accepts_none _) h3 h4 h5]
        simp [json.stored, hnone, e, json.firstError, List.lookup]
      · by_cases c3 : k = "_files"
        · subst c3
          have hnone := hnone' (by decide)
          have l1 := hother "_dependent_libs" (by decide)
          rw [l1] at h1 ⊢
          have l2 := hother "_libs" (by decide)
          rw [l2] at h2 ⊢
          have l4 := hother "_dependent_files" (by decide)
          rw [l4] at h4 ⊢
          have l5 := hother "type" (by decide)
          rw [l5] at h5 ⊢
          have e := h3 v (by simp [List.lookup]) s.Files
          have hf : json.findField ["_dependent_libs", "_libs", "_files", "_dependent_files", "type"] "_files" = some 2 := by decide
          simp only [json.decodeMembers, json.stepRelationships, hf]
          rw [ih hk' h1 h2 (hnone ▸ accepts_none _) h4 h5]
          simp [json.stored, hnone, e, json.firstError, List.lookup]
        · by_cases c4 : k = "_dependent_files"
          · subst c4
            have hnone := hnone' (by decide)
            have l1 := hother "_dependent_libs" (by decide)
            rw [l1] at h1 ⊢
            have l2 := hother "_libs" (by decide)
            rw [l2] at h2 ⊢
            have l3 := hother "_files" (by decide)
            rw [l3] at h3 ⊢
            have l5 := hother "type" (by decide)
            rw [l5] at h5 ⊢
            have e := h4 v (by simp [List.lookup]) s.DependentFiles
            have hf : json.findField ["_dependent_libs", "_libs", "_files", "_dependent_files", "type"] "_dependent_files" = some 3 := by decide
            simp only [json.decodeMembers, json.stepRelationships, hf]
            rw [ih hk' h1 h2 h3 (hnone ▸ accepts_none _) h5]
            simp [json.stored, hnone, e, json.firstError, List.lookup]
          · by_cases c5 : k = "type"
            · subst c5
              have hnone := hnone' (by decide)
              have l1 := hother "_dependent_libs" (by decide)
              rw [l1] at h1 ⊢
              have l2 := hother "_libs" (by decide)
              rw [l2] at h2 ⊢
              have l3 := hother "_files" (by decide)
              rw [l3] at h3 ⊢
              have l4 := hother "_dependent_files" (by decide)
              rw [l4] at h4 ⊢
              have e := h5 v (by simp [List.lookup]) s.Type_
              have hf : json.findField ["_dependent_libs", "_libs", "_files", "_dependent_files", "type"] "type" = some 4 := by decide
              simp only [json.decodeMembers, json.stepRelationships, hf]
              rw [ih hk' h1 h2 h3 h4 (hnone ▸ accepts_none _)]
              simp [json.stored, hnone, e, json.firstError, List.lookup]
            · have l1 := hother "_dependent_libs" (Ne.symm c1)
              rw [l1] at h1 ⊢
              have l2 := hother "_libs" (Ne.symm c2)
              rw [l2] at h2 ⊢
              have l3 := hother "_files" (Ne.symm c3)
              rw [l3] at h3 ⊢
              have l4 := hother "_dependent_files" (Ne.symm c4)
              rw [l4] at h4 ⊢
              have l5 := hother "type" (Ne.symm c5)
              rw [l5] at h5 ⊢
              have hf : json.findField ["_dependent_libs", "_libs", "_files", "_dependent_files", "type"] k = none :=
                findField_eq_none _ k hexact (by simp [c1, c2, c3, c4, c5])
              simp only [json.decodeMembers, json.stepRelationships, hf]
              rw [ih hk' h1 h2 h3 h4 h5]
              simp [json.firstError]

/-- A well-formed node reference is decoded without error. -/
theorem decodeNodeRelationship_accepts (ctx : json.Context) (v : Option JSON)
    (h : Document.refOk v = true) : json.accepts (json.decodeNodeRelationship ctx) v := by
  intro x hx old
  subst hx
  cases x with
  | object ms =>
    simp only [Document.refOk, Bool.and_eq_true] at h
    obtain ⟨⟨hk, hi⟩, hs⟩ := h
    simp only [json.decodeNodeRelationship, json.decodeStruct]
    rw [decodeMembers_nodeRelationship ctx ms hk (decodeInt_accepts _ _ hi)
      (decodeString_accepts _ _ _ hs)]
  | _ => simp_all [json.decodeNodeRelationship, json.decodeStruct, Document.refOk,
      Document.isAbsent]

/-- A well-formed node reference decoded into the zero value gives what its
members `index` and `id` hold. -/
theorem decodeNodeRelationship_stored (ctx : json.Context) (v : Option JSON)
    (h : Document.refOk v = true) :
    json.stored (json.decodeNodeRelationship ctx) NodeRelationship.zero v = Document.refOf v := by
  cases v with
  | none => rfl
  | some x =>
    cases x with
    | object ms =>
      simp only [Document.refOk, Bool.and_eq_true] at h
      obtain ⟨⟨hk, hi⟩, hs⟩ := h
      simp only [json.stored, json.decodeNodeRelationship, json.decodeStruct]
      rw [decodeMembers_nodeRelationship ctx ms hk (decodeInt_accepts _ _ hi)
        (decodeString_accepts _ _ _ hs)]
      simp only [NodeRelationship.zero, decodeInt_stored _ _ hi, decodeString_stored _ _ _ hs,
        Document.refOf, Document.member]
    | null => rfl
    | _ => simp_all [Document.refOk, Document.isAbsent]

/-- A well-formed list of strings is decoded without error. -/
theorem decodeStrings_accepts (ctx : json.Context) (v : Option JSON)
    (h : Document.listOk (fun x => Document.stringOk (some x)) v = true) :
    json.accepts (json.decodeStrings ctx) v :=
  decodeSlice_accepts _ _ _ _ _ v
    (fun x hx old => decodeString_accepts "string" ctx (some x) hx x rfl old) h

/-- A well-formed list of strings decoded into a `nil` slice gives its strings, in order. -/
theorem decodeStrings_stored (ctx : json.Context) (v : Option JSON)
    (h : Document.listOk (fun x => Document.stringOk (some x)) v = true) :
    json.stored (json.decodeStrings ctx) .nil v = .of (Document.stringsOf v) :=
  decodeSlice_stored _ _ _ _ _ (fun x => Document.stringOf (some x)) v
    (fun x hx => decodeString_stored "string" ctx (some x) hx) h

/-- Well-formed relationships are decoded without error. -/
theorem decodeRelationships_accepts (ctx : json.Context) (v : Option JSON)
    (h : Document.relationshipsOk v = true) : json.accepts (json.decodeRelationships ctx) v := by
  intro x hx old
  subst hx
  cases x with
  | object ms =>
    simp only [Document.relationshipsOk, Bool.and_eq_true] at h
    obtain ⟨⟨⟨⟨⟨hk, h1⟩, h2⟩, h3⟩, h4⟩, h5⟩ := h
    simp only [json.decodeRelationships, json.decodeStruct]
    rw [decodeMembers_relationships ctx ms hk (decodeStrings_accepts _ _ h1)
      (decodeStrings_accepts _ _ h2) (decodeStrings_accepts _ _ h3)
      (decodeStrings_accepts _ _ h4) (decodeString_accepts _ _ _ h5)]
  | _ => simp_all [json.decodeRelationships, json.decodeStruct, Document.relationshipsOk,
      Document.isAbsent]

/-- Well-formed relationships decoded into the zero value give what their members hold. -/
theorem decodeRelationships_stored (ctx : json.Context) (v : Option JSON)
    (h : Document.relationshipsOk v = true) :
    json.stored (json.decodeRelationships ctx) Relationships.zero v
      = Document.relationshipsOf v := by
  cases v with
  | none => rfl
  | some x =>
    cases x with
    | object ms =>
      simp only [Document.relationshipsOk, Bool.and_eq_true] at h
      obtain ⟨⟨⟨⟨⟨hk, h1⟩, h2⟩, h3⟩, h4⟩, h5⟩ := h
      simp only [json.stored, json.decodeRelationships, json.decodeStruct]
      rw [decodeMembers_relationships ctx ms hk (decodeStrings_accepts _ _ h1)
        (decodeStrings_accepts _ _ h2) (decodeStrings_accepts _ _ h3)
        (decodeStrings_accepts _ _ h4) (decodeString_accepts _ _ _ h5)]
      simp only [Relationships.zero, decodeStrings_stored _ _ h1, decodeStrings_stored _ _ h2,
        decodeStrings_stored _ _ h3, decodeStrings_stored _ _ h4, decodeString_stored _ _ _ h5,
        Document.relationshipsOf, Document.member]
    | null => rfl
    | _ => simp_all [Document.relationshipsOk, Document.isAbsent]

/-- The members of a well-formed entry of `nodes`, decoded one after the other, store
what the members `id`, `index` and `node` hold. -/
theorem decodeMembers_node (ctx : json.Context) (ms : List (String × JSON))
    (hk : Document.keysOk ["id", "index", "node"] ms = true)
    (h1 : json.accepts (json.decodeString "string" (ctx.field "Node" "id"))
      (ms.lookup "id"))
    (h2 : json.accepts (json.decodeInt (ctx.field "Node" "index"))
      (ms.lookup "index"))
    (h3 : json.accepts (json.decodeRelationships (ctx.field "Node" "node"))
      (ms.lookup "node"))
    (s : Node) :
    json.decodeMembers (json.stepNode ctx) ms s =
      (⟨json.stored (json.decodeString "string" (ctx.field "Node" "id")) s.Name
          (ms.lookup "id"),
        json.stored (json.decodeInt (ctx.field "Node" "index")) s.GraphID
          (ms.lookup "index"),
        json.stored (json.decodeRelationships (ctx.field "Node" "node")) s.Relationships
          (ms.lookup "node")⟩, none) := by
  induction ms generalizing s with
  | nil => rfl
  | cons m ms ih =>
    obtain ⟨k, v⟩ := m
    obtain ⟨hnone', hother, hk', hexact⟩ := keysOk_cons _ k v ms hk
    by_cases c1 : k = "id"
    · subst c1
      have hnone := hnone' (by decide)
      have l2 := hother "index" (by decide)
      rw [l2] at h2 ⊢
      have l3 := hother "node" (by decide)
      rw [l3] at h3 ⊢
      have e := h1 v (by simp [List.lookup]) s.Name
      have hf : json.findField ["id", "index", "node"] "id" = some 0 := by decide
      simp only [json.decodeMembers, json.stepNode, hf]
      rw [ih hk' (hnone ▸ accepts_none _) h2 h3]
      simp [json.stored, hnone, e, json.firstError, List.lookup]
    · by_cases c2 : k = "index"
      · subst c2
        have hnone := hnone' (by decide)
        have l1 := hother "id" (by decide)
        rw [l1] at h1 ⊢
        have l3 := hother "node" (by decide)
        rw [l3] at h3 ⊢
        have e := h2 v (by simp [List.lookup]) s.GraphID
        have hf : json.findField ["id", "index", "node"] "index" = some 1 := by decide
        simp only [json.decodeMembers, json.stepNode, hf]
        rw [ih hk' h1 (hnone ▸ accepts_none _) h3]
        simp [json.stored, hnone, e, json.firstError, List.lookup]
      · by_cases c3 : k = "node"
        · subst c3
          have hnone := hnone' (by decide)
          have l1 := hother "id" (by decide)
          rw [l1] at h1 ⊢
          have l2 := hother "index" (by decide)
          rw [l2] at h2 ⊢
          have e := h3 v (by simp [List.lookup]) s.Relationships
          have hf : json.findField ["id", "index", "node"] "node" = some 2 := by decide
          simp only [json.decodeMembers, json.stepNode, hf]
          rw [ih hk' h1 h2 (hnone ▸ accepts_none _)]
          simp [json.stored, hnone, e, json.firstError, List.lookup]
        · have l1 := hother "id" (Ne.symm c1)
          rw [l1] at h1 ⊢
          have l2 := hother "index" (Ne.symm c2)
          rw [l2] at h2 ⊢
          have l3 := hother "node" (Ne.symm c3)
          rw [l3] at h3 ⊢
          have hf : json.findField ["id", "index", "node"] k = none :=
            findField_eq_none _ k hexact (by simp [c1, c2, c3])
          simp only [json.decodeMembers, json.stepNode, hf]
          rw [ih hk' h1 h2 h3]
          simp [json.firstError]

/-- A well-formed entry of `nodes` is decoded without error. -/
theorem decodeNode_accepts (ctx : json.Context) (x : JSON) (h : Document.nodeOk x = true)
    (old : Node) : (json.decodeNode ctx old x).2 = none := by
  cases x with
  | object ms =>
    simp only [Document.nodeOk, Bool.and_eq_true] at h
    obtain ⟨⟨⟨hk, h1⟩, h2⟩, h3⟩ := h
    simp only [json.decodeNode, json.decodeStruct]
    rw [decodeMembers_node ctx ms hk (decodeString_accepts _ _ _ h1) (decodeInt_accepts _ _ h2)
      (decodeRelationships_accepts _ _ h3)]
  | _ => simp_all [json.decodeNode, json.decodeStruct, Document.nodeOk, Document.isAbsent]

/-- A well-formed entry of `nodes` decoded into the zero value gives the node the
entry describes. -/
theorem decodeNode_stored (ctx : json.Context) (x : JSON) (h : Document.nodeOk x = true) :
    (json.decodeNode ctx Node.zero x).1 = Document.nodeOf x := by
  cases x with
  | object ms =>
    simp only [Document.nodeOk, Bool.and_eq_true] at h
    obtain ⟨⟨⟨hk, h1⟩, h2⟩, h3⟩ := h
    simp only [json.decodeNode, json.decodeStruct]
    rw [decodeMembers_node ctx ms hk (decodeString_accepts _ _ _ h1) (decodeInt_accepts _ _ h2)
      (decodeRelationships_accepts _ _ h3)]
    simp only [Node.zero, decodeString_stored _ _ _ h1, decodeInt_stored _ _ h2,
      decodeRelationships_stored _ _ h3, Document.nodeOf, Document.member]
  | null => rfl
  | _ => simp_all [Document.nodeOk, Document.isAbsent]

/-- The members of a well-formed entry of `edges`, decoded one after the other, store
what the members `type`, `from_node` and `to_node` hold. -/
theorem decodeMembers_edge (ctx : json.Context) (ms : List (String × JSON))
    (hk : Document.keysOk ["type", "from_node", "to_node"] ms = true)
    (h1 : json.accepts (json.decodeString "depgraph.EdgeType" (ctx.field "Edge" "type"))
      (ms.lookup "type"))
    (h2 : json.accepts (json.decodeNodeRelationship (ctx.field "Edge" "from_node"))
      (ms.lookup "from_node"))
    (h3 : json.accepts (json.decodeSlice (json.decodeNodeRelationship (ctx.field "Edge" "to_node"))
        NodeRelationship.zero "[]depgraph.NodeRelationship" (ctx.field "Edge" "to_node"))
      (ms.lookup "to_node"))
    (s : Edge) :
    json.decodeMembers (json.stepEdge ctx) ms s =
      (⟨json.stored (json.decodeString "depgraph.EdgeType" (ctx.field "Edge" "type")) s.Type_
          (ms.lookup "type"),
        json.stored (json.decodeNodeRelationship (ctx.field "Edge" "from_node")) s.FromNode
          (ms.lookup "from_node"),
        json.stored (json.decodeSlice (json.decodeNodeRelationship (ctx.field "Edge" "to_node"))
        NodeRelationship.zero "[]depgraph.NodeRelationship" (ctx.field "Edge" "to_node")) s.ToNodes
          (ms.lookup "to_node")⟩, none) := by
  induction ms generalizing s with
  | nil => rfl
  | cons m ms ih =>
    obtain ⟨k, v⟩ := m
    obtain ⟨hnone', hother, hk', hexact⟩ := keysOk_cons _ k v ms hk
    by_cases c1 : k = "type"
    · subst c1
      have hnone := hnone' (by decide)
      have l2 := hother "from_node" (by decide)
      rw [l2] at h2 ⊢
      have l3 := hother "to_node" (by decide)
      rw [l3] at h3 ⊢
      have e := h1 v (by simp [List.lookup]) s.Type_
      have hf : json.findField ["type", "from_node", "to_node"] "type" = some 0 := by decide
      simp only [json.decodeMembers, json.stepEdge, hf]
      rw [ih hk' (hnone ▸ accepts_none _) h2 h3]
      simp [json.stored, hnone, e, json.firstError, List.lookup]
    · by_cases c2 : k = "from_node"
      · subst c2
        have hnone := hnone' (by decide)
        have l1 := hother "type" (by decide)
        rw [l1] at h1 ⊢
        have l3 := hother "to_node" (by decide)
        rw [l3] at h3 ⊢
        have e := h2 v (by simp [List.lookup]) s.FromNode
        have hf : json.findField ["type", "from_node", "to_node"] "from_node" = some 1 := by decide
        simp only [json.decodeMembers, json.stepEdge, hf]
        rw [ih hk' h1 (hnone ▸ accepts_none _) h3]
        simp [json.stored, hnone, e, json.firstError, List.lookup]
      · by_cases c3 : k = "to_node"
        · subst c3
          have hnone := hnone' (by decide)
          have l1 := hother "type" (by decide)
          rw [l1] at h1 ⊢
          have l2 := hother "from_node" (by decide)
          rw [l2] at h2 ⊢
          have e := h3 v (by simp [List.lookup]) s.ToNodes
          have hf : json.findField ["type", "from_node", "to_node"] "to_node" = some 2 := by decide
          simp only [json.decodeMembers, json.stepEdge, hf]
          rw [ih hk' h1 h2 (hnone ▸ accepts_none _)]
          simp [json.stored, hnone, e, json.firstError, List.lookup]
        · have l1 := hother "type" (Ne.symm c1)
          rw [l1] at h1 ⊢
          have l2 := hother "from_node" (Ne.symm c2)
          rw [l2] at h2 ⊢
          have l3 := hother "to_node" (Ne.symm c3)
          rw [l3] at h3 ⊢
          have hf : json.findField ["type", "from_node", "to_node"] k = none :=
            findField_eq_none _ k hexact (by simp [c1, c2, c3])
          simp only [json.decodeMembers, json.stepEdge, hf]
          rw [ih hk' h1 h2 h3]
          simp [json.firstError]

/-- A well-formed entry of `edges` is decoded without error. -/
theorem decodeEdge_accepts (ctx : json.Context) (x : JSON) (h : Document.edgeOk x = true)
    (old : Edge) : (json.decodeEdge ctx old x).2 = none := by
  cases x with
  | object ms =>
    simp only [Document.edgeOk, Bool.and_eq_true] at h
    obtain ⟨⟨⟨hk, h1⟩, h2⟩, h3⟩ := h
    simp only [json.decodeEdge, json.decodeStruct]
    rw [decodeMembers_edge ctx ms hk (decodeString_accepts _ _ _ h1)
      (decodeNodeRelationship_accepts _ _ h2)
      (decodeSlice_accepts _ _ _ _ _ _
        (fun x hx old => decodeNodeRelationship_accepts _ (some x) hx x rfl old) h3)]
  | _ => simp_all [json.decodeEdge, json.decodeStruct, Document.edgeOk, Document.isAbsent]

/-- A well-formed entry of `edges` decoded into the zero value gives the edge
group the entry describes. -/
theorem decodeEdge_stored (ctx : json.Context) (x : JSON) (h : Document.edgeOk x = true) :
    (json.decodeEdge ctx Edge.zero x).1 = Document.edgeOf x := by
  cases x with
  | object ms =>
    simp only [Document.edgeOk, Bool.and_eq_true] at h
    obtain ⟨⟨⟨hk, h1⟩, h2⟩, h3⟩ := h
    simp only [json.decodeEdge, json.decodeStruct]
    rw [decodeMembers_edge ctx ms hk (decodeString_accepts _ _ _ h1)
      (decodeNodeRelationship_accepts _ _ h2)
      (decodeSlice_accepts _ _ _ _ _ _
        (fun x hx old => decodeNodeRelationship_accepts _ (some x) hx x rfl old) h3)]
    simp only [Edge.zero, decodeString_stored _ _ _ h1, decodeNodeRelationship_stored _ _ h2,
      decodeSlice_stored _ _ _ _ _ (fun x => Document.refOf (some x)) _
        (fun x hx => decodeNodeRelationship_stored _ (some x) hx) h3,
      Document.edgeOf, Document.member]
  | null => rfl
  | _ => simp_all [Document.edgeOk, Document.isAbsent]

/-- The members of a well-formed document, decoded one after the other, store what
the members `edges`, `nodes` and `id` hold. -/
theorem decodeMembers_graph (ctx : json.Context) (ms : List (String × JSON))
    (hk : Document.keysOk ["edges", "nodes", "id"] ms = true)
    (h1 : json.accepts (json.decodeSlice (json.decodeEdge (ctx.field "Graph" "edges")) Edge.zero
        "[]depgraph.Edge" (ctx.field "Graph" "edges"))
      (ms.lookup "edges"))
    (h2 : json.accepts (json.decodeSlice (json.decodeNode (ctx.field "Graph" "nodes")) Node.zero
        "[]depgraph.Node" (ctx.field "Graph" "nodes"))
      (ms.lookup "nodes"))
    (h3 : json.accepts (json.decodeString "string" (ctx.field "Graph" "id"))
      (ms.lookup "id"))
    (s : Graph) :
    json.decodeMembers (json.stepGraph ctx) ms s =
      (⟨json.stored (json.decodeSlice (json.decodeEdge (ctx.field "Graph" "edges")) Edge.zero
        "[]depgraph.Edge" (ctx.field "Graph" "edges")) s.Edges
          (ms.lookup "edges"),
        json.stored (json.decodeSlice (json.decodeNode (ctx.field "Graph" "nodes")) Node.zero
        "[]depgraph.Node" (ctx.field "Graph" "nodes")) s.Nodes
          (ms.lookup "nodes"),
        json.stored (json.decodeString "string" (ctx.field "Graph" "id")) s.BuildID
          (ms.lookup "id")⟩, none) := by
  induction ms generalizing s with
  | nil => rfl
  | cons m ms ih =>
    obtain ⟨k, v⟩ := m
    obtain ⟨hnone', hother, hk', hexact⟩ := keysOk_cons _ k v ms hk
    by_cases c1 : k = "edges"
    · subst c1
      have hnone := hnone' (by decide)
      have l2 := hother "nodes" (by decide)
      rw [l2] at h2 ⊢
      have l3 := hother "id" (by decide)
      rw [l3] at h3 ⊢
      have e := h1 v (by simp [List.lookup]) s.Edges
      have hf : json.findField ["edges", "nodes", "id"] "edges" = some 0 := by decide
      simp only [json.decodeMembers, json.stepGraph, hf]
      rw [ih hk' (hnone ▸ accepts_none _) h2 h3]
      simp [json.stored, hnone, e, json.firstError, List.lookup]
    · by_cases c2 : k = "nodes"
      · subst c2
        have hnone := hnone' (by decide)
        have l1 := hother "edges" (by decide)
        rw [l1] at h1 ⊢
        have l3 := hother "id" (by decide)
        rw [l3] at h3 ⊢
        have e := h2 v (by simp [List.lookup]) s.Nodes
        have hf : json.findField ["edges", "nodes", "id"] "nodes" = some 1 := by decide
        simp only [json.decodeMembers, json.stepGraph, hf]
        rw [ih hk' h1 (hnone ▸ accepts_none _) h3]
        simp [json.stored, hnone, e, json.firstError, List.lookup]
      · by_cases c3 : k = "id"
        · subst c3
          have hnone := hnone' (by decide)
          have l1 := hother "edges" (by decide)
          rw [l1] at h1 ⊢
          have l2 := hother "nodes" (by decide)
          rw [l2] at h2 ⊢
          have e := h3 v (by simp [List.lookup]) s.BuildID
          have hf : json.findField ["edges", "nodes", "id"] "id" = some 2 := by decide
          simp only [json.decodeMembers, json.stepGraph, hf]
          rw [ih hk' h1 h2 (hnone ▸ accepts_none _)]
          simp [json.stored, hnone, e, json.firstError, List.lookup]
        · have l1 := hother "edges" (Ne.symm c1)
          rw [l1] at h1 ⊢
          have l2 := hother "nodes" (Ne.symm c2)
          rw [l2] at h2 ⊢
          have l3 := hother "id" (Ne.symm c3)
          rw [l3] at h3 ⊢
          have hf : json.findField ["edges", "nodes", "id"] k = none :=
            findField_eq_none _ k hexact (by simp [c1, c2, c3])
          simp only [json.decodeMembers, json.stepGraph, hf]
          rw [ih hk' h1 h2 h3]
          simp [json.firstError]

/-- A well-formed document decoded into `&Graph{}` gives, without error, the
nodes and edges its entries describe, in document order. -/
theorem decodeGraph_wellFormed (doc : JSON) (h : Document.WellFormed doc = true) :
    json.decodeGraph Graph.zero doc =
      (⟨.of ((Document.edges doc).map Document.edgeOf),
        .of ((Document.nodes doc).map Document.nodeOf),
        Document.stringOf (Document.member "id" (some doc))⟩, none) := by
  cases doc with
  | object ms =>
    simp only [Document.WellFormed, Bool.and_eq_true] at h
    obtain ⟨⟨⟨hk, h1⟩, h2⟩, h3⟩ := h
    simp only [json.decodeGraph, json.decodeStruct]
    rw [decodeMembers_graph _ ms hk
      (decodeSlice_accepts _ _ _ _ _ _ (fun x hx old => decodeEdge_accepts _ x hx old) h1)
      (decodeSlice_accepts _ _ _ _ _ _ (fun x hx old => decodeNode_accepts _ x hx old) h2)
      (decodeString_accepts _ _ _ h3)]
    simp only [Graph.zero,
      decodeSlice_stored _ _ _ _ _ Document.edgeOf _ (fun x hx => decodeEdge_stored _ x hx) h1,
      decodeSlice_stored _ _ _ _ _ Document.nodeOf _ (fun x hx => decodeNode_stored _ x hx) h2,
      decodeString_stored _ _ _ h3, Document.edges, Document.nodes, Document.member]
  | _ => simp [Document.WellFormed] at h

/-- When `New` has handed `data` to the decoder, its results are those of the decoder:
the decoded graph stamped with `build`, or the decoder's error wrapped. -/
theorem New_of_unmarshal (fetch : Fetcher) (w : World) (build S data : String)
    (h : Call.Unmarshal data ∈ (New fetch w build S).calls) :
    ((json.Unmarshal data Graph.zero).2 = none →
      (New fetch w build S).graph = some { (json.Unmarshal data Graph.zero).1 with BuildID := build } ∧
      (New fetch w build S).err = none) ∧
    (∀ e, (json.Unmarshal data Graph.zero).2 = some e →
      (New fetch w build S).graph = none ∧
      (New fetch w build S).err = some (.withMessage e "problem reading json")) := by
  revert h
  apply New_cases fetch w build S
    (motive := fun o => Call.Unmarshal data ∈ o.calls →
      ((json.Unmarshal data Graph.zero).2 = none →
        o.graph = some { (json.Unmarshal data Graph.zero).1 with BuildID := build } ∧
        o.err = none) ∧
      (∀ e, (json.Unmarshal data Graph.zero).2 = some e →
        o.graph = none ∧ o.err = some (.withMessage e "problem reading json")))
  all_goals intros
  all_goals simp_all

/-- C6, as stated, fails: the document `{}` loads, and the same document with a
top-level member `"id":5` added does not: the decoder cannot store a number in
the string field `BuildID`. -/
theorem New_number_id_fails :
    ((New cacheDownload (worldOf [("g.json", "\x7b\x7d")] "") "b1" "g.json").graph
        = some ⟨.nil, .nil, "b1"⟩ ∧
      (New cacheDownload (worldOf [("g.json", "\x7b\x7d")] "") "b1" "g.json").err = none) ∧
    ((New cacheDownload (worldOf [("g.json", "\x7b\"id\":5\x7d")] "") "b1" "g.json").graph = none ∧
      (New cacheDownload (worldOf [("g.json", "\x7b\"id\":5\x7d")] "") "b1" "g.json").err
        = some (.withMessage (.unmarshalTypeError "number" "string" "Graph" "id")
            "problem reading json")) := by
  decide

/-- One member changes the edges, the nodes and the error in a way that does not
depend on the build identifier the graph holds. -/
theorem stepGraph_core (ctx : json.Context) (k : String) (v : JSON) (g g' : Graph)
    (he : g.Edges = g'.Edges) (hn : g.Nodes = g'.Nodes) :
    (json.stepGraph ctx k v g).1.Edges = (json.stepGraph ctx k v g').1.Edges ∧
    (json.stepGraph ctx k v g).1.Nodes = (json.stepGraph ctx k v g').1.Nodes ∧
    (json.stepGraph ctx k v g).2 = (json.stepGraph ctx k v g').2 := by
  unfold json.stepGraph
  split
  · simp only [he, hn, and_self]
  · simp only [he, hn, and_self]
  · refine ⟨he, hn, ?_⟩
    cases v <;> rfl
  · exact ⟨he, hn, rfl⟩

/-- The members of a document change the edges, the nodes and the error in a way
that does not depend on the build identifier the graph holds. -/
theorem decodeMembers_core (ctx : json.Context) (ms : List (String × JSON)) (g g' : Graph)
    (he : g.Edges = g'.Edges) (hn : g.Nodes = g'.Nodes) :
    core (json.decodeMembers (json.stepGraph ctx) ms g)
      = core (json.decodeMembers (json.stepGraph ctx) ms g') := by
  induction ms generalizing g g' with
  | nil => simp [core, json.decodeMembers, he, hn]
  | cons m ms ih =>
    obtain ⟨k, v⟩ := m
    obtain ⟨h1, h2, h3⟩ := stepGraph_core ctx k v g g' he hn
    have := ih _ _ h1 h2
    simp only [core, Prod.mk.injEq] at this ⊢
    simp only [json.decodeMembers, this.1, this.2.1, this.2.2, h3, and_self]

/-- A top-level member `id` that holds a string or `null` changes neither the
edges, nor the nodes, and records no error. -/
theorem stepGraph_id (ctx : json.Context) (v : JSON) (g : Graph)
    (h : Document.stringOk (some v) = true) :
    (json.stepGraph ctx "id" v g).1.Edges = g.Edges ∧
    (json.stepGraph ctx "id" v g).1.Nodes = g.Nodes ∧
    (json.stepGraph ctx "id" v g).2 = none := by
  have hf : json.findField ["edges", "nodes", "id"] "id" = some 2 := by decide
  simp only [json.stepGraph, hf, true_and]
  exact decodeString_accepts _ _ _ h v rfl _

/-- Top-level members `id` that hold a string or `null` can be left out without
changing the edges, the nodes or the error. -/
theorem decodeMembers_filter_id (ctx : json.Context) (ms : List (String × JSON)) (g : Graph)
    (hid : ∀ m ∈ ms, m.1 = "id" → Document.stringOk (some m.2) = true) :
    core (json.decodeMembers (json.stepGraph ctx) ms g)
      = core (json.decodeMembers (json.stepGraph ctx) (ms.filter notId) g) := by
  induction ms generalizing g with
  | nil => rfl
  | cons m ms ih =>
    obtain ⟨k, v⟩ := m
    have hrest : ∀ m ∈ ms, m.1 = "id" → Document.stringOk (some m.2) = true :=
      fun m hm => hid m (List.mem_cons_of_mem _ hm)
    by_cases hk : k = "id"
    · subst hk
      obtain ⟨h1, h2, h3⟩ := stepGraph_id ctx v g (hid _ (List.mem_cons_self _ _) rfl)
      have hf : List.filter notId (("id", v) :: ms) = List.filter notId ms := by
        simp [List.filter, notId]
      rw [hf, ← ih g hrest, ← decodeMembers_core ctx ms _ g h1 h2]
      simp only [core, json.decodeMembers, h3, json.firstError]
    · have hf : List.filter notId ((k, v) :: ms) = (k, v) :: List.filter notId ms := by
        have hb : notId (k, v) = true := by simp [notId, hk]
        simp only [List.filter, hb]
      rw [hf]
      have := ih (json.stepGraph ctx k v g).1 hrest
      simp only [core, Prod.mk.injEq] at this ⊢
      simp only [json.decodeMembers, this.1, this.2.1, this.2.2, and_self]

/-- C6, amended: top-level members `id` that hold a string or `null` are
ignored.  If two documents have the same members apart from such top-level `id`
members (some added, removed or changed), `New` returns the same graph and the
same error for both. -/
theorem New_ignores_string_id (fetch fetch' : Fetcher) (w w' : World)
    (build S S' data data' : String) (ms ms' : List (String × JSON))
    (hcall : Call.Unmarshal data ∈ (New fetch w build S).calls)
    (hcall' : Call.Unmarshal data' ∈ (New fetch' w' build S').calls)
    (hscan : json.scan data = .ok (.object ms))
    (hscan' : json.scan data' = .ok (.object ms'))
    (hrest : ms.filter notId = ms'.filter notId)
    (hid : ∀ m ∈ ms, m.1 = "id" → Document.stringOk (some m.2) = true)
    (hid' : ∀ m ∈ ms', m.1 = "id" → Document.stringOk (some m.2) = true) :
    (New fetch w build S).graph = (New fetch' w' build S').graph ∧
    (New fetch w build S).err = (New fetch' w' build S').err := by
  have hcore : core (json.Unmarshal data Graph.zero) = core (json.Unmarshal data' Graph.zero) := by
    simp only [json.Unmarshal, hscan, hscan', json.decodeGraph, json.decodeStruct]
    rw [decodeMembers_filter_id _ ms _ hid, decodeMembers_filter_id _ ms' _ hid', hrest]
  simp only [core, Prod.mk.injEq] at hcore
  obtain ⟨h1, h2, h3⟩ := hcore
  have hN := New_of_unmarshal fetch w build S data hcall
  have hN' := New_of_unmarshal fetch' w' build S' data' hcall'
  cases he : (json.Unmarshal data Graph.zero).2 with
  | none =>
    obtain ⟨a, b⟩ := hN.1 he
    obtain ⟨a', b'⟩ := hN'.1 (h3 ▸ he)
    rw [a, b, a', b']
    simp only [h1, h2, and_self]
  | some e =>
    obtain ⟨a, b⟩ := hN.2 e he
    obtain ⟨a', b'⟩ := hN'.2 e (h3 ▸ he)
    rw [a, b, a', b']
    exact ⟨rfl, rfl⟩

/-- A document without `id`, and the same with a string `id` in front and a
`null` one at the end, load alike. -/
theorem New_ignores_string_id_witness :
    (New cacheDownload (worldOf [("g.json", "\x7b\"nodes\":[]\x7d")] "") "b1" "g.json").graph
      = (New cacheDownload (worldOf [("h.json", "\x7b\"id\":\"x\",\"nodes\":[],\"id\":null\x7d")] "")
          "b1" "h.json").graph ∧
    (New cacheDownload (worldOf [("g.json", "\x7b\"nodes\":[]\x7d")] "") "b1" "g.json").err
      = (New cacheDownload (worldOf [("h.json", "\x7b\"id\":\"x\",\"nodes\":[],\"id\":null\x7d")] "")
          "b1" "h.json").err :=
  New_ignores_string_id cacheDownload cacheDownload _ _ "b1" "g.json" "h.json"
    "\x7b\"nodes\":[]\x7d" "\x7b\"id\":\"x\",\"nodes\":[],\"id\":null\x7d"
    [("nodes", .array [])] [("id", .string "x"), ("nodes", .array []), ("id", .null)]
    (by decide) (by decide) (by rfl) (by rfl) (by rfl)
    (by simp [Document.stringOk]) (by simp [Document.stringOk, Document.isAbsent])

/-- The scanner gives a hexadecimal digit the value the grammar gives it. -/
theorem hexVal_hexValue (c : Char) (h : Document.isHex c = true) :
    json.hexVal c = some (Document.hexValue c) := by
  simp only [Document.isHex, Document.hexDigits, List.contains_eq_any_beq, List.any_eq_true,
    beq_iff_eq] at h
  obtain ⟨x, hx, rfl⟩ := h
  simp only [String.toList, List.mem_cons, List.mem_singleton] at hx
  simp only [List.not_mem_nil, or_false] at hx
  rcases hx with h | h | h | h | h | h | h | h | h | h | h | h | h | h | h | h | h | h | h | h | h | h <;>
    subst h <;> decide

/-- A `\u` escape of four hexadecimal digits, read among the characters of a
string: the scanner goes on with the code unit the digits are worth. -/
theorem scanString_unicode (p : Option Nat) (a b c d : Char) (acc cs : List Char)
    (ha : Document.isHex a = true) (hb : Document.isHex b = true)
    (hc : Document.isHex c = true) (hd : Document.isHex d = true) :
    json.scanString p .plain acc ('\\' :: 'u' :: a :: b :: c :: d :: cs)
      = json.scanString (json.utf16 p acc (Document.hex4 a b c d)).1 .plain
          (json.utf16 p acc (Document.hex4 a b c d)).2 cs := by
  have hne : ('\\' : Char) ≠ '"' := by decide
  have hv : ((0 * 16 + Document.hexValue a) * 16 + Document.hexValue b) * 16
      + Document.hexValue c = (Document.hexValue a * 16 + Document.hexValue b) * 16
      + Document.hexValue c := by ring
  simp only [json.scanString, hne, if_false, if_true, hexVal_hexValue a ha, hexVal_hexValue b hb,
    hexVal_hexValue c hc, hexVal_hexValue d hd, Document.hex4]
  simp [hv]

/-- The scanner reads a short escape as the character the escape stands for. -/
theorem unescape_short (e : Char) (h : (Document.Piece.short e).ok = true) :
    e ≠ 'u' ∧ json.unescape e = some (Document.Piece.short e).char := by
  simp only [Document.Piece.ok, List.contains_eq_any_beq, List.any_eq_true, beq_iff_eq] at h
  obtain ⟨x, hx, rfl⟩ := h
  simp only [List.mem_cons, List.mem_singleton, List.not_mem_nil, or_false] at hx
  rcases hx with h | h | h | h | h | h | h | h <;> subst h <;> decide

/-- The scanner reads the pieces of a string up to the closing quote and gives
the characters they stand for, after what it had read before. -/
theorem scanString_pieces (rest : List Char) (ps : List Document.Piece) :
    ∀ (p : Option Nat) (acc : List Char), Document.piecesOk ps = true →
      (p ≠ none → Document.startsLow ps = false) →
      json.scanString p .plain acc (Document.piecesText ps ++ '"' :: rest)
        = .ok (String.mk ((json.flush p ++ acc).reverse ++ ps.map Document.Piece.char), rest) := by
  induction ps with
  | nil =>
    intro p acc _ _
    simp [Document.piecesText, json.scanString]
  | cons x ps ih =>
    intro p acc hok hp
    simp only [Document.piecesOk, Bool.and_eq_true, Bool.not_eq_true', Bool.and_eq_false_imp] at hok
    obtain ⟨⟨hx, hhl⟩, hps⟩ := hok
    cases x with
    | plain c =>
      simp only [Document.Piece.ok, Bool.and_eq_true, decide_eq_true_eq, bne_iff_ne, ne_eq] at hx
      obtain ⟨⟨h32, hq⟩, hb⟩ := hx
      have h32' : ¬ c.toNat < 32 := by omega
      simp only [Document.piecesText, Document.Piece.text, List.cons_append, List.nil_append,
        json.scanString, hq, hb, h32', if_false]
      refine (ih none _ hps (fun h => absurd rfl h)).trans ?_
      simp [json.flush, Document.Piece.char]
    | short e =>
      obtain ⟨hu, hun⟩ := unescape_short e hx
      have hne : ('\\' : Char) ≠ '"' := by decide
      simp only [Document.piecesText, Document.Piece.text, List.cons_append, List.nil_append,
        json.scanString, hne, if_false, if_true, hu, hun]
      refine (ih none _ hps (fun h => absurd rfl h)).trans ?_
      simp [json.flush]
    | unicode a b c d =>
      simp only [Document.Piece.ok, Bool.and_eq_true] at hx
      obtain ⟨⟨⟨ha, hb⟩, hc⟩, hd⟩ := hx
      simp only [Document.piecesText, Document.Piece.text, List.cons_append, List.nil_append]
      rw [scanString_unicode p a b c d acc _ ha hb hc hd]
      by_cases hlow : Document.isLow (Document.hex4 a b c d) = true
      · have hpn : p = none := by
          by_contra hne
          have := hp hne
          simp [Document.startsLow, Document.Piece.low, hlow] at this
        subst hpn
        have hl' : 56320 ≤ Document.hex4 a b c d ∧ Document.hex4 a b c d ≤ 57343 := by
          simpa [Document.isLow] using hlow
        simp only [json.utf16, hl', and_self, if_true]
        refine (ih none _ hps (fun h => absurd rfl h)).trans ?_
        simp [json.flush, Document.Piece.char, hlow, json.replacementChar]
      · have hl' : ¬ (56320 ≤ Document.hex4 a b c d ∧ Document.hex4 a b c d ≤ 57343) := by
          simpa [Document.isLow] using hlow
        by_cases hhigh : Document.isHigh (Document.hex4 a b c d) = true
        · have hh' : 55296 ≤ Document.hex4 a b c d ∧ Document.hex4 a b c d ≤ 56319 := by
            simpa [Document.isHigh] using hhigh
          simp only [json.utf16, hl', hh', and_self, if_true, if_false]
          have hsl : Document.startsLow ps = false := hhl (by simpa [Document.Piece.high] using hhigh)
          refine (ih (some _) _ hps (fun _ => hsl)).trans ?_
          simp [json.flush, Document.Piece.char, hhigh, json.replacementChar]
        · have hh' : ¬ (55296 ≤ Document.hex4 a b c d ∧ Document.hex4 a b c d ≤ 56319) := by
            simpa [Document.isHigh] using hhigh
          simp only [json.utf16, hl', hh', if_false]
          refine (ih none _ hps (fun h => absurd rfl h)).trans ?_
          simp [json.flush, Document.Piece.char, hhigh, hlow]
    | pair a b c d e f g h =>
      simp only [Document.Piece.ok, Bool.and_eq_true] at hx
      obtain ⟨⟨⟨⟨⟨⟨⟨⟨⟨ha, hb⟩, hc⟩, hd⟩, he⟩, hf⟩, hg⟩, hh⟩, hhigh⟩, hlow⟩ := hx
      have hh' : 55296 ≤ Document.hex4 a b c d ∧ Document.hex4 a b c d ≤ 56319 := by
        simpa [Document.isHigh] using hhigh
      have hl1 : ¬ (56320 ≤ Document.hex4 a b c d ∧ Document.hex4 a b c d ≤ 57343) := by omega
      have hl' : 56320 ≤ Document.hex4 e f g h ∧ Document.hex4 e f g h ≤ 57343 := by
        simpa [Document.isLow] using hlow
      simp only [Document.piecesText, Document.Piece.text, List.cons_append, List.nil_append]
      rw [scanString_unicode p a b c d acc _ ha hb hc hd]
      simp only [json.utf16, hl1, hh', and_self, if_true, if_false]
      rw [scanString_unicode _ e f g h _ _ he hf hg hh]
      simp only [json.utf16, hl', and_self, if_true]
      refine (ih none _ hps (fun h => absurd rfl h)).trans ?_
      simp [json.flush, Document.Piece.char]

/-- The scanner reads a written string, after its opening quote, as the string
its pieces stand for. -/
theorem scanString_key (ps : List Document.Piece) (rest : List Char)
    (h : Document.piecesOk ps = true) :
    json.scanString none .plain [] (Document.piecesText ps ++ '"' :: rest)
      = .ok (Document.pieces ps, rest) := by
  rw [scanString_pieces rest ps none [] h (fun h => absurd rfl h)]
  simp [json.flush, Document.pieces]

/-- The digits the scanner takes are the longest run of decimal digits. -/
theorem digits_eq (cs : List Char) :
    json.digits cs = (cs.takeWhile Char.isDigit, cs.dropWhile Char.isDigit) := by
  induction cs with
  | nil => rfl
  | cons c cs ih =>
    by_cases h : c.isDigit = true
    · simp [json.digits, h, ih, List.takeWhile_cons, List.dropWhile_cons]
    · simp [json.digits, h, List.takeWhile_cons, List.dropWhile_cons]

/-- Every character of white space is a space, a tab, a line feed or a carriage return. -/
theorem blank_cons (c : Char) (ws : List Char) (h : Document.blank (c :: ws) = true) :
    (c = ' ' ∨ c = '\t' ∨ c = '\n' ∨ c = '\r') ∧ Document.blank ws = true := by
  simp only [Document.blank, List.all_cons, Bool.and_eq_true, Bool.or_eq_true,
    decide_eq_true_eq] at h
  refine ⟨?_, by simpa [Document.blank] using h.2⟩
  rcases h.1 with ((h | h) | h) | h
  · exact Or.inl h
  · exact Or.inr (Or.inl h)
  · exact Or.inr (Or.inr (Or.inl h))
  · exact Or.inr (Or.inr (Or.inr h))

/-- What may follow a number does not go on as a number. -/
theorem delimits_head (rest : List Char) (h : Document.delimits rest = true) :
    rest = [] ∨ ∃ c r, rest = c :: r ∧ c.isDigit = false ∧ c ≠ '.' ∧ c ≠ 'e' ∧ c ≠ 'E' := by
  cases rest with
  | nil => exact Or.inl rfl
  | cons c r =>
    right
    refine ⟨c, r, rfl, ?_⟩
    simp only [Document.delimits, Bool.or_eq_true, decide_eq_true_eq] at h
    rcases h with ((h | h) | h) | h
    · subst h; decide
    · subst h; decide
    · subst h; decide
    · rcases (blank_cons c [] h).1 with h | h | h | h <;> subst h <;> decide

/-- A run of digits ends where the text after a number begins. -/
theorem takeWhile_delimited (a rest : List Char) (h : Document.delimits rest = true) :
    (a ++ rest).takeWhile Char.isDigit = a.takeWhile Char.isDigit ∧
    (a ++ rest).dropWhile Char.isDigit = a.dropWhile Char.isDigit ++ rest := by
  induction a with
  | nil =>
    rcases delimits_head rest h with rfl | ⟨c, r, rfl, hc, -⟩
    · simp
    · simp [List.takeWhile_cons, List.dropWhile_cons, hc]
  | cons x xs ih =>
    by_cases hx : x.isDigit = true
    · simp [List.takeWhile_cons, List.dropWhile_cons, hx, ih.1, ih.2]
    · simp [List.takeWhile_cons, List.dropWhile_cons, hx]

/-- The scanner takes exactly a run of digits that is followed by the end of the number. -/
theorem digits_delimited (ds rest : List Char) (hd : Document.isDigits ds = true)
    (h : Document.delimits rest = true) :
    json.digits (ds ++ rest) = (ds, rest) ∧ ds ≠ [] := by
  simp only [Document.isDigits, Bool.and_eq_true, Bool.not_eq_true', List.isEmpty_eq_false] at hd
  have hall : ∀ x ∈ ds, Char.isDigit x = true := by simpa [List.all_eq_true] using hd.2
  have h1 : ds.takeWhile Char.isDigit = ds := List.takeWhile_eq_self_iff.2 hall
  have h2 : ds.dropWhile Char.isDigit = [] := List.dropWhile_eq_nil_iff.2 hall
  have := takeWhile_delimited ds rest h
  refine ⟨?_, ?_⟩
  · rw [digits_eq, this.1, this.2, h1, h2]; rfl
  · intro h0; rw [h0] at hd; simp at hd

/-- The scanner reads an exponent part as written. -/
theorem scanExponent_ok (lit cs rest : List Char) (hok : Document.exponentOk cs = true)
    (h : Document.delimits rest = true) :
    json.scanExponent lit (cs ++ rest) = .ok (String.mk (lit ++ cs), rest) := by
  cases cs with
  | nil =>
    rcases delimits_head rest h with rfl | ⟨c, r, rfl, -, -, he, hE⟩
    · simp [json.scanExponent]
    · simp [json.scanExponent, he, hE]
  | cons e r =>
    simp only [Document.exponentOk, Bool.and_eq_true, Bool.or_eq_true, decide_eq_true_eq] at hok
    obtain ⟨he, hd⟩ := hok
    cases r with
    | nil => simp [Document.isDigits] at hd
    | cons s t =>
      by_cases hs : s = '+' ∨ s = '-'
      · simp only [hs, if_true] at hd
        obtain ⟨hdig, hne⟩ := digits_delimited t rest hd h
        cases t with
        | nil => exact absurd rfl hne
        | cons t0 ts =>
          simp only [json.scanExponent, List.cons_append, he, if_true, hs]
          rw [show t0 :: (ts ++ rest) = (t0 :: ts) ++ rest from rfl, hdig]
          simp
      · simp only [hs, if_false] at hd
        obtain ⟨hdig, hne⟩ := digits_delimited (s :: t) rest hd h
        simp only [json.scanExponent, List.cons_append, he, if_true, hs, if_false]
        rw [show s :: (t ++ rest) = (s :: t) ++ rest from rfl, hdig]
        simp

/-- The scanner reads a fraction part and an exponent part as written. -/
theorem scanFraction_ok (lit cs rest : List Char) (hok : Document.fractionOk cs = true)
    (h : Document.delimits rest = true) :
    json.scanFraction lit (cs ++ rest) = .ok (String.mk (lit ++ cs), rest) := by
  by_cases hdot : ∃ r, cs = '.' :: r
  · obtain ⟨r, rfl⟩ := hdot
    simp only [Document.fractionOk, Bool.and_eq_true, Bool.not_eq_true',
      List.isEmpty_eq_false] at hok
    obtain ⟨hne, hexp⟩ := hok
    have htd := takeWhile_delimited r rest h
    have hex := scanExponent_ok (lit ++ '.' :: r.takeWhile Char.isDigit)
      (r.dropWhile Char.isDigit) rest hexp h
    simp only [json.scanFraction, List.cons_append, if_true, digits_eq, htd.1, htd.2]
    cases htw : r.takeWhile Char.isDigit with
    | nil => exact absurd htw hne
    | cons t0 ts =>
      rw [htw] at hex
      simp only [hex]
      have : lit ++ '.' :: r = lit ++ '.' :: (t0 :: ts) ++ r.dropWhile Char.isDigit := by
        rw [← htw]; simp [List.takeWhile_append_dropWhile]
      rw [this]
  · have hexp : Document.exponentOk cs = true := by
      cases cs with
      | nil => rfl
      | cons d r =>
        have hd : d ≠ '.' := fun hd => hdot ⟨r, by rw [hd]⟩
        unfold Document.fractionOk at hok
        split at hok
        · rename_i heq; injection heq with h1 h2; exact absurd h1 hd
        · exact hok
    have hex := scanExponent_ok lit cs rest hexp h
    cases cs with
    | nil =>
      rcases delimits_head rest h with rfl | ⟨c, r, rfl, -, hc, -, -⟩
      · simp [json.scanFraction]
      · simpa [json.scanFraction, hc] using hex
    | cons d r =>
      have hd : d ≠ '.' := fun hd => hdot ⟨r, by rw [hd]⟩
      simpa [json.scanFraction, hd] using hex

/-- The scanner reads a JSON number without sign as written. -/
theorem scanNumber_ok (sign cs rest : List Char) (hok : Document.unsignedOk cs = true)
    (h : Document.delimits rest = true) :
    json.scanNumber sign (cs ++ rest) = .ok (String.mk (sign ++ cs), rest) := by
  cases cs with
  | nil => simp [Document.unsignedOk] at hok
  | cons c r =>
    by_cases hc : c = '0'
    · simp only [Document.unsignedOk, hc, if_true] at hok
      have := scanFraction_ok (sign ++ ['0']) r rest hok h
      simpa [json.scanNumber, hc] using this
    · simp only [Document.unsignedOk, hc, if_false, Bool.and_eq_true] at hok
      have htd := takeWhile_delimited r rest h
      have := scanFraction_ok (sign ++ c :: r.takeWhile Char.isDigit)
        (r.dropWhile Char.isDigit) rest hok.2 h
      simp only [json.scanNumber, List.cons_append, hc, if_false, hok.1, if_true, digits_eq,
        htd.1, htd.2, this]
      have : sign ++ c :: r = sign ++ c :: r.takeWhile Char.isDigit ++ r.dropWhile Char.isDigit := by
        simp [List.takeWhile_append_dropWhile]
      rw [this]

/-- Nothing is skipped in front of a character that is not white space. -/
theorem skipSpace_cons (c : Char) (cs : List Char) (h : json.isSpace c = false) :
    json.skipSpace (c :: cs) = c :: cs := by
  simp [json.skipSpace, h]

/-- White space is skipped. -/
theorem skipSpace_blank (ws cs : List Char) (h : Document.blank ws = true) :
    json.skipSpace (ws ++ cs) = json.skipSpace cs := by
  induction ws with
  | nil => rfl
  | cons c ws ih =>
    obtain ⟨hc, hws⟩ := blank_cons c ws h
    have : json.isSpace c = true := by
      rcases hc with h | h | h | h <;> subst h <;> decide
    simp [json.skipSpace, this, ih hws]

/-- White space is skipped up to the first character that is not white space. -/
theorem skipSpace_blank_cons (ws : List Char) (c : Char) (cs : List Char)
    (h : Document.blank ws = true) (hc : json.isSpace c = false) :
    json.skipSpace (ws ++ c :: cs) = c :: cs := by
  rw [skipSpace_blank ws _ h, skipSpace_cons c cs hc]

/-- White space in front of what may follow a number may follow a number. -/
theorem delimits_blank (ws cs : List Char) (h : Document.blank ws = true)
    (hcs : Document.delimits cs = true) : Document.delimits (ws ++ cs) = true := by
  cases ws with
  | nil => exact hcs
  | cons c ws =>
    have hc : Document.blank [c] = true := by
      simp only [Document.blank, List.all_cons, Bool.and_eq_true] at h ⊢
      exact ⟨h.1, by simp⟩
    simp [Document.delimits, hc]

/-- White space in front of a value is ignored. -/
theorem scanValue_blank (f d : Nat) (ws cs : List Char) (h : Document.blank ws = true) :
    json.scanValue f d (ws ++ cs) = json.scanValue f d cs := by
  cases f with
  | zero => simp [json.scanValue]
  | succ f => rw [json.scanValue, json.scanValue, skipSpace_blank ws cs h]

/-- White space in front of an entry of an array is ignored. -/
theorem scanElems_blank (f d : Nat) (acc : List JSON) (ws cs : List Char)
    (h : Document.blank ws = true) :
    json.scanElems f d acc (ws ++ cs) = json.scanElems f d acc cs := by
  cases f with
  | zero => simp [json.scanElems]
  | succ f => rw [json.scanElems, json.scanElems, scanValue_blank f d ws cs h]

/-- White space in front of a member of an object is ignored. -/
theorem scanMembers_blank (f d : Nat) (acc : List (String × JSON)) (ws cs : List Char)
    (h : Document.blank ws = true) :
    json.scanMembers f d acc (ws ++ cs) = json.scanMembers f d acc cs := by
  cases f with
  | zero => simp [json.scanMembers]
  | succ f => rw [json.scanMembers, json.scanMembers, skipSpace_blank ws cs h]

/-- A decimal digit is neither white space nor a bracket, brace, quote or minus sign. -/
theorem digit_plain (c : Char) (h : c.isDigit = true) :
    json.isSpace c = false ∧ c ≠ '\x7b' ∧ c ≠ '[' ∧ c ≠ '"' ∧ c ≠ '-' ∧ c ≠ ']' ∧ c ≠ '\x7d' := by
  refine ⟨?_, ?_, ?_, ?_, ?_, ?_, ?_⟩
  · simp only [json.isSpace, Bool.decide_or, Bool.or_eq_false_iff, decide_eq_false_iff_not]
    refine ⟨?_, ?_, ?_, ?_⟩ <;> (rintro rfl; revert h; decide)
  all_goals (rintro rfl; revert h; decide)

/-- A JSON number without sign begins with a decimal digit. -/
theorem unsignedOk_head (cs : List Char) (h : Document.unsignedOk cs = true) :
    ∃ c r, cs = c :: r ∧ c.isDigit = true := by
  cases cs with
  | nil => simp [Document.unsignedOk] at h
  | cons c r =>
    refine ⟨c, r, rfl, ?_⟩
    by_cases hc : c = '0'
    · subst hc; decide
    · simp only [Document.unsignedOk, hc, if_false, Bool.and_eq_true] at h
      exact h.1

/-- The scanner reads a JSON number as the number with that literal. -/
theorem scanValue_number (f d : Nat) (lit : String) (rest : List Char)
    (hok : Document.numberOk lit = true) (h : Document.delimits rest = true) :
    json.scanValue (f + 1) d (lit.toList ++ rest) = .ok (.number lit, rest) := by
  by_cases hm : ∃ r, lit.toList = '-' :: r
  · obtain ⟨r, hr⟩ := hm
    have hu : Document.unsignedOk r = true := by
      unfold Document.numberOk at hok
      rw [hr] at hok
      exact hok
    have hn := scanNumber_ok ['-'] r rest hu h
    have e : String.mk ('-' :: r) = lit := by rw [← hr]; cases lit; rfl
    simp only [List.singleton_append] at hn
    rw [e] at hn
    rw [hr]
    simp [json.scanValue, json.skipSpace, json.isSpace, hn]
  · have hu : Document.unsignedOk lit.toList = true := by
      unfold Document.numberOk at hok
      split at hok
      · rename_i r heq; exact absurd ⟨r, heq⟩ hm
      · exact hok
    obtain ⟨c, r, hr, hc⟩ := unsignedOk_head _ hu
    have hn := scanNumber_ok [] lit.toList rest hu h
    obtain ⟨h1, h2, h3, h4, h5, -, -⟩ := digit_plain c hc
    have e : String.mk lit.toList = lit := rfl
    simp only [List.nil_append, e] at hn
    rw [hr] at hn ⊢
    simp only [List.cons_append] at hn ⊢
    simp [json.scanValue, json.skipSpace, h1, h2, h3, h4, h5, hc, hn]

/-- The scanner reads a written string as the string its pieces stand for. -/
theorem scanValue_string (f d : Nat) (ps : List Document.Piece) (rest : List Char)
    (h : Document.piecesOk ps = true) :
    json.scanValue (f + 1) d ('"' :: (Document.piecesText ps ++ '"' :: rest))
      = .ok (.string (Document.pieces ps), rest) := by
  simp [json.scanValue, json.skipSpace, json.isSpace, scanString_key ps rest h]

/-- The text of a written value begins with a character that is neither white
space nor a closing bracket or brace. -/
theorem text_head (b : Nat) (t : Document.Written) (h : t.valid b = true) :
    ∃ c r, t.text = c :: r ∧ json.isSpace c = false ∧ c ≠ ']' ∧ c ≠ '\x7d' := by
  cases t with
  | null => exact ⟨'n', ['u', 'l', 'l'], by rw [Document.Written.text], by decide, by decide, by decide⟩
  | bool t =>
    cases t
    · exact ⟨'f', ['a', 'l', 's', 'e'], by simp [Document.Written.text], by decide, by decide,
        by decide⟩
    · exact ⟨'t', ['r', 'u', 'e'], by simp [Document.Written.text], by decide, by decide, by decide⟩
  | number lit =>
    have hok : Document.numberOk lit = true := by
      cases b <;> simpa [Document.Written.valid] using h
    by_cases hm : ∃ r, lit.toList = '-' :: r
    · obtain ⟨r, hr⟩ := hm
      exact ⟨'-', r, by rw [Document.Written.text]; exact hr, by decide, by decide, by decide⟩
    · have hu : Document.unsignedOk lit.toList = true := by
        unfold Document.numberOk at hok
        split at hok
        · rename_i r heq; exact absurd ⟨r, heq⟩ hm
        · exact hok
      obtain ⟨c, r, hr, hc⟩ := unsignedOk_head _ hu
      obtain ⟨h1, -, -, -, -, h6, h7⟩ := digit_plain c hc
      exact ⟨c, r, by rw [Document.Written.text]; exact hr, h1, h6, h7⟩
  | string ps =>
    exact ⟨'"', Document.piecesText ps ++ ['"'], by rw [Document.Written.text], by decide,
      by decide, by decide⟩
  | array ws es =>
    exact ⟨'[', ws ++ es.text true, by rw [Document.Written.text], by decide, by decide,
      by decide⟩
  | object ws ms =>
    exact ⟨'\x7b', ws ++ ms.text true, by rw [Document.Written.text], by decide, by decide,
      by decide⟩

/-- After an entry of an array comes a comma or the closing bracket. -/
theorem elems_head (es : Document.Elems) :
    ∃ c r, es.text false = c :: r ∧ json.isSpace c = false ∧ (c = ',' ∨ c = ']') := by
  cases es with
  | nil => exact ⟨']', [], by rw [Document.Elems.text], by decide, Or.inr rfl⟩
  | cons before v after rest =>
    exact ⟨',', before ++ (v.text ++ (after ++ rest.text false)),
      by rw [Document.Elems.text]; simp, by decide, Or.inl rfl⟩

/-- After a member of an object comes a comma or the closing brace. -/
theorem members_head (ms : Document.Members) :
    ∃ c r, ms.text false = c :: r ∧ json.isSpace c = false ∧ (c = ',' ∨ c = '\x7d') := by
  cases ms with
  | nil => exact ⟨'\x7d', [], by rw [Document.Members.text], by decide, Or.inr rfl⟩
  | cons before key mid pre v after rest =>
    exact ⟨',', _, by rw [Document.Members.text]; simp; rfl, by decide, Or.inl rfl⟩

/-- What follows an entry of an array may follow a number. -/
theorem delimits_elems (after : List Char) (es : Document.Elems) (rest : List Char)
    (h : Document.blank after = true) :
    Document.delimits (after ++ (es.text false ++ rest)) = true := by
  apply delimits_blank _ _ h
  obtain ⟨c, r, hr, -, hc⟩ := elems_head es
  rw [hr]
  rcases hc with rfl | rfl <;> simp [Document.delimits]

/-- What follows a member of an object may follow a number. -/
theorem delimits_members (after : List Char) (ms : Document.Members) (rest : List Char)
    (h : Document.blank after = true) :
    Document.delimits (after ++ (ms.text false ++ rest)) = true := by
  apply delimits_blank _ _ h
  obtain ⟨c, r, hr, -, hc⟩ := members_head ms
  rw [hr]
  rcases hc with rfl | rfl <;> simp [Document.delimits]

/-- The scanner reads the text of a written value that follows the grammar as
the value it denotes, and leaves the text behind it: for a value, for the
entries of an array from one entry on, and for the members of an object from
one key on.  The fuel need only cover the length of the text. -/
theorem scan_written (f : Nat) :
    (∀ (b d : Nat) (t : Document.Written) (rest : List Char),
      t.valid b = true → d + b ≤ json.maxNestingDepth →
      t.text.length ≤ f → Document.delimits rest = true →
      json.scanValue f d (t.text ++ rest) = .ok (t.value, rest)) ∧
    (∀ (b d : Nat) (acc : List JSON) (v : Document.Written) (after : List Char)
      (es : Document.Elems) (rest : List Char),
      v.valid b = true → Document.blank after = true → es.valid b = true →
      d + b ≤ json.maxNestingDepth →
      v.text.length + (es.text false).length ≤ f →
      json.scanElems f d acc (v.text ++ (after ++ (es.text false ++ rest)))
        = .ok (.array (acc.reverse ++ v.value :: es.values), rest)) ∧
    (∀ (b d : Nat) (acc : List (String × JSON)) (key : List Document.Piece)
      (mid pre : List Char) (v : Document.Written) (after : List Char)
      (ms : Document.Members) (rest : List Char),
      Document.piecesOk key = true → Document.blank mid = true → Document.blank pre = true →
      v.valid b = true → Document.blank after = true → ms.valid b = true →
      d + b ≤ json.maxNestingDepth →
      v.text.length + (ms.text false).length ≤ f →
      json.scanMembers f d acc
          ('"' :: (Document.piecesText key ++ '"' :: (mid ++ ':' :: (pre ++ (v.text ++
            (after ++ (ms.text false ++ rest)))))))
        = .ok (.object (acc.reverse ++ (Document.pieces key, v.value) :: ms.values), rest)) := by
  induction f with
  | zero =>
    refine ⟨?_, ?_, ?_⟩
    · intro b d v rest hw _ hl _
      obtain ⟨c, r, hr, -⟩ := text_head b v hw
      rw [hr] at hl; simp at hl
    · intro b d acc v after es rest hw _ _ _ hl
      obtain ⟨c, r, hr, -⟩ := text_head b v hw
      rw [hr] at hl; simp at hl
    · intro b d acc key mid pre v after ms rest _ _ _ hw _ _ _ hl
      obtain ⟨c, r, hr, -⟩ := text_head b v hw
      rw [hr] at hl; simp at hl
  | succ f ih =>
    obtain ⟨ihv, ihe, ihm⟩ := ih
    refine ⟨?_, ?_, ?_⟩
    · intro b d t rest hw hd hl hrest
      cases t with
      | null =>
        simp [Document.Written.text, Document.Written.value, json.scanValue, json.skipSpace,
          json.isSpace, json.scanLiteral]
      | bool t =>
        cases t <;>
          simp [Document.Written.text, Document.Written.value, json.scanValue, json.skipSpace,
            json.isSpace, json.scanLiteral]
      | number lit =>
        have hok : Document.numberOk lit = true := by
          cases b <;> simpa [Document.Written.valid] using hw
        rw [Document.Written.text, Document.Written.value]
        exact scanValue_number f d lit rest hok hrest
      | string ps =>
        have hok : Document.piecesOk ps = true := by
          cases b <;> simpa [Document.Written.valid] using hw
        rw [Document.Written.text, Document.Written.value]
        have := scanValue_string f d ps rest hok
        simpa using this
      | array ws es =>
        cases b with
        | zero => simp [Document.Written.valid] at hw
        | succ b =>
          have hdepth : ¬ (d + 1 > json.maxNestingDepth) := by omega
          rw [Document.Written.valid, Bool.and_eq_true] at hw
          obtain ⟨hws, hes⟩ := hw
          rw [Document.Written.value]
          cases es with
          | nil =>
            rw [Document.Written.text, Document.Elems.text]
            simp only [List.cons_append, List.append_assoc, List.nil_append]
            rw [json.scanValue, skipSpace_cons '[' _ (by decide)]
            simp [skipSpace_blank_cons ws ']' rest hws (by decide), hdepth,
              Document.Elems.values]
          | cons before v after es1 =>
            rw [Document.Elems.valid] at hes
            simp only [Bool.and_eq_true] at hes
            obtain ⟨⟨⟨hbefore, hv⟩, hafter⟩, hes1⟩ := hes
            obtain ⟨c, r, hr, hsp, hc1, hc2⟩ := text_head b v hv
            have hl2 : v.text.length + (es1.text false).length ≤ f := by
              rw [Document.Written.text, Document.Elems.text] at hl
              simp at hl
              omega
            have key := ihe b (d + 1) [] v after es1 rest hv hafter hes1 (by omega) hl2
            rw [Document.Written.text, Document.Elems.text]
            rw [hr] at key ⊢
            simp only [List.cons_append, List.append_assoc, List.reverse_nil, List.nil_append,
              if_true] at key ⊢
            rw [json.scanValue, skipSpace_cons '[' _ (by decide)]
            have hs : json.skipSpace (ws ++ (before ++ c :: (r ++ (after ++
                (es1.text false ++ rest))))) = c :: (r ++ (after ++ (es1.text false ++ rest))) := by
              rw [skipSpace_blank ws _ hws, skipSpace_blank_cons before c _ hbefore hsp]
            simp [hs, hc1, hdepth, key, Document.Elems.values]
      | object ws ms =>
        cases b with
        | zero => simp [Document.Written.valid] at hw
        | succ b =>
          have hdepth : ¬ (d + 1 > json.maxNestingDepth) := by omega
          rw [Document.Written.valid, Bool.and_eq_true] at hw
          obtain ⟨hws, hms⟩ := hw
          rw [Document.Written.value]
          cases ms with
          | nil =>
            rw [Document.Written.text, Document.Members.text]
            simp only [List.cons_append, List.append_assoc, List.nil_append]
            rw [json.scanValue, skipSpace_cons '\x7b' _ (by decide)]
            simp [skipSpace_blank_cons ws '\x7d' rest hws (by decide), hdepth,
              Document.Members.values]
          | cons before k mid pre v after ms1 =>
            rw [Document.Members.valid] at hms
            simp only [Bool.and_eq_true] at hms
            obtain ⟨⟨⟨⟨⟨⟨hbefore, hk⟩, hmid⟩, hpre⟩, hv⟩, hafter⟩, hms1⟩ := hms
            have hl2 : v.text.length + (ms1.text false).length ≤ f := by
              rw [Document.Written.text, Document.Members.text] at hl
              simp at hl
              omega
            have key := ihm b (d + 1) [] k mid pre v after ms1 rest hk hmid hpre hv hafter hms1
              (by omega) hl2
            rw [Document.Written.text, Document.Members.text]
            simp only [List.cons_append, List.append_assoc, List.reverse_nil, List.nil_append,
              if_true] at key ⊢
            rw [json.scanValue, skipSpace_cons '\x7b' _ (by decide)]
            have hs : json.skipSpace (ws ++ (before ++ '"' :: (Document.piecesText k ++
                '"' :: (mid ++ ':' :: (pre ++ (v.text ++ (after ++
                  (ms1.text false ++ rest)))))))) = '"' :: (Document.piecesText k ++
                '"' :: (mid ++ ':' :: (pre ++ (v.text ++ (after ++
                  (ms1.text false ++ rest)))))) := by
              rw [skipSpace_blank ws _ hws, skipSpace_blank_cons before '"' _ hbefore (by decide)]
            simp [hs, hdepth, key, Document.Members.values]
    · intro b d acc v after es rest hwv hafter hes hd hl
      obtain ⟨c, r, hr, hsp, hor⟩ := elems_head es
      have hlr : 1 ≤ (es.text false).length := by rw [hr]; simp
      have hv := ihv b d v (after ++ (es.text false ++ rest)) hwv hd (by omega)
        (delimits_elems after es rest hafter)
      rw [json.scanElems]
      simp only [hv]
      cases es with
      | nil =>
        rw [Document.Elems.text]
        simp [skipSpace_blank_cons after ']' rest hafter (by decide), Document.Elems.values]
      | cons before1 v1 after1 es1 =>
        rw [Document.Elems.valid] at hes
        simp only [Bool.and_eq_true] at hes
        obtain ⟨⟨⟨hbefore1, hv1⟩, hafter1⟩, hes1⟩ := hes
        obtain ⟨c0, r0, hr0, -⟩ := text_head b v hwv
        have hl1 : v1.text.length + (es1.text false).length ≤ f := by
          rw [Document.Elems.text, hr0] at hl
          simp at hl
          omega
        have key := ihe b d (v.value :: acc) v1 after1 es1 rest hv1 hafter1 hes1 hd hl1
        rw [Document.Elems.text]
        simp only [List.cons_append, List.append_assoc, List.nil_append, Bool.false_eq_true,
          if_false] at key ⊢
        rw [skipSpace_blank_cons after ',' _ hafter (by decide)]
        simp [scanElems_blank f d _ before1 _ hbefore1, key, Document.Elems.values]
    · intro b d acc k mid pre v after ms rest hk hmid hpre hwv hafter hms hd hl
      obtain ⟨c, r, hr, hsp, hor⟩ := members_head ms
      have hlr : 1 ≤ (ms.text false).length := by rw [hr]; simp
      have hv := ihv b d v (after ++ (ms.text false ++ rest)) hwv hd (by omega)
        (delimits_members after ms rest hafter)
      have hq := scanString_key k (mid ++ ':' :: (pre ++ (v.text ++ (after ++
        (ms.text false ++ rest))))) hk
      rw [json.scanMembers, skipSpace_cons '"' _ (by decide)]
      simp only [if_true, hq, skipSpace_blank_cons mid ':' _ hmid (by decide),
        scanValue_blank f d pre _ hpre, hv]
      cases ms with
      | nil =>
        rw [Document.Members.text]
        simp [skipSpace_blank_cons after '\x7d' rest hafter (by decide), Document.Members.values]
      | cons before1 k1 mid1 pre1 v1 after1 ms1 =>
        rw [Document.Members.valid] at hms
        simp only [Bool.and_eq_true] at hms
        obtain ⟨⟨⟨⟨⟨⟨hbefore1, hk1⟩, hmid1⟩, hpre1⟩, hv1⟩, hafter1⟩, hms1⟩ := hms
        obtain ⟨c0, r0, hr0, -⟩ := text_head b v hwv
        have hl1 : v1.text.length + (ms1.text false).length ≤ f := by
          rw [Document.Members.text, hr0] at hl
          simp at hl
          omega
        have key := ihm b d ((Document.pieces k, v.value) :: acc) k1 mid1 pre1 v1 after1 ms1 rest hk1 hmid1 hpre1 hv1
          hafter1 hms1 hd hl1
        rw [Document.Members.text]
        simp only [List.cons_append, List.append_assoc, List.nil_append, Bool.false_eq_true,
          if_false] at key ⊢
        rw [skipSpace_blank_cons after ',' _ hafter (by decide)]
        simp [scanMembers_blank f d _ before1 _ hbefore1, key, Document.Members.values]

/-- The scanner reads the content of a file that holds a written value
following the grammar, between white space, as the document the value denotes. -/
theorem scan_file (before after : List Char) (t : Document.Written)
    (hbefore : Document.blank before = true) (hafter : Document.blank after = true)
    (hvalid : t.valid 10000 = true) :
    json.scan (t.file before after) = .ok t.value := by
  have hd : Document.delimits (after ++ [' ']) = true :=
    delimits_blank after [' '] hafter (by decide)
  have hlen : t.text.length ≤ 2 * (before ++ (t.text ++ (after ++ [' ']))).length + 2 := by
    simp only [List.length_append]
    omega
  have hv := (scan_written (2 * (before ++ (t.text ++ (after ++ [' ']))).length + 2)).1
    10000 0 t (after ++ [' ']) hvalid (by decide) hlen hd
  have hs : json.skipSpace (after ++ [' ']) = [] := by
    rw [skipSpace_blank after _ hafter]
    decide
  have he : before ++ (t.text ++ after) ++ [' '] = before ++ (t.text ++ (after ++ [' '])) := by
    simp
  simp only [json.scan, Document.Written.file, String.toList]
  rw [he, scanValue_blank _ _ before _ hbefore, hv]
  simp only [hs]

/-- C5, as stated, fails.  The document
`{"NODES":[{"id":"a","index":7}],"nodes":[{"id":"b"}]}` is valid JSON with one
entry under `nodes`, named `b` and without `index`; `New` succeeds on it and
returns one node named `b` whose `GraphID` is 7, taken from the entry under
`NODES`, where the entry under `nodes` gives 0.  The same graph comes out of
`{"nodes":[{"id":"a","index":7}],"nodes":[{"id":"b"}]}`, where no entry under
`nodes` has both the name `b` and the index 7. -/
theorem New_merges_members :
    json.scan caseVariantDocument
      = .ok (.object [("NODES", .array [.object [("id", .string "a"), ("index", .number "7")]]),
          ("nodes", .array [.object [("id", .string "b")]])]) ∧
    Document.nodes (.object [("NODES", .array [.object [("id", .string "a"),
          ("index", .number "7")]]), ("nodes", .array [.object [("id", .string "b")]])])
      = [.object [("id", .string "b")]] ∧
    Document.nodeOf (.object [("id", .string "b")]) = ⟨"b", 0, Relationships.zero⟩ ∧
    (New cacheDownload (worldOf [("g.json", caseVariantDocument)] "") "b1" "g.json").graph
      = some ⟨.of [], .of [⟨"b", 7, Relationships.zero⟩], "b1"⟩ ∧
    (New cacheDownload (worldOf [("g.json", caseVariantDocument)] "") "b1" "g.json").err
      = none ∧
    json.scan repeatedKeyDocument
      = .ok (.object [("nodes", .array [.object [("id", .string "a"), ("index", .number "7")]]),
          ("nodes", .array [.object [("id", .string "b")]])]) ∧
    (New cacheDownload (worldOf [("g.json", repeatedKeyDocument)] "") "b1" "g.json").graph
      = some ⟨.of [], .of [⟨"b", 7, Relationships.zero⟩], "b1"⟩ ∧
    (New cacheDownload (worldOf [("g.json", repeatedKeyDocument)] "") "b1" "g.json").err
      = none := by
  exact ⟨rfl, rfl, by decide, by decide, by decide, rfl, by decide, by decide⟩

/-- C5, amended: let a file hold a JSON text, written with any white space
between its tokens and any spelling of its strings, nested at most 10000 deep,
and let the document it denotes be well formed: in every object that is decoded
into a struct, a key that is a member name up to case is spelled as that name
and occurs once, and every member that is present has the shape of its field.
When `New` hands the content of the file to the decoder, it succeeds and returns
a graph whose nodes are those the entries under `nodes` describe and whose edges
are those the entries under `edges` describe, entry by entry in document order
(so as many nodes and edges as there are entries, nothing reordered, dropped or
merged), with `BuildID` the build identifier. -/
theorem New_round_trip (fetch : Fetcher) (w : World) (build S : String)
    (before after : List Char) (t : Document.Written)
    (hcall : Call.Unmarshal (t.file before after) ∈ (New fetch w build S).calls)
    (hbefore : Document.blank before = true) (hafter : Document.blank after = true)
    (hvalid : t.valid 10000 = true) (hwf : Document.WellFormed t.value = true) :
    ∃ g, (New fetch w build S).graph = some g ∧ (New fetch w build S).err = none ∧
      g.Nodes = .of ((Document.nodes t.value).map Document.nodeOf) ∧
      g.Edges = .of ((Document.edges t.value).map Document.edgeOf) ∧
      g.Nodes.elems.length = (Document.nodes t.value).length ∧
      g.Edges.elems.length = (Document.edges t.value).length ∧
      (∀ i : Nat, g.Nodes.elems[i]? = (Document.nodes t.value)[i]?.map Document.nodeOf) ∧
      (∀ j : Nat, g.Edges.elems[j]? = (Document.edges t.value)[j]?.map Document.edgeOf) ∧
      g.BuildID = build := by
  have hu : json.Unmarshal (t.file before after) Graph.zero =
      (⟨.of ((Document.edges t.value).map Document.edgeOf),
        .of ((Document.nodes t.value).map Document.nodeOf),
        Document.stringOf (Document.member "id" (some t.value))⟩, none) := by
    simp only [json.Unmarshal, scan_file before after t hbefore hafter hvalid,
      decodeGraph_wellFormed t.value hwf]
  obtain ⟨hg, he⟩ := (New_of_unmarshal fetch w build S _ hcall).1 (by rw [hu])
  refine ⟨_, hg, he, ?_, ?_, ?_, ?_, ?_, ?_, rfl⟩
  · rw [hu]
  · rw [hu]
  · rw [hu]; simp [Slice.of]
  · rw [hu]; simp [Slice.of]
  · intro i; rw [hu]; simp [Slice.of]
  · intro j; rw [hu]; simp [Slice.of]

/-- The example of the specification: the example document, which is the text
of `exampleWritten`, loaded with build `b1` gives one node named `a.go` with
`GraphID` 0, no edges and `BuildID` `b1`. -/
theorem New_round_trip_witness :
    exampleWritten.file [] [] = exampleDocument ∧
    (New cacheDownload (worldOf [("a.json", exampleDocument)] "") "b1" "a.json").graph
      = some ⟨.of [], .of [⟨"a.go", 0, ⟨.of [], .of [], .of [], .of [], "file"⟩⟩], "b1"⟩ ∧
    ∃ g, (New cacheDownload (worldOf [("a.json", exampleDocument)] "") "b1" "a.json").graph
        = some g ∧
      (New cacheDownload (worldOf [("a.json", exampleDocument)] "") "b1" "a.json").err = none ∧
      g.Nodes = .of ((Document.nodes exampleWritten.value).map Document.nodeOf) ∧
      g.Edges = .of ((Document.edges exampleWritten.value).map Document.edgeOf) ∧
      g.Nodes.elems.length = (Document.nodes exampleWritten.value).length ∧
      g.Edges.elems.length = (Document.edges exampleWritten.value).length ∧
      (∀ i : Nat, g.Nodes.elems[i]?
        = (Document.nodes exampleWritten.value)[i]?.map Document.nodeOf) ∧
      (∀ j : Nat, g.Edges.elems[j]?
        = (Document.edges exampleWritten.value)[j]?.map Document.edgeOf) ∧
      g.BuildID = "b1" :=
  ⟨by decide, by decide,
    New_round_trip cacheDownload (worldOf [("a.json", exampleDocument)] "") "b1" "a.json"
      [] [] exampleWritten (by decide) (by decide) (by decide) (by decide) (by decide)⟩

end Depgraph
